import Mathlib

/-!
# Font preview widget (libsushi): size ladder, glyph coverage, sample text, layout

A shallow embedding of `src/libsushi/sushi-font-widget.c` and
`src/libsushi/sushi-font-loader.c`.

Conventions of the embedding:

* A string that the widget probes is the sequence of its codepoints (`Text`):
  the stock strings, the locale sample and the font names are valid UTF-8, which
  `g_utf8_to_ucs4_fast` decodes to these codepoints.  The character buffer of
  `build_charlist_for_face` and the random sample drawn from it are byte
  strings: there `g_string_append_unichar`, `g_utf8_strlen`,
  `g_utf8_offset_to_pointer` and `g_utf8_find_next_char` work on bytes as in
  GLib.  A pointer into a C string is the list of the bytes from it up to the
  terminating NUL.
* The FreeType face is a record holding the fields the widget reads.  Its
  `family_name` and `style_name` can be null.  `FT_Set_Charmap` refuses a
  character map of format 14 and then leaves the active map as it was; the
  widget does not look at what it returns.
* A local variable that C leaves uninitialised is a parameter of the function
  that reads it.
* A `double` is the rational number it denotes, an addition of doubles rounds to
  the nearest double, and an `int` computation that overflows has no result.
* Random numbers, the locale sample string, the result of parsing a font file and
  the text metrics of cairo are supplied from outside (`Env`, `Backend`).
-/

namespace Sushi

/-- A string, as the sequence of its codepoints. -/
abbrev Text := List Nat

/-- One entry of `face->available_sizes`; `height` is an `FT_Short`. -/
structure FT_Bitmap_Size where
  height : Int
  width : Int
  deriving DecidableEq, Repr

/-- A character map: a finite table of (character code, glyph index) pairs, and
the number `FT_Get_CMap_Format` gives for it.  A code that is not listed, or is
listed with index 0, has no glyph.  Format 14 is the table of Unicode variation
sequences, which FreeType does not let become the active map and which gives no
glyph to a character code on its own. -/
structure FT_CharMapRec where
  entries : List (Nat × Nat)
  format : Nat := 4
  deriving DecidableEq, Repr

/-- The fields of `FT_FaceRec` read by the widget.  `charmap` is the active
character map, kept as its position in `charmaps` (`none` is the null pointer);
`num_charmaps` and `num_fixed_sizes` are the lengths of the two lists;
`family_name` and `style_name` are null (`none`) for a font that carries no names. -/
structure FT_FaceRec where
  face_flags : Nat
  family_name : Option Text
  style_name : Option Text
  available_sizes : List FT_Bitmap_Size
  charmaps : List FT_CharMapRec
  charmap : Option Nat
  deriving DecidableEq, Repr

namespace FT_FaceRec

def num_fixed_sizes (face : FT_FaceRec) : Nat := face.available_sizes.length

def num_charmaps (face : FT_FaceRec) : Nat := face.charmaps.length

end FT_FaceRec

/-- The flag `FT_FACE_FLAG_SCALABLE`, which is `1L << 0`. -/
def FT_FACE_FLAG_SCALABLE : Nat := 1

/-- The test `FT_IS_SCALABLE (face)`, which is `face->face_flags & FT_FACE_FLAG_SCALABLE`. -/
def FT_IS_SCALABLE (face : FT_FaceRec) : Bool :=
  face.face_flags &&& FT_FACE_FLAG_SCALABLE != 0

/-! ## build_sizes_table -/

/-- What `build_sizes_table` hands back: the array `sizes` and the two out-parameters. -/
structure SizesTable where
  sizes : List Int
  n_sizes : Int
  alpha_size : Int
  deriving DecidableEq, Repr

/-- The `for` loop of the fixed-size branch of `build_sizes_table`, over the
entries not yet visited: each height is stored, and `alpha_size` is overwritten
by every height that is at most 24. -/
def build_sizes_loop : List FT_Bitmap_Size → List Int → Int → List Int × Int
  | [], sizes, alpha_size => (sizes, alpha_size)
  | s :: rest, sizes, alpha_size =>
      build_sizes_loop rest (sizes ++ [s.height])
        (if s.height ≤ 24 then s.height else alpha_size)

def build_sizes_table (face : FT_FaceRec) : SizesTable :=
  if FT_IS_SCALABLE face then
    { sizes := [8, 10, 12, 18, 24, 36, 48, 72], n_sizes := 8, alpha_size := 24 }
  else
    let r := build_sizes_loop face.available_sizes [] 0
    { sizes := r.1, n_sizes := face.num_fixed_sizes, alpha_size := r.2 }

/-- The statement of the size-ladder contract for a list of heights: `a` is the
largest listed height that is at most 24, or 0 when there is none. -/
def IsMaxHeightLe24 (heights : List Int) (a : Int) : Prop :=
  (a ∈ heights ∧ a ≤ 24 ∧ ∀ h ∈ heights, h ≤ 24 → h ≤ a) ∨
  ((∀ h ∈ heights, ¬ h ≤ 24) ∧ a = 0)

/-- A bitmap face (flag word 0) with the given pixel heights and no character map. -/
def bitmapFace (heights : List Int) : FT_FaceRec :=
  { face_flags := 0, family_name := some [], style_name := some [],
    available_sizes := heights.map (fun h => { height := h, width := h }),
    charmaps := [], charmap := none }

/-! ## FreeType character-map primitives

FreeType is an external library; these are its documented behaviours on the
face record above. -/

/-- The glyph index a character map gives to a character code (0: no glyph). -/
def FT_CharMapRec.glyph (cm : FT_CharMapRec) (c : Nat) : Nat :=
  if cm.format = 14 then 0 else (cm.entries.lookup c).getD 0

/-- The record behind `face->charmap`, when it is not null. -/
def active_charmap (face : FT_FaceRec) : Option FT_CharMapRec :=
  match face.charmap with
  | none => none
  | some i => face.charmaps[i]?

/-- The call `FT_Set_Charmap (face, face->charmaps[map])`, as the face it
leaves.  On a map of format 14 FreeType returns an error and does not touch
`face->charmap`; the callers in the widget ignore the returned error code. -/
def FT_Set_Charmap (face : FT_FaceRec) (map : Nat) : FT_FaceRec :=
  match face.charmaps[map]? with
  | none => face
  | some cm => if cm.format = 14 then face else { face with charmap := some map }

/-- The call `FT_Get_Char_Index (face, c)`: the glyph index of `c` under the
active character map, 0 when there is no glyph or no active map. -/
def FT_Get_Char_Index (face : FT_FaceRec) (c : Nat) : Nat :=
  match active_charmap face with
  | none => 0
  | some cm => cm.glyph c

/-- The least element of a list of character codes. -/
def least_code : List Nat → Option Nat
  | [] => none
  | c :: rest =>
      match least_code rest with
      | none => some c
      | some m => some (if c ≤ m then c else m)

/-- The character codes above `c` to which the map gives a glyph. -/
def codes_above (cm : FT_CharMapRec) (c : Nat) : List Nat :=
  (cm.entries.map Prod.fst).filter (fun c' => decide (c < c') && (cm.glyph c' != 0))

/-- The call `FT_Get_Next_Char (face, c, &glyph)`, as (returned code, `glyph`):
the next character code above `c` that has a glyph, with its index; (0, 0) when
there is none or no map is active. -/
def FT_Get_Next_Char (face : FT_FaceRec) (c : Nat) : Nat × Nat :=
  match active_charmap face with
  | none => (0, 0)
  | some cm =>
      match least_code (codes_above cm c) with
      | none => (0, 0)
      | some c' => (c', cm.glyph c')

/-! ## check_font_contain_text -/

/-- The state after `check_font_contain_text`: the returned flag, the face (whose
active character map the function changes) and, as a record of the calls made,
the maps handed to `FT_Set_Charmap` in call order. -/
structure CheckResult where
  retval : Bool
  face : FT_FaceRec
  activated : List Nat
  deriving DecidableEq, Repr

/-- The inner loop over `string[idx]`: the value `retval` has when it ends. -/
def scan_text (face : FT_FaceRec) : List Nat → Bool
  | [] => true
  | c :: rest => if FT_Get_Char_Index face c = 0 then false else scan_text face rest

/-- The outer loop `for (map = 0; map < face->num_charmaps; map++)`, with `n`
the number of maps still to visit. -/
def check_font_contain_text_loop (string : List Nat) :
    Nat → Nat → FT_FaceRec → Bool → List Nat → CheckResult
  | 0, _, face, retval, activated => ⟨retval, face, activated⟩
  | n + 1, map, face, _, activated =>
      let face1 := FT_Set_Charmap face map
      let retval := scan_text face1 string
      if retval then ⟨retval, face1, activated ++ [map]⟩
      else check_font_contain_text_loop string n (map + 1) face1 retval (activated ++ [map])

/-- The function `check_font_contain_text (face, text)`.  The local `retval` is
declared without an initialiser and is first assigned inside the loop over the
character maps; `retval0` is the value it holds before that. -/
def check_font_contain_text (retval0 : Bool) (face : FT_FaceRec) (text : Text) : CheckResult :=
  check_font_contain_text_loop text face.num_charmaps 0 face retval0 []

/-- Every codepoint of the text has a glyph under this character map. -/
def map_covers (cm : FT_CharMapRec) (text : Text) : Bool :=
  text.all (fun c => cm.glyph c != 0)

/-- Some character map of the face gives every codepoint of the text a nonzero glyph index. -/
def Covers (face : FT_FaceRec) (text : Text) : Prop :=
  ∃ cm ∈ face.charmaps, ∀ c ∈ text, cm.glyph c ≠ 0

/-- Map number `k` of the face covers the text. -/
def covers_at (face : FT_FaceRec) (text : Text) (k : Nat) : Prop :=
  ∃ cm, face.charmaps[k]? = some cm ∧ map_covers cm text = true

/-- `FT_Set_Charmap` accepts map number `k` of the face: the map is listed and
is not of format 14. -/
def Selectable (face : FT_FaceRec) (k : Nat) : Prop :=
  ∃ cm, face.charmaps[k]? = some cm ∧ cm.format ≠ 14

instance (face : FT_FaceRec) (text : Text) : Decidable (Covers face text) := by
  unfold Covers
  infer_instance

instance (face : FT_FaceRec) (text : Text) (k : Nat) : Decidable (covers_at face text k) :=
  decidable_of_iff ((face.charmaps[k]?.map fun cm => map_covers cm text) = some true)
    (by simp [covers_at])

instance (face : FT_FaceRec) (k : Nat) : Decidable (Selectable face k) :=
  decidable_of_iff ((face.charmaps[k]?.map fun cm => decide (cm.format ≠ 14)) = some true)
    (by simp [Selectable])

/-! ## GLib's UTF-8 primitives

GLib is an external library; these are its functions on byte strings. -/

/-- The loop of `g_string_insert_unichar` that writes the trailing bytes, the
last one first: `i` rounds of `dest[i] = (wc & 0x3f) | 0x80; wc >>= 6`.  It
returns what is left of `wc` and the bytes written. -/
def utf8_trailing : Nat → Nat → List Nat → Nat × List Nat
  | 0, wc, bytes => (wc, bytes)
  | i + 1, wc, bytes => utf8_trailing i (wc >>> 6) (((wc &&& 0x3f) ||| 0x80) :: bytes)

/-- The bytes of a character of `charlen` bytes whose first byte carries the
marker `first`: the trailing bytes, then `dest[0] = wc | first`. -/
def utf8_bytes (charlen first wc : Nat) : List Nat :=
  ((utf8_trailing (charlen - 1) wc []).1 ||| first) % 256 ::
    (utf8_trailing (charlen - 1) wc []).2

/-- The bytes that `g_string_append_unichar (string, wc)` appends for a
`gunichar`, a 32-bit value.  A value of `0x80000000` or more gets the first byte
`0xfe` or `0xff`. -/
def g_unichar_to_utf8 (wc : Nat) : List Nat :=
  if wc < 0x80 then utf8_bytes 1 0 wc
  else if wc < 0x800 then utf8_bytes 2 0xc0 wc
  else if wc < 0x10000 then utf8_bytes 3 0xe0 wc
  else if wc < 0x200000 then utf8_bytes 4 0xf0 wc
  else if wc < 0x4000000 then utf8_bytes 5 0xf8 wc
  else utf8_bytes 6 0xfc wc

/-- The UTF-8 encoding of a sequence of codepoints. -/
def g_utf8_bytes (t : Text) : List Nat :=
  t.flatMap g_unichar_to_utf8

/-- The table `g_utf8_skip`: the length of a character, read off its first byte. -/
def g_utf8_skip (b : Nat) : Nat :=
  if b < 0xc0 then 1
  else if b < 0xe0 then 2
  else if b < 0xf0 then 3
  else if b < 0xf8 then 4
  else if b < 0xfc then 5
  else if b < 0xfe then 6
  else 1

/-- The byte test `(b & 0xc0) == 0x80`: a continuation byte. -/
def utf8_continuation (b : Nat) : Bool :=
  b &&& 0xc0 == 0x80

/-- The step `g_utf8_next_char (p)`, which is `p + g_utf8_skip[*p]`. -/
def g_utf8_next_char (p : List Nat) : List Nat :=
  p.drop (g_utf8_skip (p.headD 0))

/-- The loop `while (*p) { p = g_utf8_next_char (p); ++len; }` of
`g_utf8_strlen`; `fuel` bounds the number of rounds. -/
def g_utf8_strlen_loop : Nat → List Nat → Nat → Nat
  | 0, _, len => len
  | _ + 1, [], len => len
  | fuel + 1, b :: rest, len => g_utf8_strlen_loop fuel (g_utf8_next_char (b :: rest)) (len + 1)

/-- The call `g_utf8_strlen (p, -1)`; every round consumes at least one byte. -/
def g_utf8_strlen (p : List Nat) : Nat :=
  g_utf8_strlen_loop p.length p 0

/-- The call `g_utf8_offset_to_pointer (str, offset)` for `offset ≥ 0`:
`offset` steps of `g_utf8_next_char`. -/
def g_utf8_offset_to_pointer : List Nat → Nat → List Nat
  | s, 0 => s
  | s, offset + 1 => g_utf8_offset_to_pointer (g_utf8_next_char s) offset

/-- The call `g_utf8_find_next_char (p, NULL)`: one byte on, then past every
continuation byte.  At the terminating NUL nothing of the string is left. -/
def g_utf8_find_next_char (p : List Nat) : List Nat :=
  match p with
  | [] => []
  | _ :: rest => rest.dropWhile utf8_continuation

/-- The bytes of one character as GLib steps over it: a first byte that is not
NUL and not a continuation byte and that announces the length in `g_utf8_skip`,
followed by that many continuation bytes less one. -/
def WellFormedChar (bytes : List Nat) : Prop :=
  ∃ lead conts, bytes = lead :: conts ∧ g_utf8_skip lead = conts.length + 1 ∧
    utf8_continuation lead = false ∧ lead ≠ 0 ∧ ∀ b ∈ conts, utf8_continuation b = true

/-! ## build_charlist_for_face and random_string_from_available_chars -/

/-- The `do … while (glyph != 0)` loop of `build_charlist_for_face`: `c` is the
current code, `string` the bytes of the `GString` so far.  Each round appends the
code returned by `FT_Get_Next_Char`, cast to `gunichar`, also the final 0.
`fuel` bounds the number of rounds; `none` means the bound was reached. -/
def build_charlist_loop (face : FT_FaceRec) : Nat → Nat → List Nat → Option (List Nat)
  | 0, _, _ => none
  | fuel + 1, c, string =>
      let r := FT_Get_Next_Char face c
      let string1 := string ++ g_unichar_to_utf8 (r.1 % 4294967296)
      if r.2 ≠ 0 then build_charlist_loop face fuel r.1 string1 else some string1

/-- The C string that a character buffer holds: what precedes the first NUL. -/
def c_string (buf : List Nat) : List Nat :=
  buf.takeWhile (fun c => c != 0)

/-- A number of rounds that the loop of `build_charlist_for_face` cannot exceed:
one more than the number of entries of the active character map. -/
def charlist_fuel (face : FT_FaceRec) : Nat :=
  match active_charmap face with
  | none => 1
  | some cm => cm.entries.length + 1

/-- The function `build_charlist_for_face (face)`: the scan starts from code
255, and the result is the byte string the `GString` holds. -/
def build_charlist_for_face (face : FT_FaceRec) : Option (List Nat) :=
  (build_charlist_loop face (charlist_fuel face) 255 []).map c_string

/-- The call `g_random_int_range (begin, end)`, given the raw number the
generator produces: a value in `[begin, end)`; GLib returns `begin` when the
range is empty. -/
def g_random_int_range (raw : Nat) (begin_ end_ : Int) : Int :=
  if begin_ < end_ then begin_ + (raw : Int) % (end_ - begin_) else begin_

/-- The `while (idx < n_chars)` loop of `random_string_from_available_chars`,
with `k` the number of rounds left.  `draws idx` is the raw random number of
round `idx`.  Each round appends the `end - ptr` bytes at `ptr`.  When `ptr` is
at the terminating NUL, as it is in every round for an empty `chars`, what is
appended begins with that NUL, and the C string returned stays empty. -/
def random_string_loop (chars : List Nat) (total_chars : Int) (draws : Nat → Nat) :
    Nat → Nat → List Nat → List Nat
  | 0, _, retval => retval
  | k + 1, idx, retval =>
      let rand := g_random_int_range (draws idx) 0 total_chars
      let ptr := g_utf8_offset_to_pointer chars rand.toNat
      let end_ := g_utf8_find_next_char ptr
      random_string_loop chars total_chars draws k (idx + 1)
        (retval ++ ptr.take (ptr.length - end_.length))

/-- The function `random_string_from_available_chars (face, n_chars)`, as the
byte string it returns. -/
def random_string_from_available_chars (draws : Nat → Nat) (face : FT_FaceRec)
    (n_chars : Int) : Option (List Nat) :=
  match build_charlist_for_face face with
  | none => none
  | some chars =>
      some (random_string_loop chars (g_utf8_strlen chars : Int) draws n_chars.toNat 0 [])

/-! ## The widget's private state and build_strings_for_face -/

/-- The struct `_SushiFontWidgetPrivate`; a null pointer is `none`.  The sample
string is kept as its bytes, since the random sample need not be valid UTF-8;
the other strings are kept as their codepoints. -/
structure SushiFontWidgetPrivate where
  uri : Option Text
  face : Option FT_FaceRec
  face_contents : Option (List Nat)
  lowercase_text : Option Text
  uppercase_text : Option Text
  punctuation_text : Option Text
  sample_string : Option (List Nat)
  font_name : Option Text
  font_supports_title : Bool
  deriving DecidableEq, Repr

/-- The state `sushi_font_widget_init` leaves: the instance data is zero-filled. -/
def sushi_font_widget_init : SushiFontWidgetPrivate :=
  { uri := none, face := none, face_contents := none, lowercase_text := none,
    uppercase_text := none, punctuation_text := none, sample_string := none,
    font_name := none, font_supports_title := false }

def lowercase_text_stock : Text := "abcdefghijklmnopqrstuvwxyz".toList.map Char.toNat

def uppercase_text_stock : Text := "ABCDEFGHIJKLMNOPQRSTUVWXYZ".toList.map Char.toNat

def punctuation_text_stock : Text := "0123456789.:,;(*!?')".toList.map Char.toNat

/-- What the surroundings supply to the code: the value each of the five calls of
`check_font_contain_text` in `build_strings_for_face` finds in its uninitialised
`retval`, the value the call for the title finds in its uninitialised `len`, the
string `pango_language_get_sample_string (NULL)`, the raw numbers of the random
generator, and the outcome of `FT_New_Memory_Face` on a byte buffer (`none`: a
nonzero `FT_Error`). -/
structure Env where
  retval0 : Nat → Bool
  len0 : Int
  locale_sample : Text
  draws : Nat → Nat
  FT_New_Memory_Face : List Nat → Option FT_FaceRec

/-- The call `g_strconcat (string1, sep, string2, NULL)`: the result is null
when `string1` is null, and a null `string2` ends the argument list before it. -/
def g_strconcat (string1 : Option Text) (sep : Text) (string2 : Option Text) : Option Text :=
  match string1 with
  | none => none
  | some a => some (a ++ sep ++ string2.getD [])

/-- The call `g_strconcat (family_name, " ", style_name, NULL)`. -/
def font_title (face : FT_FaceRec) : Option Text :=
  g_strconcat face.family_name [32] face.style_name

/-- The function `check_font_contain_text (face, text)` for a `text` that can be
null.  On the null pointer `g_utf8_to_ucs4_fast` returns null and stores nothing
in `len`, which keeps the value `len0` it held uninitialised: with `0 < len0`
the first map visited reads `string[0]` through the null pointer and there is
no result; otherwise no character is looked at, as for the empty text. -/
def check_font_contain_text_nullable (retval0 : Bool) (len0 : Int) (face : FT_FaceRec)
    (text : Option Text) : Option CheckResult :=
  match text with
  | some t => some (check_font_contain_text retval0 face t)
  | none =>
      if 0 < len0 ∧ 0 < face.num_charmaps then none
      else some (check_font_contain_text retval0 face [])

/-- The function `build_strings_for_face (self)`.  It dereferences
`self->priv->face`, so there is no result when that is null; the other ways to
get `none` are the read through a null title and the round bound of
`build_charlist_for_face`.  The copy `g_strdup (sample_string)` is kept as the
bytes of the locale sample. -/
def build_strings_for_face (env : Env) (priv : SushiFontWidgetPrivate) :
    Option SushiFontWidgetPrivate :=
  match priv.face with
  | none => none
  | some face0 =>
    let r1 := check_font_contain_text (env.retval0 0) face0 lowercase_text_stock
    let lowercase_text := if r1.retval then some lowercase_text_stock else none
    let r2 := check_font_contain_text (env.retval0 1) r1.face uppercase_text_stock
    let uppercase_text := if r2.retval then some uppercase_text_stock else none
    let r3 := check_font_contain_text (env.retval0 2) r2.face punctuation_text_stock
    let punctuation_text := if r3.retval then some punctuation_text_stock else none
    let sample_string := env.locale_sample
    let r4 := check_font_contain_text (env.retval0 3) r3.face sample_string
    match (if r4.retval then some (g_utf8_bytes sample_string)
           else random_string_from_available_chars env.draws r4.face 36) with
    | none => none
    | some sample =>
      let font_name := font_title r4.face
      match check_font_contain_text_nullable (env.retval0 4) env.len0 r4.face font_name with
      | none => none
      | some r5 =>
        some { priv with
          face := some r5.face
          lowercase_text := lowercase_text
          uppercase_text := uppercase_text
          punctuation_text := punctuation_text
          sample_string := some sample
          font_name := font_name
          font_supports_title := r5.retval }

/-! ## The loader's completion -/

/-- The struct `FontLoadJob`, as far as `create_face_from_contents` reads it. -/
structure FontLoadJob where
  face_index : Int
  face_contents : List Nat
  face_length : Nat
  deriving DecidableEq, Repr

/-- What the `GAsyncResult` holds when the callback runs: an error (FreeType
could not be initialised, or the file could not be read), or the job with the
bytes read. -/
inductive AsyncResult where
  | error (message : String)
  | job (j : FontLoadJob)
  deriving DecidableEq, Repr

/-- What a `finish` call hands back: the returned face and the two out-parameters. -/
structure FinishResult where
  face : Option FT_FaceRec
  contents : Option (List Nat)
  error : Option String
  deriving DecidableEq, Repr

/-- The function `create_face_from_contents (job, contents, error)`; `contents`
is what `*contents` held before. -/
def create_face_from_contents (env : Env) (job : FontLoadJob)
    (contents : Option (List Nat)) : FinishResult :=
  match env.FT_New_Memory_Face job.face_contents with
  | none =>
      { face := none, contents := contents,
        error := some "Unable to read the font face file" }
  | some face => { face := some face, contents := some job.face_contents, error := none }

/-- The function `sushi_new_ft_face_from_uri_finish (result, contents, error)`. -/
def sushi_new_ft_face_from_uri_finish (env : Env) (result : AsyncResult)
    (contents : Option (List Nat)) : FinishResult :=
  match result with
  | AsyncResult.error message => { face := none, contents := contents, error := some message }
  | AsyncResult.job j => create_face_from_contents env j contents

/-- The widget after `font_face_async_ready_cb`, with the error message it
printed, if any, and whether it emitted the `loaded` signal. -/
structure ReadyResult where
  priv : SushiFontWidgetPrivate
  printed : Option String
  loaded : Bool
  deriving DecidableEq, Repr

/-- The callback `font_face_async_ready_cb`: the face returned by `finish` is
stored into `self->priv->face` before the error is looked at. -/
def font_face_async_ready_cb (env : Env) (priv : SushiFontWidgetPrivate)
    (result : AsyncResult) : Option ReadyResult :=
  let r := sushi_new_ft_face_from_uri_finish env result priv.face_contents
  let priv1 := { priv with face := r.face, face_contents := r.contents }
  match r.error with
  | some message =>
      some { priv := priv1, printed := some message, loaded := false }
  | none =>
      match build_strings_for_face env priv1 with
      | none => none
      | some priv2 => some { priv := priv2, printed := none, loaded := true }

/-! ## C arithmetic on `gint` and `double`

A `double` is represented by the rational number it denotes.  An addition of
doubles gives the exact sum rounded to the nearest double (53-bit significand,
ties to even); the exponent range is not bounded, so infinities, NaN and
subnormal numbers are not represented.  An `int` result that does not fit
`gint` is undefined in C: such a computation has no result (`none`). -/

def G_MININT : Int := -2147483648

def G_MAXINT : Int := 2147483647

/-- An integer result, when it fits `gint`. -/
def gint_of (z : Int) : Option Int :=
  if G_MININT ≤ z ∧ z ≤ G_MAXINT then some z else none

/-- The sum `a + b` of two `gint`. -/
def gint_add (a b : Int) : Option Int := gint_of (a + b)

/-- The integer nearest to `x`, the even one of the two when `x` lies halfway. -/
def round_half_even (x : ℚ) : Int :=
  if x - ⌊x⌋ < 1 / 2 then ⌊x⌋
  else if 1 / 2 < x - ⌊x⌋ then ⌊x⌋ + 1
  else if ⌊x⌋ % 2 = 0 then ⌊x⌋ else ⌊x⌋ + 1

/-- The double nearest to `q`: with `e` the exponent of the last place of the
53-bit significand of `q`, the nearest multiple of `2 ^ e`. -/
@[irreducible] def round_double (q : ℚ) : ℚ :=
  if q = 0 then 0
  else (round_half_even (q / 2 ^ (Int.log 2 |q| - 52)) : ℚ) * 2 ^ (Int.log 2 |q| - 52)

/-- The sum `a + b` of two `double`. -/
@[irreducible] def double_add (a b : ℚ) : ℚ := round_double (a + b)

/-- The conversion `(int) x` of a `double`: the fraction is discarded. -/
def double_to_gint (x : ℚ) : Option Int :=
  gint_of (if 0 ≤ x then ⌊x⌋ else ⌈x⌉)

/-! ## Measuring and drawing -/

def SECTION_SPACING : Int := 16

/-- The struct `GtkBorder`; its fields are `gint16`. -/
structure GtkBorder where
  left : Int
  right : Int
  top : Int
  bottom : Int
  deriving DecidableEq, Repr

/-- The struct `cairo_text_extents_t`. -/
structure cairo_text_extents_t where
  x_bearing : ℚ
  y_bearing : ℚ
  width : ℚ
  height : ℚ
  x_advance : ℚ
  y_advance : ℚ
  deriving DecidableEq

/-- The font face selected in a cairo context: the one the context came with, or
the one made by `cairo_ft_font_face_create_for_ft_face` for the previewed face. -/
inductive cairo_font_face_t where
  | context_default
  | ft_face
  deriving DecidableEq, Repr

/-- One `cairo_show_text`: the current point given by the `cairo_move_to` before
it, the text, and the font face and size selected at that moment. -/
structure ShownText where
  x : ℚ
  y : ℚ
  text : Option Text
  font_face : cairo_font_face_t
  font_size : Int
  deriving DecidableEq

/-- A cairo context: the selected font face and size, the source colour once it
has been set, and the texts shown so far. -/
structure cairo_t where
  font_face : cairo_font_face_t
  font_size : Int
  source : Option Nat
  shown : List ShownText
  deriving DecidableEq

/-- The context `gdk_cairo_create` returns. -/
def gdk_cairo_create : cairo_t :=
  { font_face := cairo_font_face_t.context_default, font_size := 10, source := none, shown := [] }

/-- The text-metrics backend and the style of the widget: what
`cairo_text_extents` reports for a text under a font face and size, the padding
from `gtk_style_context_get_padding`, and the foreground colour. -/
structure Backend where
  text_extents : cairo_font_face_t → Int → Option Text → cairo_text_extents_t
  padding : GtkBorder
  color : Nat

/-- The function `draw_string (cr, padding, text, &pos_y)`, returning the
context and the new `pos_y`. -/
@[irreducible] def draw_string (be : Backend) (cr : cairo_t) (text : Option Text) (pos_y : Int) :
    Option (cairo_t × Int) :=
  let extents := be.text_extents cr.font_face cr.font_size text
  match double_to_gint (double_add pos_y
      (double_add (double_add extents.height extents.y_advance) be.padding.top)) with
  | none => none
  | some y =>
    let cr1 := { cr with shown := cr.shown ++
      [{ x := be.padding.left, y := y, text := text,
         font_face := cr.font_face, font_size := cr.font_size }] }
    match gint_add y be.padding.bottom with
    | none => none
    | some pos_y1 => some (cr1, pos_y1)

/-- The running values of `sushi_font_widget_size_request`; `advances` lists the
value of `pixmap_height` after each text measured. -/
structure Measured where
  pixmap_width : Int
  pixmap_height : Int
  advances : List Int
  deriving DecidableEq, Repr

/-- The three statements that `sushi_font_widget_size_request` runs for each text:
`cairo_text_extents`, `pixmap_height += …` and `pixmap_width = MAX (…)`. -/
@[irreducible] def measure_text (be : Backend) (font_face : cairo_font_face_t) (font_size : Int)
    (text : Option Text) (m : Measured) : Option Measured :=
  let extents := be.text_extents font_face font_size text
  match double_to_gint (double_add m.pixmap_height
      (double_add (double_add (double_add extents.height extents.y_advance) be.padding.top)
        be.padding.bottom)) with
  | none => none
  | some h =>
    let b := double_add (double_add extents.width be.padding.left) be.padding.right
    match double_to_gint (if (m.pixmap_width : ℚ) > b then (m.pixmap_width : ℚ) else b) with
    | none => none
    | some w => some { pixmap_width := w, pixmap_height := h, advances := m.advances ++ [h] }

/-- A text that is measured only when its pointer is not null. -/
def measure_optional (be : Backend) (font_size : Int) (text : Option Text) (m : Measured) :
    Option Measured :=
  match text with
  | none => some m
  | some t => measure_text be cairo_font_face_t.ft_face font_size (some t) m

/-- The loop `for (i = 0; i < n_sizes; i++)` of `sushi_font_widget_size_request`. -/
def measure_sizes (be : Backend) (sample_string : Option Text) :
    List Int → Measured → Option Measured
  | [], m => some m
  | size :: rest, m =>
      match measure_text be cairo_font_face_t.ft_face size sample_string m with
      | none => none
      | some m1 => measure_sizes be sample_string rest m1

/-- The statement `pixmap_height += d` for an `int` `d`. -/
def measure_space (d : Int) (m : Measured) : Option Measured :=
  match gint_add m.pixmap_height d with
  | none => none
  | some h => some { m with pixmap_height := h }

/-- The function `sushi_font_widget_size_request`, returning what it computes
for `*width` and `*height`. -/
def sushi_font_widget_size_request (be : Backend) (priv : SushiFontWidgetPrivate) :
    Option Measured :=
  match priv.face with
  | none => some { pixmap_width := 1, pixmap_height := 1, advances := [] }
  | some face =>
    let t := build_sizes_table face
    let m0 : Measured :=
      { pixmap_width := be.padding.left + be.padding.right, pixmap_height := 0, advances := [] }
    let title_face :=
      if priv.font_supports_title then cairo_font_face_t.ft_face
      else gdk_cairo_create.font_face
    (measure_text be title_face (t.alpha_size + 6) priv.font_name m0).bind fun m1 =>
    (measure_space (SECTION_SPACING / 2) m1).bind fun m2 =>
    (measure_optional be t.alpha_size priv.lowercase_text m2).bind fun m3 =>
    (measure_optional be t.alpha_size priv.uppercase_text m3).bind fun m4 =>
    (measure_optional be t.alpha_size priv.punctuation_text m4).bind fun m5 =>
    (measure_space SECTION_SPACING m5).bind fun m6 =>
    (measure_sizes be priv.sample_string t.sizes m6).bind fun m7 =>
    measure_space (be.padding.bottom + SECTION_SPACING) m7

/-- The function `sushi_font_widget_get_preferred_width`: minimum and natural width. -/
def sushi_font_widget_get_preferred_width (be : Backend) (priv : SushiFontWidgetPrivate) :
    Option (Int × Int) :=
  (sushi_font_widget_size_request be priv).map fun m => (m.pixmap_width, m.pixmap_width)

/-- The function `sushi_font_widget_get_preferred_height`: minimum and natural height. -/
def sushi_font_widget_get_preferred_height (be : Backend) (priv : SushiFontWidgetPrivate) :
    Option (Int × Int) :=
  (sushi_font_widget_size_request be priv).map fun m => (m.pixmap_height, m.pixmap_height)

/-- The running values of `sushi_font_widget_draw`; `advances` lists the value of
`pos_y` after each `draw_string`. -/
structure Painted where
  cr : cairo_t
  pos_y : Int
  advances : List Int
  deriving DecidableEq

/-- One call of `draw_string` on the running values. -/
@[irreducible] def paint_text (be : Backend) (text : Option Text) (p : Painted) : Option Painted :=
  match draw_string be p.cr text p.pos_y with
  | none => none
  | some (cr1, y) => some { cr := cr1, pos_y := y, advances := p.advances ++ [y] }

/-- A text that is drawn only when its pointer is not null. -/
def paint_optional (be : Backend) (text : Option Text) (p : Painted) : Option Painted :=
  match text with
  | none => some p
  | some t => paint_text be (some t) p

/-- Selecting a font face in the running context. -/
def paint_set_font_face (f : cairo_font_face_t) (p : Painted) : Painted :=
  { p with cr := { p.cr with font_face := f } }

/-- Selecting a font size in the running context. -/
def paint_set_font_size (size : Int) (p : Painted) : Painted :=
  { p with cr := { p.cr with font_size := size } }

/-- The loop `for (i = 0; i < n_sizes; i++)` of `sushi_font_widget_draw`. -/
def paint_sizes (be : Backend) (sample_string : Option Text) :
    List Int → Painted → Option Painted
  | [], p => some p
  | size :: rest, p =>
      match paint_text be sample_string (paint_set_font_size size p) with
      | none => none
      | some p1 => paint_sizes be sample_string rest p1

/-- The statement `pos_y += d` for an `int` `d`. -/
def paint_space (d : Int) (p : Painted) : Option Painted :=
  match gint_add p.pos_y d with
  | none => none
  | some y => some { p with pos_y := y }

/-- The function `sushi_font_widget_draw (drawing_area, cr)`. -/
def sushi_font_widget_draw (be : Backend) (priv : SushiFontWidgetPrivate) (cr : cairo_t) :
    Option Painted :=
  match priv.face with
  | none => some { cr := cr, pos_y := 0, advances := [] }
  | some face =>
    let t := build_sizes_table face
    let p0 : Painted :=
      { cr := { cr with source := some be.color }, pos_y := 0, advances := [] }
    let p0a :=
      if priv.font_supports_title then paint_set_font_face cairo_font_face_t.ft_face p0 else p0
    (paint_text be priv.font_name (paint_set_font_size (t.alpha_size + 6) p0a)).bind fun p1 =>
    (paint_space (SECTION_SPACING / 2)
      (paint_set_font_face cairo_font_face_t.ft_face p1)).bind fun p2 =>
    (paint_optional be priv.lowercase_text (paint_set_font_size t.alpha_size p2)).bind fun p3 =>
    (paint_optional be priv.uppercase_text p3).bind fun p4 =>
    (paint_optional be priv.punctuation_text p4).bind fun p5 =>
    (paint_space SECTION_SPACING p5).bind fun p6 =>
    paint_sizes be priv.sample_string t.sizes p6

/-- A non-negative multiple of 1/64 below `2 ^ 25`: `n / 64` with `n < 2 ^ 31`.
The sums of the layout are computed without rounding on such values; they are
used to evaluate the two passes on given extents. -/
def IsF26Dot6 (x : ℚ) : Prop :=
  ∃ n : ℕ, n < 2147483648 ∧ x = (n : ℚ) / 64

/-- Extents whose height, vertical advance and width are non-negative multiples
of 1/64 below `2 ^ 25`. -/
def ExtentsOk (e : cairo_text_extents_t) : Prop :=
  IsF26Dot6 e.height ∧ IsF26Dot6 e.y_advance ∧ IsF26Dot6 e.width

/-- The padding is a non-negative `gint16` on each side. -/
def Backend.PaddingOk (be : Backend) : Prop :=
  (0 ≤ be.padding.left ∧ be.padding.left ≤ 32767) ∧
  (0 ≤ be.padding.right ∧ be.padding.right ≤ 32767) ∧
  (0 ≤ be.padding.top ∧ be.padding.top ≤ 32767) ∧
  (0 ≤ be.padding.bottom ∧ be.padding.bottom ≤ 32767)

/-- The extents the backend reports do not rise backwards: the sum of the
height and the vertical advance, which both passes add to their position, is
not negative. -/
def Backend.RiseNonneg (be : Backend) : Prop :=
  ∀ f s t, 0 ≤ (be.text_extents f s t).height + (be.text_extents f s t).y_advance

/-- The width `cairo_text_extents` gave for a shown text. -/
def ShownText.width (be : Backend) (op : ShownText) : ℚ :=
  (be.text_extents op.font_face op.font_size op.text).width

/-- A shown text lies within the measured rectangle up to the fraction of a
pixel: it starts at `padding.left`, its baseline is not below the measured
height, and its right edge is less than one pixel beyond the measured width. -/
def InBounds (be : Backend) (m : Measured) (op : ShownText) : Prop :=
  op.x = (be.padding.left : ℚ) ∧ op.y ≤ (m.pixmap_height : ℚ) ∧
  op.x + op.width be < (m.pixmap_width : ℚ) + 1

/-- The drawing pass is not ahead of the measuring pass, and everything shown
since `base` lies within what has been measured so far. -/
def Within (be : Backend) (base : List ShownText) (m : Measured) (p : Painted) : Prop :=
  0 ≤ p.pos_y ∧ p.pos_y ≤ m.pixmap_height ∧ m.pixmap_height ≤ G_MAXINT ∧
  0 ≤ m.pixmap_width ∧ m.pixmap_width ≤ G_MAXINT ∧
  ∃ new, p.cr.shown = base ++ new ∧ ∀ op ∈ new, InBounds be m op

/-- A face with no character map at all. -/
def faceNoCharmaps : FT_FaceRec :=
  { face_flags := 1, family_name := some [70], style_name := some [82],
    available_sizes := [], charmaps := [], charmap := none }

/-- A scalable face with two character maps: the first has glyphs for `a` and `b`
only, the second for `a`, `b`, `c` and for the codes 300 and 400. -/
def faceTwoMaps : FT_FaceRec :=
  { face_flags := 1, family_name := some [97], style_name := some [98],
    available_sizes := [],
    charmaps := [{ entries := [(97, 1), (98, 2)] },
                 { entries := [(97, 1), (98, 2), (99, 3), (300, 4), (400, 5)] }],
    charmap := none }

/-- Surroundings used in the examples: `retval` reads as false, the locale sample
is "ab", draw number `i` is `i`, and only the one-byte buffer [1] parses, to
`faceTwoMaps`. -/
def envExample : Env :=
  { retval0 := fun _ => false
    len0 := 0
    locale_sample := [97, 98]
    draws := fun i => i
    FT_New_Memory_Face := fun bytes => if bytes = [1] then some faceTwoMaps else none }

/-- The widget state after `faceTwoMaps` has been loaded in `envExample`. -/
def privLoaded : SushiFontWidgetPrivate :=
  { uri := some [102], face := some (FT_Set_Charmap faceTwoMaps 1), face_contents := some [1],
    lowercase_text := none, uppercase_text := none, punctuation_text := none,
    sample_string := some [97, 98], font_name := some [97, 32, 98],
    font_supports_title := false }

/-- A bitmap face with the single pixel height 12 and the character maps of
`faceTwoMaps`, the second one active. -/
def faceBitmap12 : FT_FaceRec :=
  { face_flags := 0, family_name := some [97], style_name := some [98],
    available_sizes := [{ height := 12, width := 12 }],
    charmaps := faceTwoMaps.charmaps, charmap := some 1 }

/-- The widget state with `faceBitmap12` loaded: no alphabet line, sample "ab",
title "a b" not covered by the face. -/
def privBitmap12 : SushiFontWidgetPrivate :=
  { privLoaded with face := some faceBitmap12 }

/-- The largest double below 1. -/
def almost_one : ℚ := 1 - 1 / 2 ^ 53

/-- A backend with bottom padding 1 that reports the height `almost_one` at font
size 18 and extents zero otherwise. -/
def beTie : Backend :=
  { text_extents := fun _ size _ =>
      if size = 18 then
        { x_bearing := 0, y_bearing := 0, width := 0, height := almost_one,
          x_advance := 0, y_advance := 0 }
      else
        { x_bearing := 0, y_bearing := 0, width := 0, height := 0,
          x_advance := 0, y_advance := 0 }
    padding := { left := 0, right := 0, top := 0, bottom := 0 + 1 }
    color := 0 }

/-- A backend without padding that reports every text as half a pixel wide and
without height. -/
def beHalf : Backend :=
  { text_extents := fun _ _ _ =>
      { x_bearing := 0, y_bearing := 0, width := 1 / 2, height := 0,
        x_advance := 0, y_advance := 0 }
    padding := { left := 0, right := 0, top := 0, bottom := 0 }
    color := 0 }

/-- A backend without padding that reports the height -100 at font size 12 and
extents zero otherwise. -/
def beNegHeight : Backend :=
  { text_extents := fun _ size _ =>
      if size = 12 then
        { x_bearing := 0, y_bearing := 0, width := 0, height := ((-100 : Int) : ℚ),
          x_advance := 0, y_advance := 0 }
      else
        { x_bearing := 0, y_bearing := 0, width := 0, height := 0,
          x_advance := 0, y_advance := 0 }
    padding := { left := 0, right := 0, top := 0, bottom := 0 }
    color := 0 }

/-- A backend with bottom padding -100 that reports every extent as zero. -/
def beNegPadding : Backend :=
  { text_extents := fun _ _ _ =>
      { x_bearing := 0, y_bearing := 0, width := 0, height := 0,
        x_advance := 0, y_advance := 0 }
    padding := { left := 0, right := 0, top := 0, bottom := -100 }
    color := 0 }

/-- A backend with padding 2, 2, 1, 1 that reports every text as 100.25 pixels
wide and 10.5 pixels high. -/
def beSample : Backend :=
  { text_extents := fun _ _ _ =>
      { x_bearing := 0, y_bearing := 0, width := 401 / 4, height := 21 / 2,
        x_advance := 0, y_advance := 0 }
    padding := { left := 2, right := 2, top := 1, bottom := 1 }
    color := 0 }

/-- Surroundings as in `envExample`, but with the locale sample "x", which no map
of `faceTwoMaps` covers. -/
def envUncovered : Env :=
  { retval0 := fun _ => false
    len0 := 0
    locale_sample := [120]
    draws := fun i => i
    FT_New_Memory_Face := fun bytes => if bytes = [1] then some faceTwoMaps else none }

/-- Surroundings as in `envUncovered`, but every random draw is 1 and the
uninitialised `len` of the title probe holds 7. -/
def envOnes : Env :=
  { retval0 := fun _ => false
    len0 := 7
    locale_sample := [120]
    draws := fun _ => 1
    FT_New_Memory_Face := fun bytes => if bytes = [1] then some faceTwoMaps else none }

/-- A face whose last listed character map is of format 14; the first map has
glyphs for `a`, `b` and for the codes 300 and 400. -/
def faceLast14 : FT_FaceRec :=
  { face_flags := 1, family_name := some [97], style_name := some [98],
    available_sizes := [],
    charmaps := [{ entries := [(97, 1), (98, 2), (300, 4), (400, 5)] },
                 { entries := [], format := 14 }],
    charmap := none }

/-- A face whose only character map, of format 12 and active, has a glyph for
`a` and for the character code `0x80000000`. -/
def faceHigh : FT_FaceRec :=
  { face_flags := 1, family_name := some [97], style_name := some [98],
    available_sizes := [],
    charmaps := [{ entries := [(97, 1), (2147483648, 2)], format := 12 }],
    charmap := some 0 }

/-- The face `faceTwoMaps` without names, as FreeType gives it for a font that
has no name table. -/
def faceNoNames : FT_FaceRec :=
  { faceTwoMaps with family_name := none, style_name := none }

/-- A widget that holds the given face and nothing derived from it yet. -/
def privWith (face : FT_FaceRec) : SushiFontWidgetPrivate :=
  { sushi_font_widget_init with face := some face }

/-! # Theorems -/

/-! ## Glyph coverage -/

theorem FT_Set_Charmap_of_selectable (face : FT_FaceRec) (k : Nat) (h : Selectable face k) :
    FT_Set_Charmap face k = { face with charmap := some k } := by
  obtain ⟨cm, h1, h2⟩ := h
  simp [FT_Set_Charmap, h1, h2]

theorem FT_Set_Charmap_of_not_selectable (face : FT_FaceRec) (k : Nat)
    (h : ¬ Selectable face k) : FT_Set_Charmap face k = face := by
  unfold FT_Set_Charmap
  cases hg : face.charmaps[k]? with
  | none => rfl
  | some cm =>
    by_cases hf : cm.format = 14
    · simp [hf]
    · exact absurd ⟨cm, hg, hf⟩ h

/-- The call changes nothing of the face but, possibly, the active map. -/
theorem FT_Set_Charmap_frame (face : FT_FaceRec) (k : Nat) :
    ∃ c, FT_Set_Charmap face k = { face with charmap := c } := by
  by_cases h : Selectable face k
  · exact ⟨some k, FT_Set_Charmap_of_selectable face k h⟩
  · exact ⟨face.charmap, FT_Set_Charmap_of_not_selectable face k h⟩

theorem FT_Set_Charmap_charmaps (face : FT_FaceRec) (k : Nat) :
    (FT_Set_Charmap face k).charmaps = face.charmaps := by
  obtain ⟨c, hc⟩ := FT_Set_Charmap_frame face k
  rw [hc]

theorem scan_text_active (face : FT_FaceRec) (cm : FT_CharMapRec)
    (h : active_charmap face = some cm) (s : List Nat) :
    scan_text face s = map_covers cm s := by
  induction s with
  | nil => rfl
  | cons c rest ih =>
    have hg : FT_Get_Char_Index face c = cm.glyph c := by
      simp [FT_Get_Char_Index, h]
    rw [scan_text, hg, ih]
    by_cases h0 : cm.glyph c = 0 <;> simp [map_covers, h0]

theorem scan_text_no_map (face : FT_FaceRec) (h : active_charmap face = none) (c : Nat)
    (rest : List Nat) : scan_text face (c :: rest) = false := by
  simp [scan_text, FT_Get_Char_Index, h]

theorem scan_text_eq (face : FT_FaceRec) (k : Nat) (cm : FT_CharMapRec)
    (h : face.charmaps[k]? = some cm) (s : List Nat) :
    scan_text { face with charmap := some k } s = map_covers cm s :=
  scan_text_active _ cm (by simpa [active_charmap] using h) s

theorem covers_at_congr {face face1 : FT_FaceRec} (h : face1.charmaps = face.charmaps)
    (s : Text) (k : Nat) : covers_at face1 s k ↔ covers_at face s k := by
  simp [covers_at, h]

theorem selectable_congr {face face1 : FT_FaceRec} (h : face1.charmaps = face.charmaps)
    (k : Nat) : Selectable face1 k ↔ Selectable face k := by
  simp [Selectable, h]

theorem covers_iff_covers_at (face : FT_FaceRec) (s : Text) :
    Covers face s ↔ ∃ k, k < face.num_charmaps ∧ covers_at face s k := by
  constructor
  · rintro ⟨cm, hcm, hall⟩
    obtain ⟨k, hk, hget⟩ := List.getElem_of_mem hcm
    refine ⟨k, hk, cm, ?_, ?_⟩
    · rw [List.getElem?_eq_getElem hk, hget]
    · simpa [map_covers] using hall
  · rintro ⟨k, _, cm, hget, hcov⟩
    refine ⟨cm, ?_, ?_⟩
    · exact List.getElem?_mem hget
    · simpa [map_covers] using hcov

/-- A map of format 14 covers no text but the empty one. -/
theorem selectable_of_covers_at (face : FT_FaceRec) (c : Nat) (rest : List Nat) (k : Nat)
    (h : covers_at face (c :: rest) k) : Selectable face k := by
  obtain ⟨cm, h1, h2⟩ := h
  refine ⟨cm, h1, ?_⟩
  intro hf
  simp [map_covers, FT_CharMapRec.glyph, hf] at h2

/-- When the scan under the active map succeeds, some listed map covers the text. -/
theorem covers_of_scan_text (face : FT_FaceRec) (s : Text) (hmaps : 0 < face.num_charmaps)
    (h : scan_text face s = true) : Covers face s := by
  cases s with
  | nil =>
    obtain ⟨cm, hcm⟩ := List.exists_mem_of_length_pos hmaps
    exact ⟨cm, hcm, by simp⟩
  | cons c rest =>
    cases hact : active_charmap face with
    | none => rw [scan_text_no_map face hact] at h; cases h
    | some cm =>
      rw [scan_text_active face cm hact] at h
      refine ⟨cm, ?_, by simpa [map_covers] using h⟩
      unfold active_charmap at hact
      cases hc : face.charmap with
      | none => rw [hc] at hact; cases hact
      | some i =>
        rw [hc] at hact
        exact List.getElem?_mem hact

/-- The loop over the character maps changes nothing of the face but the active map. -/
theorem check_loop_frame (s : List Nat) :
    ∀ (n map : Nat) (face : FT_FaceRec) (rv : Bool) (log : List Nat),
      ∃ c, (check_font_contain_text_loop s n map face rv log).face =
        { face with charmap := c } := by
  intro n
  induction n with
  | zero => intro map face rv log; exact ⟨face.charmap, rfl⟩
  | succ n ih =>
    intro map face rv log
    rw [check_font_contain_text_loop]
    obtain ⟨c1, hc1⟩ := FT_Set_Charmap_frame face map
    split
    · exact ⟨c1, hc1⟩
    · obtain ⟨c2, hc2⟩ := ih (map + 1) (FT_Set_Charmap face map)
        (scan_text (FT_Set_Charmap face map) s) (log ++ [map])
      refine ⟨c2, ?_⟩
      rw [hc2, hc1]

/-- When the loop visits a map and returns true, the scan under the map it
leaves active succeeds. -/
theorem check_loop_true (s : List Nat) :
    ∀ (n map : Nat) (face : FT_FaceRec) (rv : Bool) (log : List Nat), 0 < n →
      (check_font_contain_text_loop s n map face rv log).retval = true →
      scan_text (check_font_contain_text_loop s n map face rv log).face s = true := by
  intro n
  induction n with
  | zero => intro map face rv log h; omega
  | succ n ih =>
    intro map face rv log _ h
    rw [check_font_contain_text_loop] at h ⊢
    by_cases hs : scan_text (FT_Set_Charmap face map) s = true
    · simp only [hs, if_true]
    · simp only [hs, if_false, Bool.false_eq_true] at h ⊢
      cases n with
      | zero =>
        simp [check_font_contain_text_loop] at h
      | succ n => exact ih _ _ _ _ (Nat.succ_pos n) h

/-- When a map that `FT_Set_Charmap` accepts covers the text and is still to be
visited, the loop returns true. -/
theorem check_loop_hit (s : List Nat) :
    ∀ (n map : Nat) (face : FT_FaceRec) (rv : Bool) (log : List Nat) (k : Nat),
      map ≤ k → k < map + n → Selectable face k → covers_at face s k →
      (check_font_contain_text_loop s n map face rv log).retval = true := by
  intro n
  induction n with
  | zero => intro map face rv log k h1 h2; omega
  | succ n ih =>
    intro map face rv log k h1 h2 hsel hcov
    rw [check_font_contain_text_loop]
    by_cases hs : scan_text (FT_Set_Charmap face map) s = true
    · simp only [hs, if_true]
    · simp only [hs, if_false, Bool.false_eq_true]
      have hne : k ≠ map := by
        rintro rfl
        apply hs
        rw [FT_Set_Charmap_of_selectable face k hsel]
        obtain ⟨cm, hg, hc⟩ := hcov
        rw [scan_text_eq face k cm hg]
        exact hc
      have hch := FT_Set_Charmap_charmaps face map
      exact ih (map + 1) _ _ _ k (by omega) (by omega)
        ((selectable_congr hch k).mpr hsel) ((covers_at_congr hch s k).mpr hcov)

/-- On a face with at least one character map the returned flag says whether
some map covers the text, whatever `retval` held on entry. -/
theorem check_font_contain_text_iff_covers (retval0 : Bool) (face : FT_FaceRec) (text : Text)
    (hmaps : 0 < face.num_charmaps) :
    (check_font_contain_text retval0 face text).retval = true ↔ Covers face text := by
  unfold check_font_contain_text
  constructor
  · intro h
    have h1 := check_loop_true text _ 0 face retval0 [] hmaps h
    obtain ⟨c, hc⟩ := check_loop_frame text face.num_charmaps 0 face retval0 []
    rw [hc] at h1
    have h2 := covers_of_scan_text { face with charmap := c } text hmaps h1
    exact h2
  · intro h
    cases text with
    | nil =>
      obtain ⟨n, hn⟩ : ∃ n, face.num_charmaps = n + 1 := ⟨face.num_charmaps - 1, by omega⟩
      rw [hn, check_font_contain_text_loop]
      simp [scan_text]
    | cons c rest =>
      obtain ⟨k, hk, hcov⟩ := (covers_iff_covers_at face _).mp h
      exact check_loop_hit _ _ 0 face retval0 [] k (Nat.zero_le _) (by omega)
        (selectable_of_covers_at face c rest k hcov) hcov

/-- The returned flag does not depend on which map was active on entry. -/
theorem check_font_contain_text_retval_congr (retval0 : Bool) (face face1 : FT_FaceRec)
    (text : Text) (h : face1.charmaps = face.charmaps) :
    (check_font_contain_text retval0 face1 text).retval =
      (check_font_contain_text retval0 face text).retval := by
  by_cases hm : 0 < face.num_charmaps
  · have hm1 : 0 < face1.num_charmaps := by simpa [FT_FaceRec.num_charmaps, h] using hm
    have h1 := check_font_contain_text_iff_covers retval0 face1 text hm1
    have h2 := check_font_contain_text_iff_covers retval0 face text hm
    have h3 : Covers face1 text ↔ Covers face text := by simp [Covers, h]
    rw [Bool.eq_iff_iff, h1, h2, h3]
  · have h0 : face.num_charmaps = 0 := by omega
    have h01 : face1.num_charmaps = 0 := by simpa [FT_FaceRec.num_charmaps, h] using h0
    simp [check_font_contain_text, h0, h01, check_font_contain_text_loop]

/-- The function only changes the active character map of the face. -/
theorem check_font_contain_text_face (retval0 : Bool) (face : FT_FaceRec) (text : Text) :
    ∃ cmap, (check_font_contain_text retval0 face text).face = { face with charmap := cmap } :=
  check_loop_frame text face.num_charmaps 0 face retval0 []

/-- What the loop over the character maps computes from a point of the scan at
which the active map does not cover the text: it stops at the first map that
`FT_Set_Charmap` accepts and that covers the text; when there is none it visits
every map and leaves active the last map accepted, or the map that was active
when none is accepted. -/
theorem check_loop_spec (s : List Nat) :
    ∀ (n map : Nat) (face : FT_FaceRec) (rv : Bool) (log : List Nat),
      map + n = face.charmaps.length → scan_text face s = false →
      (∃ k, map ≤ k ∧ k < map + n ∧ Selectable face k ∧ covers_at face s k ∧
          (∀ j, map ≤ j → j < k → Selectable face j → ¬ covers_at face s j) ∧
          check_font_contain_text_loop s n map face rv log =
            ⟨true, { face with charmap := some k }, log ++ List.range' map (k + 1 - map)⟩) ∨
      ((∀ j, map ≤ j → j < map + n → Selectable face j → ¬ covers_at face s j) ∧
          (check_font_contain_text_loop s n map face rv log).retval =
            (if n = 0 then rv else false) ∧
          (check_font_contain_text_loop s n map face rv log).activated =
            log ++ List.range' map n ∧
          ((∃ k, map ≤ k ∧ k < map + n ∧ Selectable face k ∧
              (∀ j, k < j → j < map + n → ¬ Selectable face j) ∧
              (check_font_contain_text_loop s n map face rv log).face =
                { face with charmap := some k }) ∨
           ((∀ j, map ≤ j → j < map + n → ¬ Selectable face j) ∧
              (check_font_contain_text_loop s n map face rv log).face = face))) := by
  intro n
  induction n with
  | zero =>
    intro map face rv log _ _
    right
    refine ⟨fun j h1 h2 => by omega, by simp [check_font_contain_text_loop],
      by simp [check_font_contain_text_loop], Or.inr ⟨fun j h1 h2 => by omega, rfl⟩⟩
  | succ n ih =>
    intro map face rv log hlen hcur
    have hlt : map < face.charmaps.length := by omega
    have hget : face.charmaps[map]? = some (face.charmaps[map]) :=
      List.getElem?_eq_getElem hlt
    rw [check_font_contain_text_loop]
    by_cases hsel : Selectable face map
    · -- the map is accepted and becomes the active one
      rw [FT_Set_Charmap_of_selectable face map hsel]
      have hscan := scan_text_eq face map _ hget s
      by_cases hc : map_covers (face.charmaps[map]) s = true
      · left
        refine ⟨map, le_refl _, by omega, hsel, ⟨_, hget, hc⟩, fun j h1 h2 => by omega, ?_⟩
        rw [hscan, hc]
        simp
      · have hnot : ¬ covers_at face s map := by
          rintro ⟨cm, h1, h2⟩
          rw [hget] at h1
          cases h1
          exact hc h2
        have hscan2 : scan_text { face with charmap := some map } s = false := by
          rw [hscan]; simpa using hc
        rw [hscan2]
        simp only [Bool.false_eq_true, if_false]
        rcases ih (map + 1) { face with charmap := some map } false (log ++ [map])
            (by simpa using (by omega : map + 1 + n = face.charmaps.length)) hscan2 with
          ⟨k, hk1, hk2, hk3, hk4, hk5, hk6⟩ | ⟨hk1, hk2, hk3, hk4⟩
        · left
          refine ⟨k, by omega, by omega, (selectable_congr rfl k).mp hk3,
            (covers_at_congr rfl s k).mp hk4, ?_, ?_⟩
          · intro j hj1 hj2 hjs
            rcases Nat.eq_or_lt_of_le hj1 with h | h
            · subst h; exact hnot
            · exact fun hcj => hk5 j h hj2 ((selectable_congr rfl j).mpr hjs)
                ((covers_at_congr rfl s j).mpr hcj)
          · rw [hk6]
            have : k + 1 - map = (k + 1 - (map + 1)) + 1 := by omega
            rw [this, List.range'_succ]
            simp
        · right
          refine ⟨?_, ?_, ?_, ?_⟩
          · intro j hj1 hj2 hjs
            rcases Nat.eq_or_lt_of_le hj1 with h | h
            · subst h; exact hnot
            · exact fun hcj => hk1 j h (by omega) ((selectable_congr rfl j).mpr hjs)
                ((covers_at_congr rfl s j).mpr hcj)
          · rw [hk2]
            by_cases hn : n = 0 <;> simp [hn]
          · rw [hk3, List.range'_succ]
            simp
          · left
            rcases hk4 with ⟨k, hk5, hk6, hk7, hk8, hk9⟩ | ⟨hk5, hk6⟩
            · exact ⟨k, by omega, by omega, (selectable_congr rfl k).mp hk7,
                fun j h1 h2 hj => hk8 j h1 (by omega) ((selectable_congr rfl j).mpr hj),
                by rw [hk9]⟩
            · refine ⟨map, le_refl _, by omega, hsel, ?_, by rw [hk6]⟩
              intro j h1 h2 hj
              exact hk5 j (by omega) (by omega) ((selectable_congr rfl j).mpr hj)
    · -- the map is refused: the active map stays and is scanned again
      rw [FT_Set_Charmap_of_not_selectable face map hsel, hcur]
      simp only [Bool.false_eq_true, if_false]
      rcases ih (map + 1) face false (log ++ [map]) (by omega) hcur with
        ⟨k, hk1, hk2, hk3, hk4, hk5, hk6⟩ | ⟨hk1, hk2, hk3, hk4⟩
      · left
        refine ⟨k, by omega, by omega, hk3, hk4, ?_, ?_⟩
        · intro j hj1 hj2 hjs
          rcases Nat.eq_or_lt_of_le hj1 with h | h
          · subst h; exact absurd hjs hsel
          · exact hk5 j h hj2 hjs
        · rw [hk6]
          have : k + 1 - map = (k + 1 - (map + 1)) + 1 := by omega
          rw [this, List.range'_succ]
          simp
      · right
        refine ⟨?_, ?_, ?_, ?_⟩
        · intro j hj1 hj2 hjs
          rcases Nat.eq_or_lt_of_le hj1 with h | h
          · subst h; exact absurd hjs hsel
          · exact hk1 j h (by omega) hjs
        · rw [hk2]
          by_cases hn : n = 0 <;> simp [hn]
        · rw [hk3, List.range'_succ]
          simp
        · rcases hk4 with ⟨k, hk5, hk6, hk7, hk8, hk9⟩ | ⟨hk5, hk6⟩
          · left
            exact ⟨k, by omega, by omega, hk7, fun j h1 h2 => hk8 j h1 (by omega), hk9⟩
          · right
            refine ⟨?_, hk6⟩
            intro j h1 h2
            rcases Nat.eq_or_lt_of_le h1 with h | h
            · subst h; exact hsel
            · exact hk5 j h (by omega)

theorem selectable_lt (face : FT_FaceRec) (k : Nat) (h : Selectable face k) :
    k < face.charmaps.length := by
  obtain ⟨cm, h1, _⟩ := h
  by_contra hlt
  rw [List.getElem?_eq_none (by omega)] at h1
  cases h1

/-- C2: on a face with no character map the loop body never runs, so the
function returns whatever `retval` held on entry; with `TRUE` there it reports
the text as covered although no map covers it. -/
theorem C2_no_charmaps_returns_uninitialised :
    (check_font_contain_text true faceNoCharmaps [97]).retval = true ∧
    (check_font_contain_text false faceNoCharmaps [97]).retval = false ∧
    ¬ Covers faceNoCharmaps [97] := by
  refine ⟨by decide, by decide, ?_⟩
  simp [Covers, faceNoCharmaps]

/-- On a face with at least one character map, a probe for a text that no map
covers returns false, visits every map and leaves active the last map that
`FT_Set_Charmap` accepts; when it accepts none the face is left as it was. -/
theorem check_font_contain_text_not_covered (retval0 : Bool) (face : FT_FaceRec) (text : Text)
    (hmaps : 0 < face.num_charmaps) (hnot : ¬ Covers face text) :
    (check_font_contain_text retval0 face text).retval = false ∧
    ((∃ k, Selectable face k ∧ (∀ j, k < j → ¬ Selectable face j) ∧
        (check_font_contain_text retval0 face text).face = { face with charmap := some k }) ∨
     ((∀ j, ¬ Selectable face j) ∧ (check_font_contain_text retval0 face text).face = face)) := by
  have hn : face.num_charmaps ≠ 0 := by omega
  have hcur : scan_text face text = false := by
    by_contra h
    exact hnot (covers_of_scan_text face text hmaps (by simpa using h))
  unfold check_font_contain_text
  rcases check_loop_spec text face.num_charmaps 0 face retval0 []
      (by simp [FT_FaceRec.num_charmaps]) hcur with
    ⟨k, _, hk2, _, hk4, _, _⟩ | ⟨_, hk2, _, hk4⟩
  · exact absurd ((covers_iff_covers_at face text).mpr ⟨k, by omega, hk4⟩) hnot
  · refine ⟨by rw [hk2]; simp [hn], ?_⟩
    rcases hk4 with ⟨k, _, _, hk7, hk8, hk9⟩ | ⟨hk5, hk6⟩
    · left
      refine ⟨k, hk7, ?_, hk9⟩
      intro j hj hsel
      have hjl := selectable_lt face j hsel
      exact hk8 j hj (by simp only [FT_FaceRec.num_charmaps]; omega) hsel
    · right
      refine ⟨?_, hk6⟩
      intro j hsel
      have hjl := selectable_lt face j hsel
      exact hk5 j (Nat.zero_le _) (by simp only [FT_FaceRec.num_charmaps]; omega) hsel

/-! ## UTF-8 characters -/

theorem utf8_continuation_trailing (v : Nat) :
    utf8_continuation ((v &&& 0x3f) ||| 0x80) = true := by
  have h : v &&& 0x3f ≤ 0x3f := Nat.and_le_right
  have key : ∀ x, x ≤ 0x3f → utf8_continuation (x ||| 0x80) = true := by decide
  exact key _ h

theorem utf8_lead2 : ∀ w, w < 32 →
    g_utf8_skip ((w ||| 0xc0) % 256) = 2 ∧ utf8_continuation ((w ||| 0xc0) % 256) = false ∧
      (w ||| 0xc0) % 256 ≠ 0 := by
  decide

theorem utf8_lead3 : ∀ w, w < 16 →
    g_utf8_skip ((w ||| 0xe0) % 256) = 3 ∧ utf8_continuation ((w ||| 0xe0) % 256) = false ∧
      (w ||| 0xe0) % 256 ≠ 0 := by
  decide

theorem utf8_lead4 : ∀ w, w < 8 →
    g_utf8_skip ((w ||| 0xf0) % 256) = 4 ∧ utf8_continuation ((w ||| 0xf0) % 256) = false ∧
      (w ||| 0xf0) % 256 ≠ 0 := by
  decide

theorem utf8_lead5 : ∀ w, w < 4 →
    g_utf8_skip ((w ||| 0xf8) % 256) = 5 ∧ utf8_continuation ((w ||| 0xf8) % 256) = false ∧
      (w ||| 0xf8) % 256 ≠ 0 := by
  decide

theorem utf8_lead6 : ∀ w, w < 2 →
    g_utf8_skip ((w ||| 0xfc) % 256) = 6 ∧ utf8_continuation ((w ||| 0xfc) % 256) = false ∧
      (w ||| 0xfc) % 256 ≠ 0 := by
  decide

/-- A character code above 255 and below `0x80000000` is encoded as one
character in the sense of `g_utf8_skip`. -/
theorem g_unichar_to_utf8_wellFormed (c : Nat) (h1 : 255 < c) (h2 : c < 2147483648) :
    WellFormedChar (g_unichar_to_utf8 c) := by
  have hnot : ¬ c < 0x80 := by omega
  unfold g_unichar_to_utf8
  rw [if_neg hnot]
  by_cases r2 : c < 0x800
  · rw [if_pos r2]
    have hw : c >>> 6 < 32 := by rw [Nat.shiftRight_eq_div_pow]; omega
    obtain ⟨a1, a2, a3⟩ := utf8_lead2 _ hw
    refine ⟨_, _, rfl, a1, a2, a3, ?_⟩
    intro b hb
    simp only [utf8_trailing, List.mem_cons, List.mem_singleton, List.not_mem_nil, or_false]
      at hb
    subst hb
    exact utf8_continuation_trailing _
  rw [if_neg r2]
  by_cases r3 : c < 0x10000
  · rw [if_pos r3]
    have hw : c >>> 6 >>> 6 < 16 := by simp only [Nat.shiftRight_eq_div_pow]; omega
    obtain ⟨a1, a2, a3⟩ := utf8_lead3 _ hw
    refine ⟨_, _, rfl, a1, a2, a3, ?_⟩
    intro b hb
    simp only [utf8_trailing, List.mem_cons, List.mem_singleton, List.not_mem_nil, or_false]
      at hb
    rcases hb with hb | hb <;> subst hb <;> exact utf8_continuation_trailing _
  rw [if_neg r3]
  by_cases r4 : c < 0x200000
  · rw [if_pos r4]
    have hw : c >>> 6 >>> 6 >>> 6 < 8 := by simp only [Nat.shiftRight_eq_div_pow]; omega
    obtain ⟨a1, a2, a3⟩ := utf8_lead4 _ hw
    refine ⟨_, _, rfl, a1, a2, a3, ?_⟩
    intro b hb
    simp only [utf8_trailing, List.mem_cons, List.mem_singleton, List.not_mem_nil, or_false]
      at hb
    rcases hb with hb | hb | hb <;> subst hb <;> exact utf8_continuation_trailing _
  rw [if_neg r4]
  by_cases r5 : c < 0x4000000
  · rw [if_pos r5]
    have hw : c >>> 6 >>> 6 >>> 6 >>> 6 < 4 := by simp only [Nat.shiftRight_eq_div_pow]; omega
    obtain ⟨a1, a2, a3⟩ := utf8_lead5 _ hw
    refine ⟨_, _, rfl, a1, a2, a3, ?_⟩
    intro b hb
    simp only [utf8_trailing, List.mem_cons, List.mem_singleton, List.not_mem_nil, or_false]
      at hb
    rcases hb with hb | hb | hb | hb <;> subst hb <;> exact utf8_continuation_trailing _
  rw [if_neg r5]
  have hw : c >>> 6 >>> 6 >>> 6 >>> 6 >>> 6 < 2 := by
    simp only [Nat.shiftRight_eq_div_pow]; omega
  obtain ⟨a1, a2, a3⟩ := utf8_lead6 _ hw
  refine ⟨_, _, rfl, a1, a2, a3, ?_⟩
  intro b hb
  simp only [utf8_trailing, List.mem_cons, List.mem_singleton, List.not_mem_nil, or_false]
    at hb
  rcases hb with hb | hb | hb | hb | hb <;> subst hb <;> exact utf8_continuation_trailing _

theorem g_unichar_to_utf8_zero : g_unichar_to_utf8 0 = [0] := by decide

theorem utf8_continuation_ne_zero (b : Nat) (h : utf8_continuation b = true) : b ≠ 0 := by
  rintro rfl
  revert h
  decide

theorem WellFormedChar.ne_zero {bytes : List Nat} (h : WellFormedChar bytes) :
    ∀ b ∈ bytes, b ≠ 0 := by
  obtain ⟨lead, conts, rfl, _, _, h3, h4⟩ := h
  intro b hb
  rcases List.mem_cons.mp hb with hb | hb
  · rw [hb]; exact h3
  · exact utf8_continuation_ne_zero b (h4 b hb)

/-- Stepping over one character. -/
theorem g_utf8_next_char_wellFormed (bytes rest : List Nat) (h : WellFormedChar bytes) :
    g_utf8_next_char (bytes ++ rest) = rest := by
  obtain ⟨lead, conts, rfl, h1, _, _, _⟩ := h
  simp [g_utf8_next_char, h1]

theorem dropWhile_continuation (conts rest : List Nat)
    (h : ∀ b ∈ conts, utf8_continuation b = true)
    (hrest : rest = [] ∨ ∃ lead tail, rest = lead :: tail ∧ utf8_continuation lead = false) :
    (conts ++ rest).dropWhile utf8_continuation = rest := by
  induction conts with
  | nil =>
    rcases hrest with rfl | ⟨lead, tail, rfl, hl⟩
    · rfl
    · simp [List.dropWhile, hl]
  | cons b conts ih =>
    have hb := h b (by simp)
    simp only [List.cons_append, List.dropWhile, hb]
    exact ih (fun x hx => h x (List.mem_cons_of_mem _ hx))

/-- Codes that are all encoded as one character each. -/
theorem g_utf8_bytes_cons (c : Nat) (cs : List Nat) :
    g_utf8_bytes (c :: cs) = g_unichar_to_utf8 c ++ g_utf8_bytes cs := by
  simp [g_utf8_bytes]

theorem g_utf8_bytes_append (a b : List Nat) :
    g_utf8_bytes (a ++ b) = g_utf8_bytes a ++ g_utf8_bytes b := by
  simp [g_utf8_bytes]

theorem g_utf8_bytes_head (codes : List Nat)
    (hwf : ∀ c ∈ codes, WellFormedChar (g_unichar_to_utf8 c)) :
    g_utf8_bytes codes = [] ∨
      ∃ lead tail, g_utf8_bytes codes = lead :: tail ∧ utf8_continuation lead = false := by
  cases codes with
  | nil => left; rfl
  | cons c cs =>
    right
    obtain ⟨lead, conts, h0, _, h2, _, _⟩ := hwf c (by simp)
    exact ⟨lead, conts ++ g_utf8_bytes cs, by rw [g_utf8_bytes_cons, h0]; rfl, h2⟩

theorem g_utf8_bytes_ne_zero (codes : List Nat)
    (hwf : ∀ c ∈ codes, WellFormedChar (g_unichar_to_utf8 c)) :
    ∀ b ∈ g_utf8_bytes codes, b ≠ 0 := by
  intro b hb
  simp only [g_utf8_bytes, List.mem_flatMap] at hb
  obtain ⟨c, hc, hbc⟩ := hb
  exact (hwf c hc).ne_zero b hbc

theorem g_utf8_strlen_loop_bytes :
    ∀ (codes : List Nat) (fuel len : Nat),
      (∀ c ∈ codes, WellFormedChar (g_unichar_to_utf8 c)) → codes.length ≤ fuel →
      g_utf8_strlen_loop fuel (g_utf8_bytes codes) len = len + codes.length := by
  intro codes
  induction codes with
  | nil =>
    intro fuel len _ _
    cases fuel <;> simp [g_utf8_bytes, g_utf8_strlen_loop]
  | cons c cs ih =>
    intro fuel len hwf hfuel
    obtain ⟨f, rfl⟩ : ∃ f, fuel = f + 1 := ⟨fuel - 1, by simp at hfuel; omega⟩
    have hc := hwf c (by simp)
    have hstep := g_utf8_next_char_wellFormed _ (g_utf8_bytes cs) hc
    obtain ⟨lead, conts, h0, _⟩ := hc
    rw [g_utf8_bytes_cons]
    rw [h0] at hstep ⊢
    simp only [List.cons_append] at hstep ⊢
    rw [g_utf8_strlen_loop, hstep,
      ih f (len + 1) (fun x hx => hwf x (List.mem_cons_of_mem _ hx))
        (by simp at hfuel; omega)]
    simp
    omega

theorem length_le_length_g_utf8_bytes (codes : List Nat)
    (hwf : ∀ c ∈ codes, WellFormedChar (g_unichar_to_utf8 c)) :
    codes.length ≤ (g_utf8_bytes codes).length := by
  induction codes with
  | nil => simp
  | cons c cs ih =>
    obtain ⟨lead, conts, h0, _⟩ := hwf c (by simp)
    have := ih (fun x hx => hwf x (List.mem_cons_of_mem _ hx))
    rw [g_utf8_bytes_cons, h0]
    simp
    omega

/-- The character count of a string of well-formed characters is their number. -/
theorem g_utf8_strlen_bytes (codes : List Nat)
    (hwf : ∀ c ∈ codes, WellFormedChar (g_unichar_to_utf8 c)) :
    g_utf8_strlen (g_utf8_bytes codes) = codes.length := by
  unfold g_utf8_strlen
  rw [g_utf8_strlen_loop_bytes codes _ 0 hwf (length_le_length_g_utf8_bytes codes hwf)]
  simp

/-- The pointer at character offset `k` is where the encoding of code `k` begins. -/
theorem g_utf8_offset_to_pointer_bytes :
    ∀ (k : Nat) (codes : List Nat),
      (∀ c ∈ codes, WellFormedChar (g_unichar_to_utf8 c)) → k ≤ codes.length →
      g_utf8_offset_to_pointer (g_utf8_bytes codes) k = g_utf8_bytes (codes.drop k) := by
  intro k
  induction k with
  | zero => intro codes _ _; rfl
  | succ k ih =>
    intro codes hwf hk
    cases codes with
    | nil => simp at hk
    | cons c cs =>
      rw [g_utf8_offset_to_pointer, g_utf8_bytes_cons,
        g_utf8_next_char_wellFormed _ _ (hwf c (by simp)),
        ih cs (fun x hx => hwf x (List.mem_cons_of_mem _ hx)) (by simpa using hk)]
      rfl

/-- At the start of a character, the bytes up to the next character are that character. -/
theorem g_utf8_find_next_char_bytes (c : Nat) (cs : List Nat)
    (hwf : ∀ x ∈ c :: cs, WellFormedChar (g_unichar_to_utf8 x)) :
    (g_utf8_bytes (c :: cs)).take
        ((g_utf8_bytes (c :: cs)).length -
          (g_utf8_find_next_char (g_utf8_bytes (c :: cs))).length) =
      g_unichar_to_utf8 c := by
  obtain ⟨lead, conts, h0, _, _, _, h4⟩ := hwf c (by simp)
  have hend : g_utf8_find_next_char (g_utf8_bytes (c :: cs)) = g_utf8_bytes cs := by
    rw [g_utf8_bytes_cons, h0]
    simp only [List.cons_append, g_utf8_find_next_char]
    exact dropWhile_continuation conts _ h4
      (g_utf8_bytes_head cs (fun x hx => hwf x (List.mem_cons_of_mem _ hx)))
  rw [hend, g_utf8_bytes_cons]
  simp

/-! ## The character list and the random sample -/

theorem least_code_eq_none (l : List Nat) : least_code l = none ↔ l = [] := by
  cases l with
  | nil => simp [least_code]
  | cons c rest =>
    simp only [least_code]
    cases least_code rest <;> simp

theorem least_code_spec (l : List Nat) (m : Nat) (h : least_code l = some m) :
    m ∈ l ∧ ∀ x ∈ l, m ≤ x := by
  induction l generalizing m with
  | nil => simp [least_code] at h
  | cons c rest ih =>
    simp only [least_code] at h
    cases hr : least_code rest with
    | none =>
      rw [hr] at h
      have hnil : rest = [] := (least_code_eq_none rest).mp hr
      subst hnil
      simp only [Option.some.injEq] at h
      subst h
      simp
    | some m0 =>
      rw [hr] at h
      simp only [Option.some.injEq] at h
      obtain ⟨h1, h2⟩ := ih m0 hr
      by_cases hle : c ≤ m0
      · rw [if_pos hle] at h
        subst h
        refine ⟨by simp, ?_⟩
        intro x hx
        rcases List.mem_cons.mp hx with hx | hx
        · omega
        · have := h2 x hx; omega
      · rw [if_neg hle] at h
        subst h
        refine ⟨List.mem_cons_of_mem _ h1, ?_⟩
        intro x hx
        rcases List.mem_cons.mp hx with hx | hx
        · omega
        · exact h2 x hx

theorem glyph_ne_zero_mem (cm : FT_CharMapRec) (c : Nat) (h : cm.glyph c ≠ 0) :
    c ∈ cm.entries.map Prod.fst := by
  unfold FT_CharMapRec.glyph at h
  split at h
  · exact absurd rfl h
  · cases hl : cm.entries.lookup c with
    | none => rw [hl] at h; simp at h
    | some g =>
      obtain ⟨l1, l2, heq, _⟩ := List.lookup_eq_some_iff.mp hl
      rw [heq]
      simp

theorem mem_codes_above (cm : FT_CharMapRec) (c x : Nat) :
    x ∈ codes_above cm c ↔ c < x ∧ cm.glyph x ≠ 0 := by
  unfold codes_above
  rw [List.mem_filter]
  constructor
  · rintro ⟨_, h⟩
    simpa using h
  · rintro ⟨h1, h2⟩
    exact ⟨glyph_ne_zero_mem cm x h2, by simpa using ⟨h1, h2⟩⟩

theorem codes_above_length_lt (cm : FT_CharMapRec) (c c1 : Nat)
    (h : c1 ∈ codes_above cm c) :
    (codes_above cm c1).length < (codes_above cm c).length := by
  have hc : c < c1 := ((mem_codes_above cm c c1).mp h).1
  have heq : codes_above cm c1 =
      (codes_above cm c).filter (fun x => decide (c1 < x)) := by
    unfold codes_above
    rw [List.filter_filter]
    apply List.filter_congr
    intro x _
    by_cases hx : c1 < x
    · have : c < x := by omega
      simp [hx, this]
    · simp [hx]
  rw [heq, List.length_filter_lt_length_iff_exists]
  exact ⟨c1, h, by simp⟩

/-- With enough fuel the loop ends, having appended to the buffer the encoding
of exactly the codes above `c` that have a glyph, each cast to `gunichar`, and
then a NUL. -/
theorem build_charlist_loop_spec (face : FT_FaceRec) (cm : FT_CharMapRec)
    (hcm : active_charmap face = some cm) :
    ∀ (fuel c : Nat) (string : List Nat), (codes_above cm c).length < fuel →
      ∃ found : List Nat, build_charlist_loop face fuel c string =
          some (string ++ g_utf8_bytes (found.map fun x => x % 4294967296) ++ [0]) ∧
        ∀ x, x ∈ found ↔ c < x ∧ cm.glyph x ≠ 0 := by
  intro fuel
  induction fuel with
  | zero => intro c string h; omega
  | succ fuel ih =>
    intro c string hfuel
    rw [build_charlist_loop]
    cases hl : least_code (codes_above cm c) with
    | none =>
      have hnil := (least_code_eq_none _).mp hl
      have hr : FT_Get_Next_Char face c = (0, 0) := by
        simp [FT_Get_Next_Char, hcm, hl]
      refine ⟨[], by simp [hr, g_utf8_bytes, g_unichar_to_utf8_zero], ?_⟩
      intro x
      have := mem_codes_above cm c x
      rw [hnil] at this
      simpa using this
    | some c1 =>
      obtain ⟨hmem, hleast⟩ := least_code_spec _ _ hl
      have hc1 := (mem_codes_above cm c c1).mp hmem
      have hr : FT_Get_Next_Char face c = (c1, cm.glyph c1) := by
        simp [FT_Get_Next_Char, hcm, hl]
      have hlt := codes_above_length_lt cm c c1 hmem
      obtain ⟨found, hf1, hf2⟩ :=
        ih c1 (string ++ g_unichar_to_utf8 (c1 % 4294967296)) (by omega)
      refine ⟨c1 :: found, ?_, ?_⟩
      · simp only [hr, ne_eq, hc1.2, not_false_eq_true, if_true]
        rw [hf1]
        simp [g_utf8_bytes_cons]
      · intro x
        rw [List.mem_cons, hf2]
        constructor
        · rintro (h | ⟨h1, h2⟩)
          · subst h; exact hc1
          · exact ⟨by omega, h2⟩
        · rintro ⟨h1, h2⟩
          have hx := hleast x ((mem_codes_above cm c x).mpr ⟨h1, h2⟩)
          rcases Nat.eq_or_lt_of_le hx with h | h
          · left; exact h.symm
          · right; exact ⟨h, h2⟩

theorem c_string_append_zero (found : List Nat) (h : ∀ x ∈ found, x ≠ 0) :
    c_string (found ++ [0]) = found := by
  induction found with
  | nil => simp [c_string]
  | cons a rest ih =>
    have ha : a ≠ 0 := h a (by simp)
    have := ih (fun x hx => h x (List.mem_cons_of_mem _ hx))
    simp only [c_string] at this ⊢
    simp [List.takeWhile_cons, ha, this]

/-- The function `build_charlist_for_face` always returns. -/
theorem build_charlist_for_face_isSome (face : FT_FaceRec) :
    ∃ chars, build_charlist_for_face face = some chars := by
  unfold build_charlist_for_face
  cases hcm : active_charmap face with
  | none =>
    exact ⟨_, by simp [charlist_fuel, hcm, build_charlist_loop, FT_Get_Next_Char]; rfl⟩
  | some cm =>
    have hfuel : (codes_above cm 255).length < charlist_fuel face := by
      have h1 : (codes_above cm 255).length ≤ (cm.entries.map Prod.fst).length :=
        List.length_filter_le _ _
      simp only [List.length_map] at h1
      simp only [charlist_fuel, hcm]
      omega
    obtain ⟨found, hf1, _⟩ := build_charlist_loop_spec face cm hcm _ 255 [] hfuel
    exact ⟨_, by rw [hf1]; rfl⟩

/-- When every code above 255 with a glyph under the active map is below
`0x80000000`, the string that `build_charlist_for_face` returns is the encoding
of exactly those codes. -/
theorem build_charlist_for_face_spec (face : FT_FaceRec)
    (hcodes : ∀ x, 255 < x → FT_Get_Char_Index face x ≠ 0 → x < 2147483648) :
    ∃ codes, build_charlist_for_face face = some (g_utf8_bytes codes) ∧
      (∀ x, x ∈ codes ↔ 255 < x ∧ FT_Get_Char_Index face x ≠ 0) ∧
      ∀ x ∈ codes, WellFormedChar (g_unichar_to_utf8 x) := by
  unfold build_charlist_for_face
  cases hcm : active_charmap face with
  | none =>
    refine ⟨[], ?_, ?_, by simp⟩
    · simp [charlist_fuel, hcm, build_charlist_loop, FT_Get_Next_Char, c_string,
        g_utf8_bytes, g_unichar_to_utf8_zero]
    · intro x
      simp [FT_Get_Char_Index, hcm]
  | some cm =>
    have hfuel : (codes_above cm 255).length < charlist_fuel face := by
      have h1 : (codes_above cm 255).length ≤ (cm.entries.map Prod.fst).length :=
        List.length_filter_le _ _
      simp only [List.length_map] at h1
      simp only [charlist_fuel, hcm]
      omega
    obtain ⟨found, hf1, hf2⟩ := build_charlist_loop_spec face cm hcm _ 255 [] hfuel
    have hidx : ∀ x, FT_Get_Char_Index face x = cm.glyph x := by
      intro x; simp [FT_Get_Char_Index, hcm]
    have hlt : ∀ x ∈ found, x < 2147483648 := by
      intro x hx
      obtain ⟨h1, h2⟩ := (hf2 x).mp hx
      exact hcodes x h1 (by rw [hidx]; exact h2)
    have hmap : (found.map fun x => x % 4294967296) = found := by
      conv_rhs => rw [← List.map_id found]
      apply List.map_congr_left
      intro x hx
      have := hlt x hx
      simp only [id]
      omega
    have hwf : ∀ x ∈ found, WellFormedChar (g_unichar_to_utf8 x) := by
      intro x hx
      exact g_unichar_to_utf8_wellFormed x ((hf2 x).mp hx).1 (hlt x hx)
    refine ⟨found, ?_, ?_, hwf⟩
    · rw [hf1, hmap]
      simp only [List.nil_append, Option.map_some']
      rw [c_string_append_zero _ (g_utf8_bytes_ne_zero found hwf)]
    · intro x
      rw [hf2, hidx]

theorem random_string_loop_nil (draws : Nat → Nat) :
    ∀ (k idx : Nat) (retval : List Nat),
      random_string_loop [] 0 draws k idx retval = retval := by
  intro k
  induction k with
  | zero => intro idx retval; rfl
  | succ k ih =>
    intro idx retval
    rw [random_string_loop, ih]
    simp [g_random_int_range, g_utf8_offset_to_pointer, g_utf8_find_next_char]

/-- Each round of the sample loop appends the encoding of one of the codes. -/
theorem random_string_loop_spec (codes : List Nat) (hne : codes ≠ [])
    (hwf : ∀ x ∈ codes, WellFormedChar (g_unichar_to_utf8 x)) (draws : Nat → Nat) :
    ∀ (k idx : Nat) (retval : List Nat),
      ∃ picks, random_string_loop (g_utf8_bytes codes) (codes.length : Int) draws k idx retval =
          retval ++ g_utf8_bytes picks ∧ picks.length = k ∧ ∀ x ∈ picks, x ∈ codes := by
  intro k
  induction k with
  | zero => intro idx retval; exact ⟨[], by simp [random_string_loop, g_utf8_bytes], rfl, by simp⟩
  | succ k ih =>
    intro idx retval
    rw [random_string_loop]
    have hpos : 0 < codes.length := List.length_pos.mpr hne
    have hposz : (0 : Int) < (codes.length : Int) := by exact_mod_cast hpos
    have hr0 : 0 ≤ g_random_int_range (draws idx) 0 (codes.length : Int) := by
      simp only [g_random_int_range, hposz, if_true, zero_add, sub_zero]
      exact Int.emod_nonneg _ (by omega)
    have hr1 : g_random_int_range (draws idx) 0 (codes.length : Int) < (codes.length : Int) := by
      simp only [g_random_int_range, hposz, if_true, zero_add, sub_zero]
      exact Int.emod_lt_of_pos _ hposz
    have hlt : (g_random_int_range (draws idx) 0 (codes.length : Int)).toNat < codes.length := by
      omega
    generalize (g_random_int_range (draws idx) 0 (codes.length : Int)).toNat = i at hlt
    rw [g_utf8_offset_to_pointer_bytes i codes hwf (by omega),
      List.drop_eq_getElem_cons hlt]
    have hwf2 : ∀ x ∈ codes[i] :: List.drop (i + 1) codes,
        WellFormedChar (g_unichar_to_utf8 x) := by
      intro x hx
      apply hwf
      rcases List.mem_cons.mp hx with h | h
      · rw [h]; exact List.getElem_mem _
      · exact List.mem_of_mem_drop h
    rw [g_utf8_find_next_char_bytes _ _ hwf2]
    obtain ⟨picks, hp1, hp2, hp3⟩ := ih (idx + 1) (retval ++ g_unichar_to_utf8 codes[i])
    refine ⟨codes[i] :: picks, ?_, ?_, ?_⟩
    · rw [hp1, g_utf8_bytes_cons]
      simp
    · simp [hp2]
    · intro x hx
      rcases List.mem_cons.mp hx with h | h
      · rw [h]; exact List.getElem_mem _
      · exact hp3 x h

theorem random_string_isSome (draws : Nat → Nat) (face : FT_FaceRec) (n : Int) :
    ∃ s, random_string_from_available_chars draws face n = some s := by
  obtain ⟨chars, hc⟩ := build_charlist_for_face_isSome face
  exact ⟨_, by simp [random_string_from_available_chars, hc]; rfl⟩

/-- What `random_string_from_available_chars` returns when every code above 255
with a glyph under the active map is below `0x80000000`: the encoding of `n`
such codes, or nothing when there is no such code. -/
theorem random_string_from_available_chars_spec (draws : Nat → Nat) (face : FT_FaceRec)
    (n : Nat) (hcodes : ∀ x, 255 < x → FT_Get_Char_Index face x ≠ 0 → x < 2147483648) :
    ∃ codes picks, build_charlist_for_face face = some (g_utf8_bytes codes) ∧
      (∀ x, x ∈ codes ↔ 255 < x ∧ FT_Get_Char_Index face x ≠ 0) ∧
      random_string_from_available_chars draws face (n : Int) = some (g_utf8_bytes picks) ∧
      (∀ x ∈ picks, x ∈ codes) ∧
      (codes ≠ [] → picks.length = n) ∧ (codes = [] → picks = []) := by
  obtain ⟨codes, hc1, hc2, hwf⟩ := build_charlist_for_face_spec face hcodes
  have hlen := g_utf8_strlen_bytes codes hwf
  by_cases hne : codes = []
  · subst hne
    refine ⟨[], [], hc1, hc2, ?_, by simp, by simp, by simp⟩
    simp only [random_string_from_available_chars, hc1, hlen]
    have e : g_utf8_bytes [] = [] := rfl
    rw [e]
    simp [random_string_loop_nil]
  · obtain ⟨picks, hp1, hp2, hp3⟩ := random_string_loop_spec codes hne hwf draws n 0 []
    refine ⟨codes, picks, hc1, hc2, ?_, hp3, fun _ => hp2, fun h => absurd h hne⟩
    simp only [random_string_from_available_chars, hc1, hlen, Int.toNat_ofNat, hp1,
      List.nil_append]

theorem FT_Get_Char_Index_ne_zero (face : FT_FaceRec) (x : Nat)
    (h : FT_Get_Char_Index face x ≠ 0) :
    ∃ cm, active_charmap face = some cm ∧ x ∈ cm.entries.map Prod.fst := by
  unfold FT_Get_Char_Index at h
  cases hcm : active_charmap face with
  | none => rw [hcm] at h; exact absurd rfl h
  | some cm =>
    rw [hcm] at h
    exact ⟨cm, rfl, glyph_ne_zero_mem cm x h⟩

theorem check_font_contain_text_charmaps (retval0 : Bool) (face : FT_FaceRec) (text : Text) :
    (check_font_contain_text retval0 face text).face.charmaps = face.charmaps ∧
    (check_font_contain_text retval0 face text).face.family_name = face.family_name ∧
    (check_font_contain_text retval0 face text).face.style_name = face.style_name := by
  obtain ⟨c, hc⟩ := check_font_contain_text_face retval0 face text
  rw [hc]
  exact ⟨rfl, rfl, rfl⟩

/-- For a face with a family name, `build_strings_for_face` has a result: each of
lowercase, uppercase and punctuation is its stock string exactly when
`check_font_contain_text` on the face and that stock string is true, and absent
otherwise, each whatever the other two checks gave; the sample is the locale
sample string itself when that string is covered; the title is the family name,
a space and the style name (nothing for a null style name), and
`font_supports_title` is the result of `check_font_contain_text` on the face and
the title. -/
theorem build_strings_for_face_spec (env : Env) (priv : SushiFontWidgetPrivate)
    (face : FT_FaceRec) (hface : priv.face = some face)
    (fam : Text) (hfam : face.family_name = some fam) :
    ∃ priv1, build_strings_for_face env priv = some priv1 ∧
      priv1.lowercase_text =
        (if (check_font_contain_text (env.retval0 0) face lowercase_text_stock).retval
         then some lowercase_text_stock else none) ∧
      priv1.uppercase_text =
        (if (check_font_contain_text (env.retval0 1) face uppercase_text_stock).retval
         then some uppercase_text_stock else none) ∧
      priv1.punctuation_text =
        (if (check_font_contain_text (env.retval0 2) face punctuation_text_stock).retval
         then some punctuation_text_stock else none) ∧
      ((check_font_contain_text (env.retval0 3) face env.locale_sample).retval = true →
        priv1.sample_string = some (g_utf8_bytes env.locale_sample)) ∧
      priv1.font_name = some (fam ++ [32] ++ face.style_name.getD []) ∧
      priv1.font_supports_title =
        (check_font_contain_text (env.retval0 4) face
          (fam ++ [32] ++ face.style_name.getD [])).retval ∧
      priv1.face_contents = priv.face_contents ∧ priv1.uri = priv.uri ∧
      priv1.face.isSome = true ∧ priv1.sample_string.isSome = true := by
  obtain ⟨h1c, h1f, h1s⟩ :=
    check_font_contain_text_charmaps (env.retval0 0) face lowercase_text_stock
  generalize hr1 : check_font_contain_text (env.retval0 0) face lowercase_text_stock = r1
    at h1c h1f h1s ⊢
  obtain ⟨h2c, h2f, h2s⟩ :=
    check_font_contain_text_charmaps (env.retval0 1) r1.face uppercase_text_stock
  have e2 := check_font_contain_text_retval_congr (env.retval0 1) face r1.face
    uppercase_text_stock h1c
  generalize hr2 : check_font_contain_text (env.retval0 1) r1.face uppercase_text_stock = r2
    at h2c h2f h2s e2
  obtain ⟨h3c, h3f, h3s⟩ :=
    check_font_contain_text_charmaps (env.retval0 2) r2.face punctuation_text_stock
  have e3 := check_font_contain_text_retval_congr (env.retval0 2) face r2.face
    punctuation_text_stock (h2c.trans h1c)
  generalize hr3 : check_font_contain_text (env.retval0 2) r2.face punctuation_text_stock = r3
    at h3c h3f h3s e3
  obtain ⟨h4c, h4f, h4s⟩ :=
    check_font_contain_text_charmaps (env.retval0 3) r3.face env.locale_sample
  have e4 := check_font_contain_text_retval_congr (env.retval0 3) face r3.face
    env.locale_sample (h3c.trans (h2c.trans h1c))
  generalize hr4 : check_font_contain_text (env.retval0 3) r3.face env.locale_sample = r4
    at h4c h4f h4s e4
  have hfam4 : r4.face.family_name = some fam := by
    rw [h4f, h3f, h2f, h1f, hfam]
  have hsty : r4.face.style_name = face.style_name := by
    rw [h4s, h3s, h2s, h1s]
  have hmaps : r4.face.charmaps = face.charmaps := by
    rw [h4c, h3c, h2c, h1c]
  have htitle : font_title r4.face = some (fam ++ [32] ++ face.style_name.getD []) := by
    simp [font_title, g_strconcat, hfam4, hsty]
  have e5 := check_font_contain_text_retval_congr (env.retval0 4) face r4.face
    (fam ++ [32] ++ face.style_name.getD []) hmaps
  obtain ⟨s, hs⟩ : ∃ s, (if r4.retval then some (g_utf8_bytes env.locale_sample)
      else random_string_from_available_chars env.draws r4.face 36) = some s := by
    by_cases h : r4.retval = true
    · exact ⟨g_utf8_bytes env.locale_sample, by simp [h]⟩
    · obtain ⟨s, hs⟩ := random_string_isSome env.draws r4.face 36
      exact ⟨s, by simp [h, hs]⟩
  have hb : build_strings_for_face env priv = some { priv with
      face := some (check_font_contain_text (env.retval0 4) r4.face
        (fam ++ [32] ++ face.style_name.getD [])).face
      lowercase_text := if r1.retval then some lowercase_text_stock else none
      uppercase_text := if r2.retval then some uppercase_text_stock else none
      punctuation_text := if r3.retval then some punctuation_text_stock else none
      sample_string := some s
      font_name := some (fam ++ [32] ++ face.style_name.getD [])
      font_supports_title :=
        (check_font_contain_text (env.retval0 4) r4.face
          (fam ++ [32] ++ face.style_name.getD [])).retval } := by
    simp only [build_strings_for_face, hface, hr1, hr2, hr3, hr4, hs, htitle,
      check_font_contain_text_nullable]
  refine ⟨_, hb, ?_⟩
  simp only [e2, e3, e5, true_and, and_true, Option.isSome_some]
  intro h4
  rw [← e4] at h4
  rw [h4] at hs
  simpa using hs.symm

/-- C9: `faceNoNames` is a face as FreeType gives it for a font without a name
table: `family_name` and `style_name` are null.  Then `g_strconcat` returns
null, so no title is set, and the probe for the title decodes the null pointer,
which leaves its `len` uninitialised: when `len` holds 7 the scan reads through
the null pointer and there is no result; when it holds 0 the probe reports the
absent title as covered. -/
theorem C9_null_family_name :
    faceNoNames.family_name = none ∧ faceNoNames.style_name = none ∧
    envOnes.len0 = 7 ∧
    build_strings_for_face envOnes (privWith faceNoNames) = none ∧
    envExample.len0 = 0 ∧
    (build_strings_for_face envExample (privWith faceNoNames)).map
        (fun p => (p.font_name, p.font_supports_title)) = some (none, true) := by
  decide

/-! ## The random sample -/

/-- When `FT_Set_Charmap` accepts no map of the face, a probe leaves the face as it was. -/
theorem check_loop_no_selectable (s : List Nat) :
    ∀ (n map : Nat) (face : FT_FaceRec) (rv : Bool) (log : List Nat),
      (∀ j, ¬ Selectable face j) →
      (check_font_contain_text_loop s n map face rv log).face = face := by
  intro n
  induction n with
  | zero => intro map face rv log _; rfl
  | succ n ih =>
    intro map face rv log hno
    rw [check_font_contain_text_loop, FT_Set_Charmap_of_not_selectable face map (hno map)]
    split
    · rfl
    · exact ih _ _ _ _ hno

/-- The face that a failed probe leaves does not depend on the map that was
active on entry, as long as that map was left by probes of the same face. -/
theorem failed_probe_face (rv rv1 : Bool) (face face1 : FT_FaceRec) (text : Text)
    (hmaps : 0 < face.num_charmaps) (hnot : ¬ Covers face text)
    (h1 : ∃ c, face1 = { face with charmap := c })
    (h2 : (∀ j, ¬ Selectable face j) → face1 = face) :
    (check_font_contain_text rv1 face1 text).face =
      (check_font_contain_text rv face text).face := by
  obtain ⟨c, rfl⟩ := h1
  have hnot1 : ¬ Covers { face with charmap := c } text := hnot
  obtain ⟨_, ha⟩ := check_font_contain_text_not_covered rv face text hmaps hnot
  obtain ⟨_, hb⟩ := check_font_contain_text_not_covered rv1 { face with charmap := c } text
    hmaps hnot1
  rcases ha with ⟨k, hk1, hk2, hk3⟩ | ⟨hno, hk3⟩
  · rcases hb with ⟨k', hk1', hk2', hk3'⟩ | ⟨hno', _⟩
    · have hkk : k' = k := by
        rcases Nat.lt_trichotomy k' k with h | h | h
        · exact absurd hk1 (hk2' k h)
        · exact h
        · exact absurd hk1' (hk2 k' h)
      rw [hk3, hk3', hkk]
    · exact absurd hk1 (hno' k)
  · rw [hk3]
    have := h2 hno
    rw [this]
    exact check_loop_no_selectable _ _ _ _ _ _ hno

set_option maxRecDepth 8000

/-- C11 (as stated) fails.  In `faceLast14` the last listed map is of format 14:
the failed probe for "x" leaves map 0 active, the sample is drawn from the codes
300 and 400 of map 0, and the last map gives a glyph to neither.  In `faceHigh`
the map has a glyph for the code `0x80000000`: with every draw 1 the sample is
36 times the five continuation bytes of its encoding, which is not the encoding
of any sequence of codes of the map.  For `faceNoNames`, with 7 in the
uninitialised `len` of the title probe, `build_strings_for_face` has no result. -/
theorem C11_counterexample :
    (0 < faceLast14.num_charmaps ∧ ¬ Covers faceLast14 envUncovered.locale_sample ∧
      (build_strings_for_face envUncovered (privWith faceLast14)).map
          (fun p => p.sample_string) =
        some (some (g_utf8_bytes
          [300, 400, 300, 400, 300, 400, 300, 400, 300, 400, 300, 400,
           300, 400, 300, 400, 300, 400, 300, 400, 300, 400, 300, 400,
           300, 400, 300, 400, 300, 400, 300, 400, 300, 400, 300, 400])) ∧
      (check_font_contain_text (envUncovered.retval0 3) faceLast14
          envUncovered.locale_sample).face.charmap = some 0 ∧
      faceLast14.num_charmaps - 1 = 1 ∧
      (faceLast14.charmaps[faceLast14.num_charmaps - 1]?).map (fun cm => cm.glyph 300) =
        some 0) ∧
    (0 < faceHigh.num_charmaps ∧ ¬ Covers faceHigh envOnes.locale_sample ∧
      (build_strings_for_face envOnes (privWith faceHigh)).map (fun p => p.sample_string) =
        some (some (List.replicate 180 128)) ∧
      ¬ ∃ picks : List Nat, (picks = [] ∨ picks.length = 36) ∧
          List.replicate 180 128 = g_utf8_bytes picks ∧
          ∀ x ∈ picks, 255 < x ∧
            ∃ cm, faceHigh.charmaps[faceHigh.num_charmaps - 1]? = some cm ∧ cm.glyph x ≠ 0) ∧
    (0 < faceNoNames.num_charmaps ∧ ¬ Covers faceNoNames envOnes.locale_sample ∧
      build_strings_for_face envOnes (privWith faceNoNames) = none) := by
  refine ⟨by decide, ⟨by decide, by decide, by decide, ?_⟩, by decide⟩
  rintro ⟨picks, hlen, heq, hmem⟩
  cases picks with
  | nil => revert heq; decide
  | cons x rest =>
    obtain ⟨hx1, cm, hcm, hx2⟩ := hmem x (by simp)
    have hcm2 : cm = { entries := [(97, 1), (2147483648, 2)], format := 12 } := by
      have : faceHigh.charmaps[faceHigh.num_charmaps - 1]? =
          some { entries := [(97, 1), (2147483648, 2)], format := 12 } := by decide
      rw [this] at hcm
      exact (Option.some.inj hcm).symm
    subst hcm2
    have hx3 := glyph_ne_zero_mem _ x hx2
    simp only [List.map_cons, List.map_nil, List.mem_cons, List.mem_singleton,
      List.not_mem_nil, or_false] at hx3
    have hx : x = 2147483648 := by omega
    subst hx
    rw [g_utf8_bytes_cons] at heq
    have e : g_unichar_to_utf8 2147483648 = [254, 128, 128, 128, 128, 128] := by decide
    rw [e, show (180 : Nat) = 179 + 1 from rfl, List.replicate_succ] at heq
    simp at heq

set_option maxRecDepth 512

/-- C11 (amended): for every face with a family name and at least one character
map, none of whose maps covers the locale sample string, and for which the map
that the failed probe for the sample leaves active gives a glyph to no code of
`0x80000000` or more, `build_strings_for_face` has a result whose sample is
either empty or the UTF-8 encoding of 36 codepoints; each codepoint of it is
greater than 255 and has a nonzero glyph index under the map that the failed
probe leaves active, which is the last map that `FT_Set_Charmap` accepts when
the face has such a map. -/
theorem C11_random_sample_from_active_map (env : Env) (priv : SushiFontWidgetPrivate)
    (face : FT_FaceRec) (hface : priv.face = some face) (hmaps : 0 < face.num_charmaps)
    (hnot : ¬ Covers face env.locale_sample)
    (fam : Text) (hfam : face.family_name = some fam)
    (hcodes : ∀ x, 255 < x →
      FT_Get_Char_Index
        (check_font_contain_text (env.retval0 3) face env.locale_sample).face x ≠ 0 →
      x < 2147483648) :
    (∀ k, Selectable face k → (∀ j, k < j → ¬ Selectable face j) →
      (check_font_contain_text (env.retval0 3) face env.locale_sample).face.charmap =
        some k) ∧
    ∃ priv1 picks, build_strings_for_face env priv = some priv1 ∧
      priv1.sample_string = some (g_utf8_bytes picks) ∧
      (picks = [] ∨ picks.length = 36) ∧
      ∀ x ∈ picks, 255 < x ∧
        FT_Get_Char_Index
          (check_font_contain_text (env.retval0 3) face env.locale_sample).face x ≠ 0 := by
  constructor
  · intro k hk1 hk2
    obtain ⟨_, ha⟩ :=
      check_font_contain_text_not_covered (env.retval0 3) face env.locale_sample hmaps hnot
    rcases ha with ⟨k', hk1', hk2', hk3'⟩ | ⟨hno, _⟩
    · have hkk : k' = k := by
        rcases Nat.lt_trichotomy k' k with h | h | h
        · exact absurd hk1 (hk2' k h)
        · exact h
        · exact absurd hk1' (hk2 k' h)
      rw [hk3', hkk]
    · exact absurd hk1 (hno k)
  -- the three probes for the stock strings only move the active map
  obtain ⟨c1, hc1⟩ :=
    check_font_contain_text_face (env.retval0 0) face lowercase_text_stock
  have hn1 : (∀ j, ¬ Selectable face j) →
      (check_font_contain_text (env.retval0 0) face lowercase_text_stock).face = face :=
    fun hno => check_loop_no_selectable _ _ _ _ _ _ hno
  generalize hr1 : check_font_contain_text (env.retval0 0) face lowercase_text_stock = r1
    at hc1 hn1
  obtain ⟨c2, hc2⟩ :=
    check_font_contain_text_face (env.retval0 1) r1.face uppercase_text_stock
  have hn2 : (∀ j, ¬ Selectable face j) →
      (check_font_contain_text (env.retval0 1) r1.face uppercase_text_stock).face = face := by
    intro hno
    rw [hn1 hno]
    exact check_loop_no_selectable _ _ _ _ _ _ hno
  generalize hr2 : check_font_contain_text (env.retval0 1) r1.face uppercase_text_stock = r2
    at hc2 hn2
  obtain ⟨c3, hc3⟩ :=
    check_font_contain_text_face (env.retval0 2) r2.face punctuation_text_stock
  have hn3 : (∀ j, ¬ Selectable face j) →
      (check_font_contain_text (env.retval0 2) r2.face punctuation_text_stock).face = face := by
    intro hno
    rw [hn2 hno]
    exact check_loop_no_selectable _ _ _ _ _ _ hno
  generalize hr3 : check_font_contain_text (env.retval0 2) r2.face punctuation_text_stock = r3
    at hc3 hn3
  have hf3 : r3.face = { face with charmap := c3 } := by
    rw [hc3, hc2, hc1]
  -- the probe for the sample string fails
  have hmaps3 : 0 < r3.face.num_charmaps := by
    rw [hf3]; exact hmaps
  have hnot3 : ¬ Covers r3.face env.locale_sample := by
    rw [hf3]; exact hnot
  obtain ⟨h4r, _⟩ :=
    check_font_contain_text_not_covered (env.retval0 3) r3.face env.locale_sample hmaps3 hnot3
  have h4f := failed_probe_face (env.retval0 3) (env.retval0 3) face r3.face env.locale_sample
    hmaps hnot ⟨c3, hf3⟩ hn3
  generalize hr4 : check_font_contain_text (env.retval0 3) r3.face env.locale_sample = r4
    at h4r h4f
  -- the random string is drawn under the map it leaves active
  rw [← h4f] at hcodes ⊢
  obtain ⟨codes, picks, _, hs2, hs3, hs4, hs5, hs6⟩ :=
    random_string_from_available_chars_spec env.draws r4.face 36 hcodes
  obtain ⟨c4, hc4⟩ : ∃ c4, r4.face = { face with charmap := c4 } := by
    obtain ⟨c4, hc4⟩ := check_font_contain_text_face (env.retval0 3) r3.face env.locale_sample
    rw [hr4] at hc4
    exact ⟨c4, by rw [hc4, hf3]⟩
  have htitle : font_title r4.face = some (fam ++ [32] ++ face.style_name.getD []) := by
    rw [hc4]
    simp [font_title, g_strconcat, hfam]
  have hs3a : random_string_from_available_chars env.draws r4.face 36 =
      some (g_utf8_bytes picks) := hs3
  have hb : build_strings_for_face env priv = some { priv with
      face := some (check_font_contain_text (env.retval0 4) r4.face
        (fam ++ [32] ++ face.style_name.getD [])).face
      lowercase_text := if r1.retval then some lowercase_text_stock else none
      uppercase_text := if r2.retval then some uppercase_text_stock else none
      punctuation_text := if r3.retval then some punctuation_text_stock else none
      sample_string := some (g_utf8_bytes picks)
      font_name := some (fam ++ [32] ++ face.style_name.getD [])
      font_supports_title :=
        (check_font_contain_text (env.retval0 4) r4.face
          (fam ++ [32] ++ face.style_name.getD [])).retval } := by
    simp only [build_strings_for_face, hface, hr1, hr2, hr3, hr4, h4r, Bool.false_eq_true,
      if_false, hs3a, htitle, check_font_contain_text_nullable]
  refine ⟨_, picks, hb, rfl, ?_, ?_⟩
  · by_cases hne : codes = []
    · left; exact hs6 hne
    · right; exact hs5 hne
  · intro x hx
    exact (hs2 x).mp (hs4 x hx)

theorem faceLast14_probe_codes :
    ∀ x, 255 < x →
      FT_Get_Char_Index
        (check_font_contain_text (envUncovered.retval0 3) faceLast14
          envUncovered.locale_sample).face x ≠ 0 →
      x < 2147483648 := by
  intro x _ hx
  obtain ⟨cm, hcm, hx3⟩ := FT_Get_Char_Index_ne_zero _ x hx
  have hcm2 : cm = { entries := [(97, 1), (98, 2), (300, 4), (400, 5)] } := by
    have : active_charmap (check_font_contain_text (envUncovered.retval0 3) faceLast14
        envUncovered.locale_sample).face =
        some { entries := [(97, 1), (98, 2), (300, 4), (400, 5)] } := by decide
    rw [this] at hcm
    exact (Option.some.inj hcm).symm
  subst hcm2
  simp only [List.map_cons, List.map_nil, List.mem_cons, List.mem_singleton,
    List.not_mem_nil, or_false] at hx3
  omega

theorem C11_random_sample_from_active_map_witness :
    (privWith faceLast14).face = some faceLast14 ∧
    0 < faceLast14.num_charmaps ∧
    ¬ Covers faceLast14 envUncovered.locale_sample ∧
    faceLast14.family_name = some [97] ∧
    (build_strings_for_face envUncovered (privWith faceLast14)).map
        (fun p => p.sample_string) =
      some (some (g_utf8_bytes
        [300, 400, 300, 400, 300, 400, 300, 400, 300, 400, 300, 400,
         300, 400, 300, 400, 300, 400, 300, 400, 300, 400, 300, 400,
         300, 400, 300, 400, 300, 400, 300, 400, 300, 400, 300, 400])) ∧
    ((∀ k, Selectable faceLast14 k → (∀ j, k < j → ¬ Selectable faceLast14 j) →
      (check_font_contain_text (envUncovered.retval0 3) faceLast14
        envUncovered.locale_sample).face.charmap = some k) ∧
    ∃ priv1 picks, build_strings_for_face envUncovered (privWith faceLast14) = some priv1 ∧
      priv1.sample_string = some (g_utf8_bytes picks) ∧
      (picks = [] ∨ picks.length = 36) ∧
      ∀ x ∈ picks, 255 < x ∧
        FT_Get_Char_Index
          (check_font_contain_text (envUncovered.retval0 3) faceLast14
            envUncovered.locale_sample).face x ≠ 0) :=
  ⟨rfl, by decide, by decide, rfl, by decide,
   C11_random_sample_from_active_map envUncovered (privWith faceLast14) faceLast14 rfl
     (by decide) (by decide) [97] rfl faceLast14_probe_codes⟩

/-! ## Load completion -/

/-- The state `privLoaded` is what a successful first load produces. -/
theorem privLoaded_reached :
    font_face_async_ready_cb envExample { sushi_font_widget_init with uri := some [102] }
        (AsyncResult.job { face_index := 0, face_contents := [1], face_length := 1 }) =
      some { priv := privLoaded, printed := none, loaded := true } := by
  decide

/-- When the result carries an error, the callback stores a null face and
changes nothing else. -/
theorem font_face_async_ready_cb_error (env : Env) (priv : SushiFontWidgetPrivate)
    (message : String) :
    font_face_async_ready_cb env priv (AsyncResult.error message) =
      some { priv := { priv with face := none }, printed := some message, loaded := false } := by
  rfl

/-- When the bytes do not parse, the callback likewise stores a null face and
changes nothing else. -/
theorem font_face_async_ready_cb_parse_error (env : Env) (priv : SushiFontWidgetPrivate)
    (j : FontLoadJob) (h : env.FT_New_Memory_Face j.face_contents = none) :
    font_face_async_ready_cb env priv (AsyncResult.job j) =
      some { priv := { priv with face := none },
             printed := some "Unable to read the font face file", loaded := false } := by
  simp [font_face_async_ready_cb, sushi_new_ft_face_from_uri_finish,
    create_face_from_contents, h]

/-- When the bytes parse to a face with a family name, the callback installs the
new face and buffer and then all the derived fields, and emits `loaded`. -/
theorem font_face_async_ready_cb_success (env : Env) (priv : SushiFontWidgetPrivate)
    (j : FontLoadJob) (face : FT_FaceRec)
    (h : env.FT_New_Memory_Face j.face_contents = some face)
    (fam : Text) (hfam : face.family_name = some fam) :
    ∃ priv2, font_face_async_ready_cb env priv (AsyncResult.job j) =
        some { priv := priv2, printed := none, loaded := true } ∧
      build_strings_for_face env
        { priv with face := some face, face_contents := some j.face_contents } = some priv2 ∧
      priv2.face.isSome = true ∧ priv2.sample_string.isSome = true ∧
      priv2.font_name.isSome = true := by
  obtain ⟨priv2, h2, _, _, _, _, h7, _, _, _, h11, h12⟩ := build_strings_for_face_spec env
    { priv with face := some face, face_contents := some j.face_contents } face rfl fam hfam
  refine ⟨priv2, ?_, h2, h11, h12, by rw [h7]; rfl⟩
  simp [font_face_async_ready_cb, sushi_new_ft_face_from_uri_finish,
    create_face_from_contents, h, h2]

/-- C3: a widget that holds the loaded face `faceTwoMaps` and its derived
strings gets a completion carrying a read error: the callback sets the face to
null and keeps the strings derived from the old face, so the state is neither
the prior one nor a freshly populated one. -/
theorem C3_error_after_loaded_face :
    font_face_async_ready_cb envExample privLoaded (AsyncResult.error "read failed") =
      some { priv := { privLoaded with face := none },
             printed := some "read failed", loaded := false } ∧
    privLoaded.face = some (FT_Set_Charmap faceTwoMaps 1) ∧
    ({ privLoaded with face := none } : SushiFontWidgetPrivate) ≠ privLoaded ∧
    ({ privLoaded with face := none } : SushiFontWidgetPrivate).sample_string =
      some [97, 98] ∧
    ({ privLoaded with face := none } : SushiFontWidgetPrivate).font_name =
      some [97, 32, 98] := by
  refine ⟨rfl, rfl, by decide, rfl, rfl⟩

/-! ## The size ladder -/

theorem build_sizes_loop_eq (l : List FT_Bitmap_Size) (sizes : List Int) (a : Int) :
    build_sizes_loop l sizes a =
      (sizes ++ l.map FT_Bitmap_Size.height,
       (((l.map FT_Bitmap_Size.height).filter (fun h => decide (h ≤ 24))).getLast?).getD a) := by
  induction l generalizing sizes a with
  | nil => simp [build_sizes_loop]
  | cons s rest ih =>
    rw [build_sizes_loop, ih]
    by_cases h : s.height ≤ 24
    · simp only [h, if_true, List.map_cons, List.append_assoc, List.singleton_append,
        List.filter_cons, decide_True]
      cases hr : (List.filter (fun h => decide (h ≤ 24)) (List.map FT_Bitmap_Size.height rest)) with
      | nil => simp
      | cons x xs => simp [List.getLast?_eq_getLast _ (List.cons_ne_nil x xs)]
    · simp [h, List.filter_cons]

theorem getLast?_filter_sorted_max (hs : List Int) (hsort : hs.Sorted (fun a b => a ≤ b))
    (a : Int) (ha : (hs.filter (fun h => decide (h ≤ 24))).getLast? = some a) :
    a ∈ hs ∧ a ≤ 24 ∧ ∀ h ∈ hs, h ≤ 24 → h ≤ a := by
  have hmem : a ∈ hs.filter (fun h => decide (h ≤ 24)) := List.mem_of_getLast?_eq_some ha
  have hmem2 := List.mem_filter.mp hmem
  refine ⟨hmem2.1, by simpa using hmem2.2, ?_⟩
  intro h hh h24
  have hfs : (hs.filter (fun h => decide (h ≤ 24))).Sorted (fun a b => a ≤ b) :=
    hsort.filter _
  have hin : h ∈ hs.filter (fun h => decide (h ≤ 24)) :=
    List.mem_filter.mpr ⟨hh, by simpa using h24⟩
  obtain ⟨l, hl⟩ : ∃ l, hs.filter (fun h => decide (h ≤ 24)) = l ++ [a] := by
    rw [List.getLast?_eq_some_iff] at ha
    exact ha
  rw [hl] at hfs hin
  rcases List.mem_append.mp hin with h1 | h1
  · have := (List.pairwise_append.mp hfs).2.2 h h1 a (by simp)
    exact this
  · simp at h1
    omega

/-- C1 (as stated) fails: for the bitmap face with heights [24, 12] the table
gives `alpha_size = 12`, which is not the largest height that is at most 24. -/
theorem C1_counterexample :
    (build_sizes_table (bitmapFace [24, 12])).alpha_size = 12 ∧
    ¬ IsMaxHeightLe24 ((bitmapFace [24, 12]).available_sizes.map FT_Bitmap_Size.height)
        (build_sizes_table (bitmapFace [24, 12])).alpha_size := by
  refine ⟨by decide, ?_⟩
  have h : (build_sizes_table (bitmapFace [24, 12])).alpha_size = 12 := by decide
  rw [h]
  simp [IsMaxHeightLe24, bitmapFace]

/-- C1 (amended): for every non-scalable face, `build_sizes_table` returns as
`alpha_size` the last height, in the order the face lists them, that is at most
24, and 0 when no height is at most 24; when the heights are listed in
non-decreasing order this is the largest available height that is at most 24. -/
theorem C1_alpha_size_last_le_24 (face : FT_FaceRec) (hns : FT_IS_SCALABLE face = false) :
    (build_sizes_table face).alpha_size =
      (((face.available_sizes.map FT_Bitmap_Size.height).filter
          (fun h => decide (h ≤ 24))).getLast?).getD 0 ∧
    ((face.available_sizes.map FT_Bitmap_Size.height).Sorted (fun a b => a ≤ b) →
      IsMaxHeightLe24 (face.available_sizes.map FT_Bitmap_Size.height)
        (build_sizes_table face).alpha_size) := by
  have key : (build_sizes_table face).alpha_size =
      (((face.available_sizes.map FT_Bitmap_Size.height).filter
          (fun h => decide (h ≤ 24))).getLast?).getD 0 := by
    simp [build_sizes_table, hns, build_sizes_loop_eq]
  refine ⟨key, ?_⟩
  intro hsort
  rw [key]
  cases hl : ((face.available_sizes.map FT_Bitmap_Size.height).filter
      (fun h => decide (h ≤ 24))).getLast? with
  | none =>
    right
    rw [List.getLast?_eq_none_iff] at hl
    refine ⟨?_, rfl⟩
    intro h hh h24
    have : h ∈ (face.available_sizes.map FT_Bitmap_Size.height).filter
        (fun h => decide (h ≤ 24)) := List.mem_filter.mpr ⟨hh, by simpa using h24⟩
    rw [hl] at this
    simp at this
  | some a =>
    left
    exact getLast?_filter_sorted_max _ hsort a hl

theorem C1_alpha_size_last_le_24_witness :
    (build_sizes_table (bitmapFace [12, 24, 48])).alpha_size = 24 ∧
    IsMaxHeightLe24 [12, 24, 48] (build_sizes_table (bitmapFace [12, 24, 48])).alpha_size :=
  ⟨by decide,
   (C1_alpha_size_last_le_24 (bitmapFace [12, 24, 48]) (by decide)).2 (by decide)⟩

/-- C8: for every scalable face, `build_sizes_table` returns exactly the sizes
[8,10,12,18,24,36,48,72] with `n_sizes = 8` and `alpha_size = 24`, whatever the
face's character maps, names and fixed-size list are. -/
theorem C8_scalable_sizes (face : FT_FaceRec) (hs : FT_IS_SCALABLE face = true) :
    build_sizes_table face =
      { sizes := [8, 10, 12, 18, 24, 36, 48, 72], n_sizes := 8, alpha_size := 24 } := by
  simp [build_sizes_table, hs]

theorem C8_scalable_sizes_witness :
    build_sizes_table
        { face_flags := 1, family_name := some [], style_name := some [],
          available_sizes := [{ height := 7, width := 7 }],
          charmaps := [{ entries := [(65, 3)] }], charmap := none } =
      { sizes := [8, 10, 12, 18, 24, 36, 48, 72], n_sizes := 8, alpha_size := 24 } :=
  C8_scalable_sizes _ (by decide)

/-! ## Rounding to the nearest double -/

theorem round_half_even_intCast (n : ℤ) : round_half_even (n : ℚ) = n := by
  simp [round_half_even]

theorem floor_le_round_half_even (x : ℚ) : ⌊x⌋ ≤ round_half_even x := by
  unfold round_half_even
  split_ifs <;> omega

theorem round_half_even_le_floor_add_one (x : ℚ) : round_half_even x ≤ ⌊x⌋ + 1 := by
  unfold round_half_even
  split_ifs <;> omega

theorem le_round_half_even (n : ℤ) (x : ℚ) (h : (n : ℚ) ≤ x) : n ≤ round_half_even x :=
  le_trans (Int.le_floor.mpr h) (floor_le_round_half_even x)

theorem round_half_even_le (n : ℤ) (x : ℚ) (h : x ≤ (n : ℚ)) : round_half_even x ≤ n := by
  have hfl : ⌊x⌋ ≤ n := Int.floor_le_iff.mpr (by linarith [show (n : ℚ) < n + 1 by linarith])
  rcases lt_or_eq_of_le hfl with hlt | heq
  · have := round_half_even_le_floor_add_one x
    omega
  · have hx : x = (n : ℚ) := by
      have h1 : ((⌊x⌋ : ℤ) : ℚ) ≤ x := Int.floor_le x
      rw [heq] at h1
      exact le_antisymm h h1
    rw [hx, round_half_even_intCast]

/-- A number at most half a unit below an even integer is rounded up to it. -/
theorem le_round_half_even_of_half (n : ℤ) (hn : n % 2 = 0) (x : ℚ)
    (h : (n : ℚ) - 1 / 2 ≤ x) : n ≤ round_half_even x := by
  by_cases hx : (n : ℚ) ≤ x
  · exact le_round_half_even n x hx
  · have hx2 : x < (n : ℚ) := not_le.mp hx
    have hfl : ⌊x⌋ = n - 1 := by
      rw [Int.floor_eq_iff]
      push_cast
      constructor <;> linarith
    unfold round_half_even
    rw [hfl]
    push_cast
    have hodd : ¬ ((n - 1) % 2 = 0) := by omega
    split_ifs with h1 h2
    · exfalso; linarith
    · omega
    · omega

/-- A number more than half a unit below an integer is rounded below it. -/
theorem round_half_even_le_of_lt_half (n : ℤ) (x : ℚ) (h : x < (n : ℚ) - 1 / 2) :
    round_half_even x ≤ n - 1 := by
  have hfl : ⌊x⌋ ≤ n - 1 := by
    have : ⌊x⌋ < n := Int.floor_lt.mpr (by linarith)
    omega
  rcases lt_or_eq_of_le hfl with hlt | heq
  · have := round_half_even_le_floor_add_one x
    omega
  · unfold round_half_even
    rw [heq]
    push_cast
    have h1 : x - ((n : ℚ) - 1) < 1 / 2 := by linarith
    rw [if_pos h1]

theorem round_double_zero : round_double 0 = 0 := by
  simp [round_double]

theorem round_double_pos (x : ℚ) (hx : 0 < x) :
    round_double x =
      (round_half_even (x / 2 ^ (Int.log 2 x - 52)) : ℚ) * 2 ^ (Int.log 2 x - 52) := by
  rw [round_double, if_neg (ne_of_gt hx), abs_of_pos hx]

theorem two_zpow_pos (k : ℤ) : (0 : ℚ) < 2 ^ k := zpow_pos (by norm_num) k

theorem two_zpow_le {a b : ℤ} (h : a ≤ b) : (2 : ℚ) ^ a ≤ 2 ^ b :=
  zpow_le_zpow_right₀ (by norm_num) h

theorem two_zpow_lt_iff {a b : ℤ} : (2 : ℚ) ^ a < 2 ^ b ↔ a < b :=
  zpow_lt_zpow_iff_right₀ (by norm_num)

theorem two_zpow_log_le (x : ℚ) (hx : 0 < x) : (2 : ℚ) ^ Int.log 2 x ≤ x :=
  Int.zpow_log_le_self (by norm_num) hx

theorem lt_two_zpow_log_succ (x : ℚ) : x < (2 : ℚ) ^ (Int.log 2 x + 1) :=
  Int.lt_zpow_succ_log_self (by norm_num) x

theorem two_zpow_sub (a b : ℤ) : (2 : ℚ) ^ (a - b) = 2 ^ a / 2 ^ b :=
  zpow_sub₀ (by norm_num) a b

theorem two_zpow_add (a b : ℤ) : (2 : ℚ) ^ (a + b) = 2 ^ a * 2 ^ b :=
  zpow_add₀ (by norm_num) a b

/-- An integer multiple of a power of two not finer than the last place. -/
theorem mul_two_zpow_toNat (m : ℤ) (k e : ℤ) (h : e ≤ k) :
    ((m * 2 ^ (k - e).toNat : ℤ) : ℚ) * 2 ^ e = (m : ℚ) * 2 ^ k := by
  have hk : k = e + ((k - e).toNat : ℤ) := by omega
  push_cast
  conv_rhs => rw [hk, two_zpow_add, zpow_natCast]
  ring

/-- Rounding does not go below a double that the number reaches: a non-negative
integer of at most 53 bits times a power of two. -/
theorem le_round_double (m k : ℤ) (x : ℚ) (hm0 : 0 ≤ m) (hm : m ≤ 2 ^ 53)
    (h : (m : ℚ) * 2 ^ k ≤ x) : (m : ℚ) * 2 ^ k ≤ round_double x := by
  have hd0 : (0 : ℚ) ≤ (m : ℚ) * 2 ^ k :=
    mul_nonneg (by exact_mod_cast hm0) (le_of_lt (two_zpow_pos k))
  rcases eq_or_lt_of_le (le_trans hd0 h) with hx0 | hx
  · rw [← hx0, round_double_zero]
    rw [← hx0] at h
    exact h
  rw [round_double_pos x hx]
  have hL := two_zpow_log_le x hx
  generalize Int.log 2 x = L at hL
  have he := two_zpow_pos (L - 52)
  by_cases hk : L - 52 ≤ k
  · have hn := mul_two_zpow_toNat m k (L - 52) hk
    rw [← hn]
    apply mul_le_mul_of_nonneg_right _ (le_of_lt he)
    have : ((m * 2 ^ (k - (L - 52)).toNat : ℤ) : ℚ) ≤ x / 2 ^ (L - 52) := by
      rw [le_div_iff₀ he, hn]
      exact h
    exact_mod_cast le_round_half_even _ _ this
  · have hk2 : k + 1 ≤ L - 52 := by omega
    have h52 : ((2 ^ 52 : ℤ) : ℚ) ≤ x / 2 ^ (L - 52) := by
      rw [le_div_iff₀ he]
      have : ((2 ^ 52 : ℤ) : ℚ) * 2 ^ (L - 52) = 2 ^ L := by
        have e1 : ((2 ^ 52 : ℤ) : ℚ) = (2 : ℚ) ^ (52 : ℤ) := by norm_num
        rw [e1, ← two_zpow_add]
        congr 1
        omega
      rw [this]
      exact hL
    have h1 : ((2 ^ 52 : ℤ) : ℚ) ≤ (round_half_even (x / 2 ^ (L - 52)) : ℚ) := by
      exact_mod_cast le_round_half_even _ _ h52
    have h2 : (m : ℚ) * 2 ^ k ≤ ((2 ^ 52 : ℤ) : ℚ) * 2 ^ (L - 52) := by
      have hm2 : (m : ℚ) ≤ 2 ^ (53 : ℤ) := by
        have : (m : ℚ) ≤ ((2 ^ 53 : ℤ) : ℚ) := by exact_mod_cast hm
        norm_num at this ⊢
        exact this
      have e1 : ((2 ^ 52 : ℤ) : ℚ) = (2 : ℚ) ^ (52 : ℤ) := by norm_num
      rw [e1, ← two_zpow_add]
      calc (m : ℚ) * 2 ^ k ≤ 2 ^ (53 : ℤ) * 2 ^ k :=
            mul_le_mul_of_nonneg_right hm2 (le_of_lt (two_zpow_pos k))
        _ = 2 ^ (53 + k) := (two_zpow_add 53 k).symm
        _ ≤ 2 ^ (52 + (L - 52)) := two_zpow_le (by omega)
    exact le_trans h2 (mul_le_mul_of_nonneg_right h1 (le_of_lt he))

/-- Rounding does not go above a double that bounds the number from above and is
not coarser than the number's own last place. -/
theorem round_double_le (m k : ℤ) (x : ℚ) (hx : 0 ≤ x) (h : x ≤ (m : ℚ) * 2 ^ k)
    (hk : x < 2 ^ (k + 53)) : round_double x ≤ (m : ℚ) * 2 ^ k := by
  rcases eq_or_lt_of_le hx with hx0 | hx
  · rw [← hx0, round_double_zero]
    rw [← hx0] at h
    exact h
  rw [round_double_pos x hx]
  have hL := two_zpow_log_le x hx
  generalize Int.log 2 x = L at hL
  have he := two_zpow_pos (L - 52)
  have hLk : L - 52 ≤ k := by
    have : (2 : ℚ) ^ L < 2 ^ (k + 53) := lt_of_le_of_lt hL hk
    have := two_zpow_lt_iff.mp this
    omega
  have hn := mul_two_zpow_toNat m k (L - 52) hLk
  rw [← hn]
  apply mul_le_mul_of_nonneg_right _ (le_of_lt he)
  have : x / 2 ^ (L - 52) ≤ ((m * 2 ^ (k - (L - 52)).toNat : ℤ) : ℚ) := by
    rw [div_le_iff₀ he, hn]
    exact h
  exact_mod_cast round_half_even_le _ _ this

theorem le_round_double_int (n : ℤ) (x : ℚ) (hn0 : 0 ≤ n) (hn : n ≤ 2 ^ 53)
    (h : (n : ℚ) ≤ x) : (n : ℚ) ≤ round_double x := by
  have := le_round_double n 0 x hn0 hn (by simpa using h)
  simpa using this

theorem round_double_nonneg (x : ℚ) (h : 0 ≤ x) : 0 ≤ round_double x := by
  have := le_round_double_int 0 x (le_refl _) (by norm_num) (by simpa using h)
  simpa using this

/-- The binary order of a positive integer of at most 53 bits. -/
theorem exists_order (M : ℤ) (h1 : 1 ≤ M) (h2 : M ≤ 2 ^ 52) :
    ∃ c : ℤ, 0 ≤ c ∧ c ≤ 52 ∧ (2 : ℚ) ^ (c - 1) < M ∧ (M : ℚ) ≤ 2 ^ c := by
  have hpos : (0 : ℚ) < (M : ℚ) := by exact_mod_cast (by omega : 0 < M)
  have ha : (M : ℚ) ≤ 2 ^ Int.clog 2 (M : ℚ) := Int.self_le_zpow_clog (by norm_num) _
  have hb : (2 : ℚ) ^ (Int.clog 2 (M : ℚ) - 1) < (M : ℚ) :=
    Int.zpow_pred_clog_lt_self (by norm_num) hpos
  generalize Int.clog 2 (M : ℚ) = c at ha hb
  have hM1 : (1 : ℚ) ≤ (M : ℚ) := by exact_mod_cast h1
  have hM2 : (M : ℚ) ≤ 2 ^ (52 : ℤ) := by
    have : (M : ℚ) ≤ ((2 ^ 52 : ℤ) : ℚ) := by exact_mod_cast h2
    norm_num at this ⊢
    exact this
  refine ⟨c, ?_, ?_, hb, ha⟩
  · by_contra hneg
    have : (2 : ℚ) ^ c < 2 ^ (0 : ℤ) := two_zpow_lt_iff.mpr (by omega)
    norm_num at this
    linarith
  · have : (2 : ℚ) ^ (c - 1) < 2 ^ (52 : ℤ) := lt_of_lt_of_le hb hM2
    have := two_zpow_lt_iff.mp this
    omega

theorem order_mono (M M1 c c1 : ℤ) (h : M ≤ M1) (h1 : (2 : ℚ) ^ (c - 1) < M)
    (h2 : (M1 : ℚ) ≤ 2 ^ c1) : c ≤ c1 := by
  have hq : (M : ℚ) ≤ (M1 : ℚ) := by exact_mod_cast h
  have : (2 : ℚ) ^ (c - 1) < 2 ^ c1 := lt_of_lt_of_le h1 (le_trans hq h2)
  have := two_zpow_lt_iff.mp this
  omega

/-- An integer of binary order `c ≤ 52` in units of the last place of the
doubles just below it: an even integer above `2 ^ 52`. -/
theorem order_scaled (M c : ℤ) (hc : c ≤ 52) (h1 : (2 : ℚ) ^ (c - 1) < M) :
    ∃ m : ℤ, (m : ℚ) * 2 ^ (c - 53) = M ∧ m % 2 = 0 ∧ 2 ^ 52 < m := by
  refine ⟨M * 2 ^ (0 - (c - 53)).toNat, ?_, ?_, ?_⟩
  · have := mul_two_zpow_toNat M 0 (c - 53) (by omega)
    simpa using this
  · obtain ⟨d, hd⟩ : ∃ d, (0 - (c - 53)).toNat = d + 1 :=
      ⟨(0 - (c - 53)).toNat - 1, by omega⟩
    rw [hd, pow_succ, ← mul_assoc]
    exact Int.mul_emod_left _ _
  · have hm := mul_two_zpow_toNat M 0 (c - 53) (by omega)
    simp only [zpow_zero, mul_one] at hm
    have hu := two_zpow_pos (c - 53)
    have e : (2 : ℚ) ^ (c - 1) = ((2 ^ 52 : ℤ) : ℚ) * 2 ^ (c - 53) := by
      have e1 : ((2 ^ 52 : ℤ) : ℚ) = (2 : ℚ) ^ (52 : ℤ) := by norm_num
      rw [e1, ← two_zpow_add]
      congr 1
      omega
    rw [e, ← hm] at h1
    have := lt_of_mul_lt_mul_right h1 (le_of_lt hu)
    exact_mod_cast this

theorem two_zpow_half (c : ℤ) : (2 : ℚ) ^ (c - 54) = 2 ^ (c - 53) / 2 := by
  have : c - 54 = (c - 53) - 1 := by omega
  rw [this, two_zpow_sub]
  norm_num

/-- A number at most half a last place below an integer is rounded up to the
integer or further. -/
theorem le_round_double_of_half_gap (M c : ℤ) (x : ℚ) (hc : c ≤ 52)
    (h1 : (2 : ℚ) ^ (c - 1) < M) (h2 : (M : ℚ) ≤ 2 ^ c)
    (h : (M : ℚ) - 2 ^ (c - 54) ≤ x) : (M : ℚ) ≤ round_double x := by
  have hMpos : (0 : ℚ) < (M : ℚ) := lt_trans (two_zpow_pos _) h1
  have hM0 : 0 ≤ M := by
    have : (0 : ℤ) < M := by exact_mod_cast hMpos
    omega
  have hM53 : M ≤ 2 ^ 53 := by
    have : (M : ℚ) ≤ 2 ^ (53 : ℤ) := le_trans h2 (two_zpow_le (by omega))
    have e1 : ((2 ^ 53 : ℤ) : ℚ) = (2 : ℚ) ^ (53 : ℤ) := by norm_num
    rw [← e1] at this
    exact_mod_cast this
  by_cases hx : (M : ℚ) ≤ x
  · exact le_round_double_int M x hM0 hM53 hx
  have hxM : x < (M : ℚ) := not_le.mp hx
  obtain ⟨m, hm, heven, hbig⟩ := order_scaled M c hc h1
  have hu := two_zpow_pos (c - 53)
  rw [two_zpow_half] at h
  have hbigq : ((2 ^ 52 : ℤ) : ℚ) + 1 ≤ (m : ℚ) := by
    have : 2 ^ 52 + 1 ≤ m := by omega
    exact_mod_cast this
  have e : (2 : ℚ) ^ (c - 1) = ((2 ^ 52 : ℤ) : ℚ) * 2 ^ (c - 53) := by
    have e1 : ((2 ^ 52 : ℤ) : ℚ) = (2 : ℚ) ^ (52 : ℤ) := by norm_num
    rw [e1, ← two_zpow_add]
    congr 1
    omega
  have hlow : (2 : ℚ) ^ (c - 1) ≤ x := by
    rw [e]
    have : (((2 ^ 52 : ℤ) : ℚ) + 1) * 2 ^ (c - 53) ≤ (m : ℚ) * 2 ^ (c - 53) :=
      mul_le_mul_of_nonneg_right hbigq (le_of_lt hu)
    rw [hm] at this
    nlinarith
  have hxpos : 0 < x := lt_of_lt_of_le (two_zpow_pos _) hlow
  have hL1 : c - 1 ≤ Int.log 2 x :=
    (Int.zpow_le_iff_le_log (by norm_num) hxpos).mp hlow
  have hL2 : Int.log 2 x < c :=
    (Int.lt_zpow_iff_log_lt (by norm_num) hxpos).mp (lt_of_lt_of_le hxM h2)
  have hL : Int.log 2 x - 52 = c - 53 := by omega
  rw [round_double_pos x hxpos, hL, ← hm]
  apply mul_le_mul_of_nonneg_right _ (le_of_lt hu)
  have hy : (m : ℚ) - 1 / 2 ≤ x / 2 ^ (c - 53) := by
    rw [le_div_iff₀ hu]
    have : ((m : ℚ) - 1 / 2) * 2 ^ (c - 53) = (m : ℚ) * 2 ^ (c - 53) - 2 ^ (c - 53) / 2 := by
      ring
    rw [this, hm]
    exact h
  exact_mod_cast le_round_half_even_of_half m heven _ hy

/-- A number more than half a last place below an integer is rounded below the
integer. -/
theorem round_double_lt_of_lt_half_gap (M c : ℤ) (x : ℚ) (hc : c ≤ 52)
    (h1 : (2 : ℚ) ^ (c - 1) < M) (h2 : (M : ℚ) ≤ 2 ^ c) (hx0 : 0 ≤ x)
    (h : x < (M : ℚ) - 2 ^ (c - 54)) : round_double x < (M : ℚ) := by
  have hMpos : (0 : ℚ) < (M : ℚ) := lt_trans (two_zpow_pos _) h1
  rcases eq_or_lt_of_le hx0 with hx | hxpos
  · rw [← hx, round_double_zero]
    exact hMpos
  have hxM : x < (M : ℚ) := lt_trans h (by linarith [two_zpow_pos (c - 54)])
  have hL2 : Int.log 2 x < c :=
    (Int.lt_zpow_iff_log_lt (by norm_num) hxpos).mp (lt_of_lt_of_le hxM h2)
  by_cases hL : Int.log 2 x = c - 1
  · obtain ⟨m, hm, _, _⟩ := order_scaled M c hc h1
    have hu := two_zpow_pos (c - 53)
    rw [two_zpow_half] at h
    have hL3 : Int.log 2 x - 52 = c - 53 := by omega
    rw [round_double_pos x hxpos, hL3]
    have hy : x / 2 ^ (c - 53) < (m : ℚ) - 1 / 2 := by
      rw [div_lt_iff₀ hu]
      have : ((m : ℚ) - 1 / 2) * 2 ^ (c - 53) =
          (m : ℚ) * 2 ^ (c - 53) - 2 ^ (c - 53) / 2 := by ring
      rw [this, hm]
      exact h
    have hr := round_half_even_le_of_lt_half m _ hy
    have hrq : (round_half_even (x / 2 ^ (c - 53)) : ℚ) ≤ (m : ℚ) - 1 := by
      exact_mod_cast hr
    have : (round_half_even (x / 2 ^ (c - 53)) : ℚ) * 2 ^ (c - 53) ≤
        ((m : ℚ) - 1) * 2 ^ (c - 53) := mul_le_mul_of_nonneg_right hrq (le_of_lt hu)
    have e : ((m : ℚ) - 1) * 2 ^ (c - 53) = (M : ℚ) - 2 ^ (c - 53) := by
      rw [← hm]; ring
    linarith
  · have hL4 : Int.log 2 x + 1 ≤ c - 1 := by omega
    have hup := lt_two_zpow_log_succ x
    have hr := round_double_le 1 (Int.log 2 x + 1) x hx0
      (by simpa using le_of_lt hup)
      (lt_of_lt_of_le hup (two_zpow_le (by omega)))
    simp only [Int.cast_one, one_mul] at hr
    exact lt_of_le_of_lt (le_trans hr (two_zpow_le hL4)) h1

/-- One text in the two passes.  The drawing pass converts `pos + S` to `int` and
then adds `b`; the measuring pass adds `b` within the sum of doubles and
converts `P + (S + b)`.  When the drawing pass is not ahead before the text, it
is not ahead after it. -/
theorem draw_step_le_measure_step (pos P b : ℤ) (S : ℚ) (h0 : 0 ≤ pos) (hpP : pos ≤ P)
    (hb : 0 ≤ b) (hS : 0 ≤ S)
    (hfit : round_double ((P : ℚ) + round_double (S + b)) < 2147483648) :
    ⌊round_double ((pos : ℚ) + S)⌋ + b ≤
      ⌊round_double ((P : ℚ) + round_double (S + b))⌋ := by
  have hposq : (0 : ℚ) ≤ (pos : ℚ) := by exact_mod_cast h0
  have hpPq : (pos : ℚ) ≤ (P : ℚ) := by exact_mod_cast hpP
  have hbq : (0 : ℚ) ≤ (b : ℚ) := by exact_mod_cast hb
  have hT0 : 0 ≤ round_double (S + b) := round_double_nonneg _ (by linarith)
  -- everything is below 2 ^ 31
  have hPT : (P : ℚ) + round_double (S + b) < 2147483648 := by
    by_contra hge
    have := le_round_double_int 2147483648 _ (by norm_num) (by norm_num)
      (by push_cast; exact not_lt.mp hge)
    push_cast at this
    linarith
  have hSb : S + b < 2147483648 := by
    by_contra hge
    have := le_round_double_int 2147483648 _ (by norm_num) (by norm_num)
      (by push_cast; exact not_lt.mp hge)
    push_cast at this
    linarith
  have hPlt : P < 2147483648 := by
    have : (P : ℚ) < 2147483648 := by linarith
    exact_mod_cast this
  have hblt : b < 2147483648 := by
    have : (b : ℚ) < 2147483648 := by linarith
    exact_mod_cast this
  -- the position the drawing pass converts
  have hVp1 : (pos : ℚ) ≤ round_double ((pos : ℚ) + S) :=
    le_round_double_int pos _ h0 (by omega) (by linarith)
  have hVp2 : round_double ((pos : ℚ) + S) ≤ 4294967296 := by
    have := round_double_le 1 32 ((pos : ℚ) + S) (by linarith)
      (by norm_num; linarith) (by norm_num; linarith)
    norm_num at this
    exact this
  have hMle : ((⌊round_double ((pos : ℚ) + S)⌋ : ℤ) : ℚ) ≤ round_double ((pos : ℚ) + S) :=
    Int.floor_le _
  have hM1 : pos ≤ ⌊round_double ((pos : ℚ) + S)⌋ := Int.le_floor.mpr hVp1
  have hM2 : ⌊round_double ((pos : ℚ) + S)⌋ ≤ 4294967296 := by
    have : ((⌊round_double ((pos : ℚ) + S)⌋ : ℤ) : ℚ) ≤ ((4294967296 : ℤ) : ℚ) := by
      push_cast; linarith
    exact_mod_cast this
  generalize ⌊round_double ((pos : ℚ) + S)⌋ = M at hMle hM1 hM2 ⊢
  -- it suffices that the measuring pass reaches M + b + (P - pos)
  suffices hkey : ((M + b + (P - pos) : ℤ) : ℚ) ≤
      round_double ((P : ℚ) + round_double (S + b)) by
    have := Int.le_floor.mpr hkey
    omega
  have hfinal : ((M - pos + b : ℤ) : ℚ) ≤ round_double (S + b) →
      ((M + b + (P - pos) : ℤ) : ℚ) ≤ round_double ((P : ℚ) + round_double (S + b)) := by
    intro hK
    apply le_round_double_int _ _ (by omega) (by omega)
    push_cast at hK ⊢
    linarith
  by_cases hA : (M : ℚ) ≤ (pos : ℚ) + S
  · -- no rounding across the integer M
    apply hfinal
    apply le_round_double_int _ _ (by omega) (by omega)
    push_cast
    linarith
  · -- pos + S is rounded up to the integer M
    have hA2 : (pos : ℚ) + S < (M : ℚ) := not_le.mp hA
    have hMpos : pos + 1 ≤ M := by
      have : (pos : ℚ) < (M : ℚ) := by linarith
      have : pos < M := by exact_mod_cast this
      omega
    obtain ⟨cM, _, hcM, hM3, hM4⟩ := exists_order M (by omega) (by omega)
    have h3 : (M : ℚ) - 2 ^ (cM - 54) ≤ (pos : ℚ) + S := by
      by_contra hlt
      have := round_double_lt_of_lt_half_gap M cM _ hcM hM3 hM4 (by linarith)
        (not_le.mp hlt)
      linarith
    obtain ⟨cK, _, hcK, hK3, hK4⟩ := exists_order (M - pos + b) (by omega) (by omega)
    by_cases hcc : cM ≤ cK
    · apply hfinal
      apply le_round_double_of_half_gap _ cK _ hcK hK3 hK4
      have := two_zpow_le (show cM - 54 ≤ cK - 54 by omega)
      push_cast
      linarith
    · -- the sum S + b has a finer last place than pos + S
      have hcc2 : cK + 1 ≤ cM := by omega
      have hn := mul_two_zpow_toNat (M - pos + b) 0 (cM - 54) (by omega)
      simp only [zpow_zero, mul_one] at hn
      have hu := two_zpow_pos (cM - 54)
      have hnle : (M - pos + b) * 2 ^ (0 - (cM - 54)).toNat ≤ 2 ^ 53 := by
        have h1 : (((M - pos + b) * 2 ^ (0 - (cM - 54)).toNat : ℤ) : ℚ) * 2 ^ (cM - 54) ≤
            (2 : ℚ) ^ (53 : ℤ) * 2 ^ (cM - 54) := by
          rw [hn, ← two_zpow_add]
          exact le_trans hK4 (two_zpow_le (by omega))
        have h2 := le_of_mul_le_mul_right h1 hu
        have e1 : ((2 ^ 53 : ℤ) : ℚ) = (2 : ℚ) ^ (53 : ℤ) := by norm_num
        rw [← e1] at h2
        exact_mod_cast h2
      have hnpos : 1 ≤ (M - pos + b) * 2 ^ (0 - (cM - 54)).toNat := by
        have h1 : (1 : ℤ) ≤ 2 ^ (0 - (cM - 54)).toNat := one_le_pow₀ (by norm_num)
        have h2 : (1 : ℤ) ≤ M - pos + b := by omega
        calc (1 : ℤ) = 1 * 1 := by norm_num
          _ ≤ (M - pos + b) * 2 ^ (0 - (cM - 54)).toNat :=
            mul_le_mul h2 h1 (by norm_num) (by omega)
      have hT : ((M - pos + b : ℤ) : ℚ) - 2 ^ (cM - 54) ≤ round_double (S + b) := by
        have hd := le_round_double ((M - pos + b) * 2 ^ (0 - (cM - 54)).toNat - 1) (cM - 54)
          (S + b) (by omega) (by omega)
          (by
            push_cast
            push_cast at hn
            rw [sub_mul, hn, one_mul]
            linarith)
        push_cast at hd
        push_cast at hn
        rw [sub_mul, hn, one_mul] at hd
        push_cast
        exact hd
      obtain ⟨cN, _, hcN, hN3, hN4⟩ :=
        exists_order (M + b + (P - pos)) (by omega) (by omega)
      have hmono := order_mono M (M + b + (P - pos)) cM cN (by omega) hM3 hN4
      apply le_round_double_of_half_gap _ cN _ hcN hN3 hN4
      have := two_zpow_le (show cM - 54 ≤ cN - 54 by omega)
      push_cast at hT ⊢
      linarith

/-! ## Conversions to `int` -/

theorem gint_of_eq_some {z y : ℤ} (h : gint_of z = some y) :
    y = z ∧ G_MININT ≤ z ∧ z ≤ G_MAXINT := by
  unfold gint_of at h
  split at h
  · rename_i hr
    simp only [Option.some.injEq] at h
    exact ⟨h.symm, hr.1, hr.2⟩
  · simp at h

theorem gint_of_in_range {z : ℤ} (h0 : G_MININT ≤ z) (h1 : z ≤ G_MAXINT) :
    gint_of z = some z := by
  simp [gint_of, h0, h1]

theorem double_to_gint_intCast (z : ℤ) : double_to_gint (z : ℚ) = gint_of z := by
  unfold double_to_gint
  split <;> simp

/-- A non-negative double that converts to `int` converts to its integer part,
and is below `2 ^ 31`. -/
theorem double_to_gint_nonneg {x : ℚ} {z : ℤ} (hx : 0 ≤ x) (h : double_to_gint x = some z) :
    z = ⌊x⌋ ∧ 0 ≤ z ∧ z ≤ G_MAXINT ∧ x < 2147483648 := by
  simp only [double_to_gint, hx, if_true] at h
  obtain ⟨h1, _, h3⟩ := gint_of_eq_some h
  have hfl : 0 ≤ ⌊x⌋ := Int.floor_nonneg.mpr hx
  refine ⟨h1, by omega, by omega, ?_⟩
  have h4 : ⌊x⌋ < 2147483648 := by simp only [G_MAXINT] at h3; omega
  have := Int.floor_lt.mp h4
  exact_mod_cast this

theorem double_to_gint_of_nonneg {x : ℚ} (hx : 0 ≤ x) (h : ⌊x⌋ ≤ G_MAXINT) :
    double_to_gint x = some ⌊x⌋ := by
  have hfl : 0 ≤ ⌊x⌋ := Int.floor_nonneg.mpr hx
  simp only [double_to_gint, hx, if_true]
  exact gint_of_in_range (by simp only [G_MININT]; omega) h

theorem double_add_eq (a b : ℚ) : double_add a b = round_double (a + b) := by
  unfold double_add
  rfl

/-! ## One text in each pass -/

/-- What `measure_text` has computed when it has a result. -/
theorem measure_text_inv (be : Backend) (f : cairo_font_face_t) (s : Int) (t : Option Text)
    (m m1 : Measured) (h : measure_text be f s t m = some m1) :
    ∃ hgt w,
      double_to_gint (double_add m.pixmap_height
        (double_add (double_add (double_add (be.text_extents f s t).height
          (be.text_extents f s t).y_advance) be.padding.top) be.padding.bottom)) = some hgt ∧
      double_to_gint
        (if (m.pixmap_width : ℚ) >
            double_add (double_add (be.text_extents f s t).width be.padding.left)
              be.padding.right
         then (m.pixmap_width : ℚ)
         else double_add (double_add (be.text_extents f s t).width be.padding.left)
              be.padding.right) = some w ∧
      m1 = { pixmap_width := w, pixmap_height := hgt, advances := m.advances ++ [hgt] } := by
  unfold measure_text at h
  cases h1 : double_to_gint (double_add m.pixmap_height
      (double_add (double_add (double_add (be.text_extents f s t).height
        (be.text_extents f s t).y_advance) be.padding.top) be.padding.bottom)) with
  | none => simp [h1] at h
  | some hgt =>
    cases h2 : double_to_gint
        (if (m.pixmap_width : ℚ) >
            double_add (double_add (be.text_extents f s t).width be.padding.left)
              be.padding.right
         then (m.pixmap_width : ℚ)
         else double_add (double_add (be.text_extents f s t).width be.padding.left)
              be.padding.right) with
    | none => simp [h1, h2] at h
    | some w =>
      simp only [h1, h2, Option.some.injEq] at h
      exact ⟨hgt, w, rfl, rfl, h.symm⟩

/-- What `paint_text` does when its two conversions have a result. -/
theorem paint_text_eq (be : Backend) (t : Option Text) (p : Painted) (y y1 : Int)
    (h1 : double_to_gint (double_add p.pos_y
      (double_add (double_add (be.text_extents p.cr.font_face p.cr.font_size t).height
        (be.text_extents p.cr.font_face p.cr.font_size t).y_advance) be.padding.top)) = some y)
    (h2 : gint_add y be.padding.bottom = some y1) :
    paint_text be t p = some
      { cr := { p.cr with shown := p.cr.shown ++
          [ShownText.mk be.padding.left y t p.cr.font_face p.cr.font_size] }
        pos_y := y1
        advances := p.advances ++ [y1] } := by
  unfold paint_text draw_string
  simp only [h1, h2]

theorem InBounds.mono (be : Backend) (m m1 : Measured) (op : ShownText)
    (hh : m.pixmap_height ≤ m1.pixmap_height) (hw : m.pixmap_width ≤ m1.pixmap_width)
    (h : InBounds be m op) : InBounds be m1 op := by
  obtain ⟨h1, h2, h3⟩ := h
  have hh2 : (m.pixmap_height : ℚ) ≤ (m1.pixmap_height : ℚ) := by exact_mod_cast hh
  have hw2 : (m.pixmap_width : ℚ) ≤ (m1.pixmap_width : ℚ) := by exact_mod_cast hw
  exact ⟨h1, le_trans h2 hh2, by linarith⟩

/-- The width that the measuring pass keeps after a text: not below the width it
had, and less than one pixel short of the right edge of the text. -/
theorem measured_width_bound (pw l r w : ℤ) (width : ℚ) (hpw0 : 0 ≤ pw)
    (hpw1 : pw ≤ G_MAXINT) (hr0 : 0 ≤ r) (hr1 : r ≤ 32767)
    (h : double_to_gint
      (if (pw : ℚ) > double_add (double_add width l) r then (pw : ℚ)
       else double_add (double_add width l) r) = some w) :
    pw ≤ w ∧ w ≤ G_MAXINT ∧ (l : ℚ) + width < (w : ℚ) + 1 := by
  simp only [double_add_eq] at h
  have hrq : (0 : ℚ) ≤ (r : ℚ) := by exact_mod_cast hr0
  have hpwq : (0 : ℚ) ≤ (pw : ℚ) := by exact_mod_cast hpw0
  simp only [G_MAXINT] at hpw1
  -- the integer part of `width + l`, when that is not negative, is reached by the sum
  have hreach : 0 ≤ width + l → width + l < 2147483648 →
      ((⌊width + l⌋ + r : ℤ) : ℚ) ≤ round_double (round_double (width + l) + r) := by
    intro hq0 hq1
    have hn0 : 0 ≤ ⌊width + l⌋ := Int.floor_nonneg.mpr hq0
    have hn1 : ⌊width + l⌋ < 2147483648 := Int.floor_lt.mpr (by exact_mod_cast hq1)
    have h1 : ((⌊width + l⌋ : ℤ) : ℚ) ≤ round_double (width + l) :=
      le_round_double_int _ _ hn0 (by omega) (Int.floor_le _)
    apply le_round_double_int _ _ (by omega) (by omega)
    push_cast
    linarith
  -- a sum of `2 ^ 31` or more stays that large
  have hbig : (2147483648 : ℚ) ≤ width + l →
      (2147483648 : ℚ) ≤ round_double (round_double (width + l) + r) := by
    intro hq
    have h1 : ((2147483648 : ℤ) : ℚ) ≤ round_double (width + l) :=
      le_round_double_int _ _ (by norm_num) (by norm_num) (by push_cast; exact hq)
    have h2 := le_round_double_int 2147483648 (round_double (width + l) + r) (by norm_num)
      (by norm_num) (by push_cast at h1 ⊢; linarith)
    push_cast at h2
    exact h2
  by_cases hc : (pw : ℚ) > round_double (round_double (width + l) + r)
  · rw [if_pos hc, double_to_gint_intCast] at h
    obtain ⟨hw, _, _⟩ := gint_of_eq_some h
    subst hw
    refine ⟨le_refl _, by simp only [G_MAXINT]; omega, ?_⟩
    by_cases hq0 : 0 ≤ width + l
    · have hq1 : width + l < 2147483648 := by
        by_contra hge
        have := hbig (not_lt.mp hge)
        have : (w : ℚ) ≤ 2147483647 := by exact_mod_cast hpw1
        linarith
      have h1 := hreach hq0 hq1
      have h2 := Int.lt_floor_add_one (width + l)
      push_cast at h1
      linarith
    · linarith
  · rw [if_neg hc] at h
    have hc2 : (pw : ℚ) ≤ round_double (round_double (width + l) + r) := not_lt.mp hc
    obtain ⟨hw, _, hw1, hlt⟩ := double_to_gint_nonneg (le_trans hpwq hc2) h
    subst hw
    refine ⟨Int.le_floor.mpr hc2, hw1, ?_⟩
    by_cases hq0 : 0 ≤ width + l
    · have hq1 : width + l < 2147483648 := by
        by_contra hge
        have := hbig (not_lt.mp hge)
        linarith
      have h1 := Int.le_floor.mpr (hreach hq0 hq1)
      have h1q : ((⌊width + l⌋ + r : ℤ) : ℚ) ≤
          ((⌊round_double (round_double (width + l) + r)⌋ : ℤ) : ℚ) := by exact_mod_cast h1
      have h2 := Int.lt_floor_add_one (width + l)
      push_cast at h1q
      linarith
    · have h3 : (0 : ℚ) ≤ ((⌊round_double (round_double (width + l) + r)⌋ : ℤ) : ℚ) := by
        have := Int.floor_nonneg.mpr (le_trans hpwq hc2)
        exact_mod_cast this
      linarith

/-- One text: when measuring it has a result, drawing it has one too, the
drawing pass is still not ahead, and the text lies within what has been
measured. -/
theorem within_text (be : Backend) (hext : be.RiseNonneg) (hpad : be.PaddingOk)
    (base : List ShownText) (t : Option Text) (m m1 : Measured) (p : Painted)
    (hs : Within be base m p)
    (h : measure_text be p.cr.font_face p.cr.font_size t m = some m1) :
    ∃ p1, paint_text be t p = some p1 ∧ Within be base m1 p1 ∧
      p1.cr.font_face = p.cr.font_face ∧ p1.cr.font_size = p.cr.font_size ∧
      p1.cr.source = p.cr.source := by
  obtain ⟨hp0, hpP, hP1, hw0, hw1, new, hshown, hnew⟩ := hs
  obtain ⟨⟨hl0, hl1⟩, ⟨hr0, hr1⟩, ⟨ht0, ht1⟩, ⟨hb0, hb1⟩⟩ := hpad
  have hrise := hext p.cr.font_face p.cr.font_size t
  obtain ⟨hgt, w, h1, h2, rfl⟩ := measure_text_inv be _ _ t m m1 h
  obtain ⟨hwa, hwb, hwc⟩ := measured_width_bound m.pixmap_width be.padding.left
    be.padding.right w _ hw0 hw1 hr0 hr1 h2
  -- the rise of the text, a double that is not negative
  have hS : 0 ≤ double_add (double_add
      (be.text_extents p.cr.font_face p.cr.font_size t).height
      (be.text_extents p.cr.font_face p.cr.font_size t).y_advance) be.padding.top := by
    simp only [double_add_eq]
    have htq : (0 : ℚ) ≤ (be.padding.top : ℚ) := by exact_mod_cast ht0
    have := round_double_nonneg _ hrise
    exact round_double_nonneg _ (by linarith)
  generalize hSdef : double_add (double_add
      (be.text_extents p.cr.font_face p.cr.font_size t).height
      (be.text_extents p.cr.font_face p.cr.font_size t).y_advance) be.padding.top = S
    at h1 hS
  simp only [double_add_eq] at h1
  have hbq : (0 : ℚ) ≤ (be.padding.bottom : ℚ) := by exact_mod_cast hb0
  have hPq : (0 : ℚ) ≤ (m.pixmap_height : ℚ) := by exact_mod_cast (by omega : 0 ≤ m.pixmap_height)
  have hposq : (0 : ℚ) ≤ (p.pos_y : ℚ) := by exact_mod_cast hp0
  have hT0 : 0 ≤ round_double (S + be.padding.bottom) := round_double_nonneg _ (by linarith)
  have hVm0 : 0 ≤ round_double ((m.pixmap_height : ℚ) + round_double (S + be.padding.bottom)) :=
    round_double_nonneg _ (by linarith)
  obtain ⟨hh, _, hh1, hfit⟩ := double_to_gint_nonneg hVm0 h1
  subst hh
  have hstep := draw_step_le_measure_step p.pos_y m.pixmap_height be.padding.bottom S
    hp0 hpP hb0 hS hfit
  -- the measuring pass does not go back
  have hPle : m.pixmap_height ≤
      ⌊round_double ((m.pixmap_height : ℚ) + round_double (S + be.padding.bottom))⌋ := by
    apply Int.le_floor.mpr
    simp only [G_MAXINT] at hP1
    exact le_round_double_int _ _ (by omega) (by omega) (by linarith)
  -- the drawing pass
  have hVp0 : 0 ≤ round_double ((p.pos_y : ℚ) + S) := round_double_nonneg _ (by linarith)
  have hy0 : 0 ≤ ⌊round_double ((p.pos_y : ℚ) + S)⌋ := Int.floor_nonneg.mpr hVp0
  have hd1 : double_to_gint (double_add p.pos_y S) =
      some ⌊round_double ((p.pos_y : ℚ) + S)⌋ := by
    rw [double_add_eq]
    exact double_to_gint_of_nonneg hVp0 (by omega)
  have hd2 : gint_add ⌊round_double ((p.pos_y : ℚ) + S)⌋ be.padding.bottom =
      some (⌊round_double ((p.pos_y : ℚ) + S)⌋ + be.padding.bottom) :=
    gint_of_in_range (by simp only [G_MININT]; omega) (by omega)
  have hpaint := paint_text_eq be t p _ _ (by rw [hSdef]; exact hd1) hd2
  refine ⟨_, hpaint, ?_, rfl, rfl, rfl⟩
  refine ⟨by simp only []; omega, hstep, hh1, by simp only []; omega, hwb,
    new ++ [ShownText.mk be.padding.left ⌊round_double ((p.pos_y : ℚ) + S)⌋ t
      p.cr.font_face p.cr.font_size],
    by simp only []; rw [hshown, List.append_assoc], ?_⟩
  intro op hop
  rcases List.mem_append.mp hop with hop | hop
  · exact InBounds.mono be m _ op hPle hwa (hnew op hop)
  · simp only [List.mem_singleton] at hop
    subst hop
    refine ⟨rfl, ?_, ?_⟩
    · simp only []
      have : ⌊round_double ((p.pos_y : ℚ) + S)⌋ ≤
          ⌊round_double ((m.pixmap_height : ℚ) + round_double (S + be.padding.bottom))⌋ := by
        omega
      exact_mod_cast this
    · simp only [ShownText.width]
      exact hwc

/-- Vertical space: the same `int` is added in both passes. -/
theorem within_space (be : Backend) (base : List ShownText) (d : Int) (hd : 0 ≤ d)
    (m m1 : Measured) (p : Painted) (hs : Within be base m p)
    (h : measure_space d m = some m1) :
    ∃ p1, paint_space d p = some p1 ∧ Within be base m1 p1 ∧ p1.cr = p.cr := by
  obtain ⟨hp0, hpP, hP1, hw0, hw1, new, hshown, hnew⟩ := hs
  unfold measure_space gint_add at h
  cases hg : gint_of (m.pixmap_height + d) with
  | none => rw [hg] at h; simp at h
  | some y =>
    rw [hg] at h
    obtain ⟨hy, _, hy1⟩ := gint_of_eq_some hg
    simp only [Option.some.injEq] at h
    subst h
    subst hy
    refine ⟨{ p with pos_y := p.pos_y + d }, ?_, ?_, rfl⟩
    · simp only [paint_space, gint_add]
      rw [gint_of_in_range (by simp only [G_MININT]; omega) (by omega)]
    · refine ⟨by simp only []; omega, by simp only []; omega, hy1, hw0, hw1, new, hshown, ?_⟩
      intro op hop
      exact InBounds.mono be m _ op (by simp only []; omega) (le_refl _) (hnew op hop)

theorem within_set_font_face (be : Backend) (base : List ShownText) (f : cairo_font_face_t)
    (m : Measured) (p : Painted) (hs : Within be base m p) :
    Within be base m (paint_set_font_face f p) := hs

theorem within_set_font_size (be : Backend) (base : List ShownText) (size : Int)
    (m : Measured) (p : Painted) (hs : Within be base m p) :
    Within be base m (paint_set_font_size size p) := hs

theorem within_optional (be : Backend) (hext : be.RiseNonneg) (hpad : be.PaddingOk)
    (base : List ShownText)
    (t : Option Text) (m m1 : Measured) (p : Painted) (hs : Within be base m p)
    (hf : p.cr.font_face = cairo_font_face_t.ft_face)
    (h : measure_optional be p.cr.font_size t m = some m1) :
    ∃ p1, paint_optional be t p = some p1 ∧ Within be base m1 p1 ∧
      p1.cr.font_face = p.cr.font_face ∧ p1.cr.font_size = p.cr.font_size ∧
      p1.cr.source = p.cr.source := by
  cases t with
  | none =>
    simp only [measure_optional, Option.some.injEq] at h
    subst h
    exact ⟨p, rfl, hs, rfl, rfl, rfl⟩
  | some t =>
    simp only [measure_optional] at h
    rw [← hf] at h
    exact within_text be hext hpad base (some t) m m1 p hs h

theorem within_sizes (be : Backend) (hext : be.RiseNonneg) (hpad : be.PaddingOk)
    (base : List ShownText) (sample : Option Text) :
    ∀ (sizes : List Int) (m m1 : Measured) (p : Painted), Within be base m p →
      p.cr.font_face = cairo_font_face_t.ft_face →
      measure_sizes be sample sizes m = some m1 →
      ∃ p1, paint_sizes be sample sizes p = some p1 ∧ Within be base m1 p1 ∧
        p1.cr.source = p.cr.source := by
  intro sizes
  induction sizes with
  | nil =>
    intro m m1 p hs _ h
    simp only [measure_sizes, Option.some.injEq] at h
    subst h
    exact ⟨p, rfl, hs, rfl⟩
  | cons size rest ih =>
    intro m m1 p hs hf h
    simp only [measure_sizes] at h
    cases hm : measure_text be cairo_font_face_t.ft_face size sample m with
    | none => rw [hm] at h; simp at h
    | some m2 =>
      rw [hm] at h
      simp only [] at h
      have hs2 := within_set_font_size be base size m p hs
      have hm2 : measure_text be (paint_set_font_size size p).cr.font_face
          (paint_set_font_size size p).cr.font_size sample m = some m2 := by
        simp only [paint_set_font_size, hf]
        exact hm
      obtain ⟨p2, hp2, hs3, hf2, _, hsrc2⟩ :=
        within_text be hext hpad base sample m m2 (paint_set_font_size size p) hs2 hm2
      obtain ⟨p3, hp3, hs4, hsrc3⟩ := ih m2 m1 p2 hs3 (by rw [hf2]; exact hf) h
      refine ⟨p3, ?_, hs4, ?_⟩
      · simp only [paint_sizes, hp2, hp3]
      · rw [hsrc3, hsrc2]
        simp only [paint_set_font_size]

/-- Measuring, then drawing: when `sushi_font_widget_size_request` has a result
for a loaded face and a backend with non-negative heights, advances and padding,
`sushi_font_widget_draw` on a context with the default font face has one too,
its final position plus `padding.bottom` plus one section gap is at most the
measured height, and every text shown lies within the measured rectangle up to
the fraction of a pixel. -/
theorem measure_then_draw (be : Backend) (hext : be.RiseNonneg) (hpad : be.PaddingOk)
    (priv : SushiFontWidgetPrivate)
    (face : FT_FaceRec) (hface : priv.face = some face) (cr : cairo_t)
    (hcr : cr.font_face = cairo_font_face_t.context_default) (m : Measured)
    (hm : sushi_font_widget_size_request be priv = some m) :
    ∃ p, sushi_font_widget_draw be priv cr = some p ∧
      p.pos_y + be.padding.bottom + SECTION_SPACING ≤ m.pixmap_height ∧
      ∃ new, p.cr.shown = cr.shown ++ new ∧ ∀ op ∈ new, InBounds be m op := by
  have hpad2 := hpad
  obtain ⟨⟨hl0, hl1⟩, ⟨hr0, hr1⟩, _, ⟨hb0, hb1⟩⟩ := hpad2
  simp only [sushi_font_widget_size_request, hface, Option.bind_eq_some] at hm
  obtain ⟨m1, hm1, m2, hm2, m3, hm3, m4, hm4, m5, hm5, m6, hm6, m7, hm7, hm8⟩ := hm
  -- the starting point
  obtain ⟨q0, hq0, hs0, hf0, hz0⟩ : ∃ q0 : Painted,
      q0 = paint_set_font_size ((build_sizes_table face).alpha_size + 6)
        (if priv.font_supports_title then
          paint_set_font_face cairo_font_face_t.ft_face
            { cr := { cr with source := some be.color }, pos_y := 0, advances := [] }
         else { cr := { cr with source := some be.color }, pos_y := 0, advances := [] }) ∧
      Within be cr.shown
        { pixmap_width := be.padding.left + be.padding.right, pixmap_height := 0,
          advances := [] } q0 ∧
      q0.cr.font_face = (if priv.font_supports_title then cairo_font_face_t.ft_face
        else gdk_cairo_create.font_face) ∧
      q0.cr.font_size = (build_sizes_table face).alpha_size + 6 := by
    refine ⟨_, rfl, ⟨?_, ?_, by simp [G_MAXINT], by simp only []; omega,
      by simp only [G_MAXINT]; omega, [], ?_, by simp⟩, ?_, ?_⟩
    · split <;> exact le_refl _
    · split <;> exact le_refl _
    · split <;> simp [paint_set_font_size, paint_set_font_face]
    · split
      · rfl
      · simp [paint_set_font_size, hcr, gdk_cairo_create]
    · split <;> rfl
  have hm1a : measure_text be q0.cr.font_face q0.cr.font_size priv.font_name
      { pixmap_width := be.padding.left + be.padding.right, pixmap_height := 0,
        advances := [] } = some m1 := by
    rw [hf0, hz0]
    exact hm1
  -- the title
  obtain ⟨p1, hp1, hs1, _, _, _⟩ :=
    within_text be hext hpad cr.shown priv.font_name _ m1 q0 hs0 hm1a
  -- half a section gap
  obtain ⟨p2, hp2, hs2, hc2⟩ := within_space be cr.shown (SECTION_SPACING / 2) (by decide)
    m1 m2 (paint_set_font_face cairo_font_face_t.ft_face p1)
    (within_set_font_face be cr.shown _ m1 p1 hs1) hm2
  have hf2 : (paint_set_font_size (build_sizes_table face).alpha_size p2).cr.font_face =
      cairo_font_face_t.ft_face := by
    simp only [paint_set_font_size, hc2, paint_set_font_face]
  -- the alphabet lines
  obtain ⟨p3, hp3, hs3, hf3, hz3, _⟩ :=
    within_optional be hext hpad cr.shown priv.lowercase_text m2 m3
      (paint_set_font_size (build_sizes_table face).alpha_size p2)
      (within_set_font_size be cr.shown _ m2 p2 hs2) hf2 hm3
  have hz3a : p3.cr.font_size = (build_sizes_table face).alpha_size := hz3
  obtain ⟨p4, hp4, hs4, hf4, hz4, _⟩ :=
    within_optional be hext hpad cr.shown priv.uppercase_text m3 m4
      p3 hs3 (hf3.trans hf2) (by rw [hz3a]; exact hm4)
  obtain ⟨p5, hp5, hs5, hf5, _, _⟩ :=
    within_optional be hext hpad cr.shown priv.punctuation_text m4 m5
      p4 hs4 (hf4.trans (hf3.trans hf2)) (by rw [hz4, hz3a]; exact hm5)
  -- one section gap
  obtain ⟨p6, hp6, hs6, hc6⟩ := within_space be cr.shown SECTION_SPACING (by decide)
    m5 m6 p5 hs5 hm6
  -- the size ladder
  obtain ⟨p7, hp7, hs7, _⟩ :=
    within_sizes be hext hpad cr.shown priv.sample_string _ m6 m7 p6 hs6
      (by rw [hc6]; exact hf5.trans (hf4.trans (hf3.trans hf2))) hm7
  -- the trailing space is added by the measuring pass only
  obtain ⟨_, hpos, _, _, _, new, hshown, hnew⟩ := hs7
  unfold measure_space gint_add at hm8
  cases hg : gint_of (m7.pixmap_height + (be.padding.bottom + SECTION_SPACING)) with
  | none => rw [hg] at hm8; simp at hm8
  | some y =>
    rw [hg] at hm8
    obtain ⟨hy, _, _⟩ := gint_of_eq_some hg
    simp only [Option.some.injEq] at hm8
    subst hm8
    subst hy
    refine ⟨p7, ?_, ?_, new, hshown, ?_⟩
    · simp only [sushi_font_widget_draw, hface, ← hq0, hp1, hp2, hp3, hp4, hp5, hp6, hp7,
        Option.some_bind]
    · simp only []
      omega
    · intro op hop
      exact InBounds.mono be m7 _ op (by simp only [SECTION_SPACING]; omega) (le_refl _)
        (hnew op hop)

/-! ## Sums that are computed without rounding -/

/-- A number with at most 53 significant bits is a double: rounding leaves it unchanged. -/
theorem round_double_dyadic (m k : ℤ) (hm : |m| < 2 ^ 53) :
    round_double ((m : ℚ) * 2 ^ k) = (m : ℚ) * 2 ^ k := by
  by_cases h0 : m = 0
  · subst h0; simp [round_double]
  have h2 : (0 : ℚ) < 2 := by norm_num
  have hq : (m : ℚ) * 2 ^ k ≠ 0 := by
    apply mul_ne_zero
    · exact_mod_cast h0
    · exact zpow_ne_zero _ (by norm_num)
  have habs : |(m : ℚ) * 2 ^ k| = (|m| : ℤ) * 2 ^ k := by
    rw [abs_mul, abs_of_pos (zpow_pos h2 k)]
    simp
  have hpos : (0 : ℚ) < |(m : ℚ) * 2 ^ k| := abs_pos.mpr hq
  have hlog := Int.zpow_log_le_self (b := 2) (r := |(m : ℚ) * 2 ^ k|) (by norm_num) hpos
  have hlt : |(m : ℚ) * 2 ^ k| < 2 ^ (53 + k) := by
    rw [habs, zpow_add₀ (by norm_num : (2 : ℚ) ≠ 0)]
    apply mul_lt_mul_of_pos_right _ (zpow_pos h2 k)
    have : ((|m| : ℤ) : ℚ) < ((2 ^ 53 : ℤ) : ℚ) := by exact_mod_cast hm
    rw [Int.cast_pow] at this
    exact_mod_cast this
  have hL : Int.log 2 |(m : ℚ) * 2 ^ k| < 53 + k := by
    have h3 : (2 : ℚ) ^ Int.log 2 |(m : ℚ) * 2 ^ k| < 2 ^ (53 + k) := by
      refine lt_of_le_of_lt ?_ hlt
      simpa using hlog
    exact (zpow_lt_zpow_iff_right₀ (by norm_num : (1 : ℚ) < 2)).mp h3
  rw [round_double, if_neg hq]
  generalize Int.log 2 |(m : ℚ) * 2 ^ k| = L at hL
  obtain ⟨d, hd⟩ : ∃ d : ℕ, k = (L - 52) + d := ⟨(k - (L - 52)).toNat, by omega⟩
  have hdiv : (m : ℚ) * 2 ^ k / 2 ^ (L - 52) = ((m * 2 ^ d : ℤ) : ℚ) := by
    rw [hd, zpow_add₀ (by norm_num : (2 : ℚ) ≠ 0), zpow_natCast]
    field_simp
    ring
  rw [hdiv, round_half_even_intCast]
  rw [hd, zpow_add₀ (by norm_num : (2 : ℚ) ≠ 0), zpow_natCast]
  push_cast
  ring

/-- A non-negative multiple of 1/64 below 2^47 is a double. -/
theorem round_double_exact (x : ℚ) (n : ℤ) (hx : x = (n : ℚ) / 64)
    (h0 : 0 ≤ n) (hn : n < 9007199254740992) : round_double x = x := by
  have habs : |n| < 2 ^ 53 := by
    rw [abs_of_nonneg h0]
    norm_num
    exact hn
  have := round_double_dyadic n (-6) habs
  have h64 : (2 : ℚ) ^ (-6 : ℤ) = 1 / 64 := by norm_num [zpow_neg]
  rw [h64] at this
  have e : x = (n : ℚ) * (1 / 64) := by rw [hx]; ring
  rw [e]
  exact this

/-- The sum that `draw_string` adds to `pos_y` is computed without rounding. -/
theorem draw_sum_exact (P top : ℤ) (h adv : ℚ) (hP0 : 0 ≤ P) (hP1 : P ≤ G_MAXINT)
    (hh : IsF26Dot6 h) (ha : IsF26Dot6 adv) (ht0 : 0 ≤ top) (ht1 : top ≤ 32767) :
    double_add (P : ℚ) (double_add (double_add h adv) (top : ℚ)) =
      ((P + top : ℤ) : ℚ) + (h + adv) := by
  obtain ⟨nh, hnh, rfl⟩ := hh
  obtain ⟨na, hna, rfl⟩ := ha
  simp only [G_MAXINT] at hP1
  unfold double_add
  rw [round_double_exact ((nh : ℚ) / 64 + (na : ℚ) / 64) ((nh : ℤ) + na)
    (by push_cast; ring) (by omega) (by omega)]
  rw [round_double_exact ((nh : ℚ) / 64 + (na : ℚ) / 64 + top) ((nh : ℤ) + na + 64 * top)
    (by push_cast; ring) (by omega) (by omega)]
  rw [round_double_exact (P + ((nh : ℚ) / 64 + (na : ℚ) / 64 + top))
    (64 * P + ((nh : ℤ) + na + 64 * top)) (by push_cast; ring) (by omega) (by omega)]
  push_cast
  ring

/-- The sum that `sushi_font_widget_size_request` adds to `pixmap_height` is
computed without rounding. -/
theorem measure_sum_exact (P top bottom : ℤ) (h adv : ℚ) (hP0 : 0 ≤ P) (hP1 : P ≤ G_MAXINT)
    (hh : IsF26Dot6 h) (ha : IsF26Dot6 adv) (ht0 : 0 ≤ top) (ht1 : top ≤ 32767)
    (hb0 : 0 ≤ bottom) (hb1 : bottom ≤ 32767) :
    double_add (P : ℚ)
        (double_add (double_add (double_add h adv) (top : ℚ)) (bottom : ℚ)) =
      ((P + top + bottom : ℤ) : ℚ) + (h + adv) := by
  obtain ⟨nh, hnh, rfl⟩ := hh
  obtain ⟨na, hna, rfl⟩ := ha
  simp only [G_MAXINT] at hP1
  unfold double_add
  rw [round_double_exact ((nh : ℚ) / 64 + (na : ℚ) / 64) ((nh : ℤ) + na)
    (by push_cast; ring) (by omega) (by omega)]
  rw [round_double_exact ((nh : ℚ) / 64 + (na : ℚ) / 64 + top) ((nh : ℤ) + na + 64 * top)
    (by push_cast; ring) (by omega) (by omega)]
  rw [round_double_exact ((nh : ℚ) / 64 + (na : ℚ) / 64 + top + bottom)
    ((nh : ℤ) + na + 64 * top + 64 * bottom) (by push_cast; ring) (by omega) (by omega)]
  rw [round_double_exact (P + ((nh : ℚ) / 64 + (na : ℚ) / 64 + top + bottom))
    (64 * P + ((nh : ℤ) + na + 64 * top + 64 * bottom)) (by push_cast; ring)
    (by omega) (by omega)]
  push_cast
  ring

/-- The width sum of `sushi_font_widget_size_request` is computed without rounding. -/
theorem width_sum_exact (left right : ℤ) (w : ℚ) (hw : IsF26Dot6 w)
    (hl0 : 0 ≤ left) (hl1 : left ≤ 32767) (hr0 : 0 ≤ right) (hr1 : right ≤ 32767) :
    double_add (double_add w (left : ℚ)) (right : ℚ) = ((left + right : ℤ) : ℚ) + w := by
  obtain ⟨nw, hnw, rfl⟩ := hw
  unfold double_add
  rw [round_double_exact ((nw : ℚ) / 64 + left) ((nw : ℤ) + 64 * left)
    (by push_cast; ring) (by omega) (by omega)]
  rw [round_double_exact ((nw : ℚ) / 64 + left + right) ((nw : ℤ) + 64 * left + 64 * right)
    (by push_cast; ring) (by omega) (by omega)]
  push_cast
  ring

theorem IsF26Dot6.nonneg {x : ℚ} (h : IsF26Dot6 x) : 0 ≤ x := by
  obtain ⟨n, _, rfl⟩ := h
  positivity

/-- Converting an integer plus a non-negative fraction part to `int`. -/
theorem double_to_gint_int_add (z : ℤ) (x : ℚ) (hz : 0 ≤ z) (hx : 0 ≤ x) :
    double_to_gint ((z : ℚ) + x) = gint_of (z + ⌊x⌋) := by
  have h0 : (0 : ℚ) ≤ (z : ℚ) + x := by
    have : (0 : ℚ) ≤ (z : ℚ) := by exact_mod_cast hz
    linarith
  simp only [double_to_gint, h0, if_true]
  rw [Int.floor_int_add]

/-! ## Evaluating one text -/

/-- What `paint_text` does when the new position fits `gint`. -/
theorem paint_text_spec (be : Backend) (hpad : be.PaddingOk) (t : Option Text) (p : Painted)
    (hext : ExtentsOk (be.text_extents p.cr.font_face p.cr.font_size t))
    (hp0 : 0 ≤ p.pos_y) (hp1 : p.pos_y ≤ G_MAXINT)
    (hfit : p.pos_y + be.padding.top + be.padding.bottom +
      ⌊(be.text_extents p.cr.font_face p.cr.font_size t).height +
        (be.text_extents p.cr.font_face p.cr.font_size t).y_advance⌋ ≤ G_MAXINT) :
    paint_text be t p = some
      { cr := { p.cr with shown := p.cr.shown ++
          [{ x := be.padding.left
             y := ((p.pos_y + be.padding.top +
               ⌊(be.text_extents p.cr.font_face p.cr.font_size t).height +
                 (be.text_extents p.cr.font_face p.cr.font_size t).y_advance⌋ : ℤ) : ℚ)
             text := t, font_face := p.cr.font_face, font_size := p.cr.font_size }] }
        pos_y := p.pos_y + be.padding.top + be.padding.bottom +
          ⌊(be.text_extents p.cr.font_face p.cr.font_size t).height +
            (be.text_extents p.cr.font_face p.cr.font_size t).y_advance⌋
        advances := p.advances ++ [p.pos_y + be.padding.top + be.padding.bottom +
          ⌊(be.text_extents p.cr.font_face p.cr.font_size t).height +
            (be.text_extents p.cr.font_face p.cr.font_size t).y_advance⌋] } := by
  obtain ⟨_, _, ⟨ht0, ht1⟩, ⟨hb0, hb1⟩⟩ := hpad
  obtain ⟨eh, ea, _⟩ := hext
  have hsum := draw_sum_exact p.pos_y be.padding.top _ _ hp0 hp1 eh ea ht0 ht1
  have hnn : (0 : ℚ) ≤ (be.text_extents p.cr.font_face p.cr.font_size t).height +
      (be.text_extents p.cr.font_face p.cr.font_size t).y_advance :=
    add_nonneg eh.nonneg ea.nonneg
  have hfl : 0 ≤ ⌊(be.text_extents p.cr.font_face p.cr.font_size t).height +
      (be.text_extents p.cr.font_face p.cr.font_size t).y_advance⌋ := Int.floor_nonneg.mpr hnn
  simp only [G_MAXINT] at hfit hp1
  unfold paint_text draw_string
  simp only []
  rw [hsum, double_to_gint_int_add _ _ (by omega) hnn,
    gint_of_in_range (by simp only [G_MININT]; omega) (by simp only [G_MAXINT]; omega)]
  simp only [gint_add]
  rw [gint_of_in_range (by simp only [G_MININT]; omega) (by simp only [G_MAXINT]; omega)]
  have e : p.pos_y + be.padding.top +
      ⌊(be.text_extents p.cr.font_face p.cr.font_size t).height +
        (be.text_extents p.cr.font_face p.cr.font_size t).y_advance⌋ + be.padding.bottom =
      p.pos_y + be.padding.top + be.padding.bottom +
      ⌊(be.text_extents p.cr.font_face p.cr.font_size t).height +
        (be.text_extents p.cr.font_face p.cr.font_size t).y_advance⌋ := by ring
  rw [e]

/-- What `measure_text` gives when the new height fits `gint`. -/
theorem measure_text_eval (be : Backend) (hpad : be.PaddingOk) (f : cairo_font_face_t)
    (s : Int) (t : Option Text) (hext : ExtentsOk (be.text_extents f s t)) (m : Measured)
    (hh0 : 0 ≤ m.pixmap_height)
    (hfit : m.pixmap_height + be.padding.top + be.padding.bottom +
      ⌊(be.text_extents f s t).height + (be.text_extents f s t).y_advance⌋ ≤ G_MAXINT)
    (hw1 : m.pixmap_width ≤ G_MAXINT) :
    measure_text be f s t m = some
      { pixmap_width :=
          max m.pixmap_width
            (be.padding.left + be.padding.right + ⌊(be.text_extents f s t).width⌋)
        pixmap_height := m.pixmap_height + be.padding.top + be.padding.bottom +
          ⌊(be.text_extents f s t).height + (be.text_extents f s t).y_advance⌋
        advances := m.advances ++ [m.pixmap_height + be.padding.top + be.padding.bottom +
          ⌊(be.text_extents f s t).height + (be.text_extents f s t).y_advance⌋] } := by
  have hpad2 := hpad
  have hext2 := hext
  obtain ⟨⟨hl0, hl1⟩, ⟨hr0, hr1⟩, ⟨ht0, ht1⟩, ⟨hb0, hb1⟩⟩ := hpad2
  obtain ⟨eh, ea, ew⟩ := hext2
  have hnn : (0 : ℚ) ≤ (be.text_extents f s t).height + (be.text_extents f s t).y_advance :=
    add_nonneg eh.nonneg ea.nonneg
  have hfl := Int.floor_nonneg.mpr hnn
  have hP1 : m.pixmap_height ≤ G_MAXINT := by
    simp only [G_MAXINT] at hfit ⊢
    omega
  have hsum := measure_sum_exact m.pixmap_height be.padding.top be.padding.bottom _ _
    hh0 hP1 eh ea ht0 ht1 hb0 hb1
  have hw := width_sum_exact be.padding.left be.padding.right _ ew hl0 hl1 hr0 hr1
  have hflw : 0 ≤ ⌊(be.text_extents f s t).width⌋ := Int.floor_nonneg.mpr ew.nonneg
  have hflw1 : ⌊(be.text_extents f s t).width⌋ ≤ 33554432 := by
    obtain ⟨n, hn, hx⟩ := ew
    rw [hx]
    have : ((n : ℚ) / 64) < ((33554432 : ℤ) : ℚ) := by
      have hn2 : (n : ℚ) < 2147483648 := by exact_mod_cast hn
      push_cast
      linarith
    have := Int.floor_lt.mpr this
    omega
  simp only [G_MAXINT] at hfit hw1
  unfold measure_text
  simp only []
  rw [hsum, hw, double_to_gint_int_add _ _ (by omega) hnn,
    gint_of_in_range (by simp only [G_MININT]; omega) (by simp only [G_MAXINT]; omega)]
  simp only []
  by_cases hc : (m.pixmap_width : ℚ) >
      ((be.padding.left + be.padding.right : ℤ) : ℚ) + (be.text_extents f s t).width
  · rw [if_pos hc, double_to_gint_intCast]
    have hlt : ((be.padding.left + be.padding.right +
        ⌊(be.text_extents f s t).width⌋ : ℤ) : ℚ) < (m.pixmap_width : ℚ) := by
      have := Int.floor_le (be.text_extents f s t).width
      push_cast
      push_cast at hc
      linarith
    have hlt2 := Int.cast_lt.mp hlt
    rw [gint_of_in_range (by simp only [G_MININT]; omega) (by simp only [G_MAXINT]; omega),
      max_eq_left (by omega)]
  · rw [if_neg hc, double_to_gint_int_add _ _ (by omega) ew.nonneg]
    have hc2 : (m.pixmap_width : ℚ) ≤
        ((be.padding.left + be.padding.right : ℤ) : ℚ) + (be.text_extents f s t).width :=
      not_lt.mp hc
    have hlt : (m.pixmap_width : ℚ) <
        ((be.padding.left + be.padding.right + ⌊(be.text_extents f s t).width⌋ + 1 : ℤ) : ℚ) := by
      have := Int.lt_floor_add_one (be.text_extents f s t).width
      push_cast
      push_cast at hc2
      linarith
    have hlt2 := Int.cast_lt.mp hlt
    rw [gint_of_in_range (by simp only [G_MININT]; omega) (by simp only [G_MAXINT]; omega),
      max_eq_right (by omega)]

/-! ## Concrete runs of the two passes -/

theorem double_add_natCast (a b : ℕ) (h : a + b < 9007199254740992) :
    double_add (a : ℚ) (b : ℚ) = ((a + b : ℕ) : ℚ) := by
  unfold double_add
  have := round_double_dyadic ((a + b : ℕ) : ℤ) 0 (by
    rw [abs_of_nonneg (by positivity)]
    norm_num
    exact_mod_cast h)
  simpa using this

theorem double_to_gint_natCast (a : ℕ) (h : a ≤ 2147483647) :
    double_to_gint (a : ℚ) = some (a : ℤ) := by
  have := double_to_gint_intCast (a : ℤ)
  simp only [Int.cast_natCast] at this
  rw [this]
  exact gint_of_in_range (by simp only [G_MININT]; omega) (by simp only [G_MAXINT]; omega)

theorem almost_one_dyadic : almost_one = ((9007199254740991 : ℤ) : ℚ) * 2 ^ (-53 : ℤ) := by
  norm_num [almost_one, zpow_neg]

theorem double_add_almost_one_zero : double_add almost_one 0 = almost_one := by
  unfold double_add
  rw [add_zero, almost_one_dyadic]
  exact round_double_dyadic _ _ (by norm_num)

theorem double_add_zero_almost_one : double_add 0 almost_one = almost_one := by
  unfold double_add
  rw [zero_add, almost_one_dyadic]
  exact round_double_dyadic _ _ (by norm_num)

/-- The sum of the largest double below 1 and 1 lies halfway between two doubles
and is rounded to the even one, 2. -/
theorem double_add_almost_one_one : double_add almost_one 1 = 2 := by
  have hval : almost_one + 1 = 2 - 1 / 2 ^ 53 := by norm_num [almost_one]
  unfold double_add
  rw [hval]
  have hlog : Int.log 2 |(2 - 1 / 2 ^ 53 : ℚ)| = 0 := by
    have hpos : (0 : ℚ) < |(2 - 1 / 2 ^ 53 : ℚ)| := by norm_num
    apply le_antisymm
    · have := (Int.lt_zpow_iff_log_lt (b := 2) (by norm_num) hpos (x := 1)).mp
        (by norm_num [abs_of_pos])
      omega
    · exact (Int.zpow_le_iff_le_log (b := 2) (by norm_num) hpos (x := 0)).mp
        (by norm_num [abs_of_pos])
  rw [round_double, if_neg (by norm_num), hlog]
  have hfl : ⌊((2 - 1 / 2 ^ 53 : ℚ)) / 2 ^ ((0 : ℤ) - 52)⌋ = 2 ^ 53 - 1 := by
    rw [Int.floor_eq_iff]
    norm_num [zpow_neg]
  have hq : ((2 - 1 / 2 ^ 53 : ℚ)) / 2 ^ ((0 : ℤ) - 52) = 2 ^ 53 - 1 / 2 := by
    norm_num [zpow_neg]
  have hr : round_half_even (((2 - 1 / 2 ^ 53 : ℚ)) / 2 ^ ((0 : ℤ) - 52)) = 2 ^ 53 := by
    unfold round_half_even
    rw [hfl, hq]
    norm_num
  rw [hr]
  norm_num [zpow_neg]

theorem double_to_gint_almost_one : double_to_gint almost_one = some 0 := by
  have h0 : (0 : ℚ) ≤ almost_one := by norm_num [almost_one]
  have hfl : ⌊almost_one⌋ = 0 := by
    rw [Int.floor_eq_iff]
    norm_num [almost_one]
  simp [double_to_gint, h0, hfl, gint_of, G_MININT, G_MAXINT]

theorem measure_title_beTie :
    measure_text beTie cairo_font_face_t.context_default 18 (some [97, 32, 98])
        { pixmap_width := 0, pixmap_height := 0, advances := [] } =
      some { pixmap_width := 0, pixmap_height := 2, advances := [2] } := by
  have a1 := double_add_natCast 0 0 (by norm_num)
  have a3 := double_add_natCast 0 2 (by norm_num)
  have g0 := double_to_gint_natCast 0 (by norm_num)
  have g2 := double_to_gint_natCast 2 (by norm_num)
  norm_num at a1 a3 g0 g2
  unfold measure_text
  simp only [beTie, if_true, Int.cast_zero, Int.cast_one, zero_add,
    double_add_almost_one_zero, double_add_almost_one_one, a1, a3, g0, g2, gt_iff_lt,
    lt_self_iff_false, if_false, List.nil_append]

theorem measure_sample_beTie :
    measure_text beTie cairo_font_face_t.ft_face 12 (some [97, 98])
        { pixmap_width := 0, pixmap_height := 26, advances := [2] } =
      some { pixmap_width := 0, pixmap_height := 27, advances := [2, 27] } := by
  have a1 := double_add_natCast 0 0 (by norm_num)
  have a2 := double_add_natCast 0 1 (by norm_num)
  have a4 := double_add_natCast 26 1 (by norm_num)
  have g0 := double_to_gint_natCast 0 (by norm_num)
  have g27 := double_to_gint_natCast 27 (by norm_num)
  norm_num at a1 a2 a4 g0 g27
  unfold measure_text
  have hne : ¬ ((12 : ℤ) = 18) := by decide
  simp only [beTie, hne, if_false, Int.cast_zero, Int.cast_one, zero_add, Int.cast_ofNat,
    a1, a2, a4, g0, g27, gt_iff_lt, lt_self_iff_false, List.cons_append, List.nil_append]

theorem size_request_beTie :
    sushi_font_widget_size_request beTie privBitmap12 =
      some { pixmap_width := 0, pixmap_height := 44, advances := [2, 27] } := by
  have e1 : build_sizes_table faceBitmap12 =
      { sizes := [12], n_sizes := 1, alpha_size := 12 } := by decide
  have hp : beTie.padding = { left := 0, right := 0, top := 0, bottom := 1 } := rfl
  simp only [sushi_font_widget_size_request, privBitmap12, privLoaded, e1, hp,
    gdk_cairo_create, Bool.false_eq_true, if_false]
  norm_num [measure_title_beTie, measure_sample_beTie, measure_space, measure_optional,
    measure_sizes, gint_add, gint_of, G_MININT, G_MAXINT, SECTION_SPACING]

theorem paint_space_eval (d : Int) (p : Painted) (h0 : G_MININT ≤ p.pos_y + d)
    (h1 : p.pos_y + d ≤ G_MAXINT) :
    paint_space d p = some { p with pos_y := p.pos_y + d } := by
  simp only [paint_space, gint_add, gint_of_in_range h0 h1]

theorem measure_space_eval (d : Int) (m : Measured) (h0 : G_MININT ≤ m.pixmap_height + d)
    (h1 : m.pixmap_height + d ≤ G_MAXINT) :
    measure_space d m = some { m with pixmap_height := m.pixmap_height + d } := by
  simp only [measure_space, gint_add, gint_of_in_range h0 h1]

theorem beTie_paddingOk : beTie.PaddingOk := by
  simp [Backend.PaddingOk, beTie]

theorem isF26Dot6_zero : IsF26Dot6 0 := ⟨0, by norm_num, by norm_num⟩

theorem isF26Dot6_half : IsF26Dot6 (1 / 2) := ⟨32, by norm_num, by norm_num⟩

theorem beTie_extents_12 (f : cairo_font_face_t) (t : Option Text) :
    beTie.text_extents f 12 t =
      { x_bearing := 0, y_bearing := 0, width := 0, height := 0,
        x_advance := 0, y_advance := 0 } := by
  simp [beTie]

theorem paint_title_beTie :
    paint_text beTie (some [97, 32, 98])
      { cr := { font_face := cairo_font_face_t.context_default, font_size := 18,
                source := some 0, shown := [] }, pos_y := 0, advances := [] } =
      some { cr := { font_face := cairo_font_face_t.context_default, font_size := 18,
                     source := some 0,
                     shown := [{ x := 0, y := 0, text := some [97, 32, 98],
                                 font_face := cairo_font_face_t.context_default,
                                 font_size := 18 }] },
             pos_y := 1, advances := [1] } := by
  unfold paint_text draw_string
  simp only [beTie, if_true, Int.cast_zero, double_add_almost_one_zero,
    double_add_zero_almost_one, double_to_gint_almost_one]
  simp only [gint_add, gint_of, G_MININT, G_MAXINT]
  norm_num

theorem paint_sample_beTie (prev : List ShownText) :
    paint_text beTie (some [97, 98])
      { cr := { font_face := cairo_font_face_t.ft_face, font_size := 12,
                source := some 0, shown := prev },
        pos_y := 25, advances := [1] } =
      some { cr := { font_face := cairo_font_face_t.ft_face, font_size := 12,
                     source := some 0,
                     shown := prev ++ [ShownText.mk 0 25 (some [97, 98])
                                 cairo_font_face_t.ft_face 12] },
             pos_y := 26, advances := [1, 26] } := by
  have h := paint_text_spec beTie beTie_paddingOk (some [97, 98])
    { cr := { font_face := cairo_font_face_t.ft_face, font_size := 12,
              source := some 0, shown := prev },
      pos_y := 25, advances := [1] }
    (by rw [beTie_extents_12]; exact ⟨isF26Dot6_zero, isF26Dot6_zero, isF26Dot6_zero⟩)
    (by norm_num) (by norm_num [G_MAXINT])
    (by rw [beTie_extents_12]; norm_num [G_MAXINT, beTie])
  rw [h]
  simp only [beTie_extents_12]
  norm_num [beTie]

theorem build_sizes_table_faceBitmap12 :
    build_sizes_table faceBitmap12 = { sizes := [12], n_sizes := 1, alpha_size := 12 } := by
  decide

theorem draw_beTie :
    sushi_font_widget_draw beTie privBitmap12 gdk_cairo_create =
      some { cr := { font_face := cairo_font_face_t.ft_face, font_size := 12, source := some 0,
                     shown := [{ x := 0, y := 0, text := some [97, 32, 98],
                                 font_face := cairo_font_face_t.context_default, font_size := 18 },
                               { x := 0, y := 25, text := some [97, 98],
                                 font_face := cairo_font_face_t.ft_face, font_size := 12 }] }
             pos_y := 26, advances := [1, 26] } := by
  have hc : beTie.color = 0 := rfl
  have h18 : (12 : Int) + 6 = 18 := by norm_num
  simp only [sushi_font_widget_draw, privBitmap12, privLoaded, build_sizes_table_faceBitmap12,
    gdk_cairo_create, Bool.false_eq_true, if_false, paint_set_font_size, paint_set_font_face,
    hc, h18]
  rw [paint_title_beTie]
  simp only [Option.some_bind]
  rw [paint_space_eval _ _ (by norm_num [G_MININT, SECTION_SPACING])
    (by norm_num [G_MAXINT, SECTION_SPACING])]
  simp only [Option.some_bind, paint_optional]
  rw [paint_space_eval _ _ (by norm_num [G_MININT, SECTION_SPACING])
    (by norm_num [G_MAXINT, SECTION_SPACING])]
  simp only [Option.some_bind, paint_sizes, paint_set_font_size]
  have e25 : (1 : Int) + SECTION_SPACING / 2 + SECTION_SPACING = 25 := by
    norm_num [SECTION_SPACING]
  rw [e25, paint_sample_beTie]
  simp only [List.cons_append, List.nil_append]

theorem floor_half_inv : ⌊(2⁻¹ : ℚ)⌋ = 0 := by
  rw [Int.floor_eq_iff]
  norm_num

theorem beHalf_extentsOk (f : cairo_font_face_t) (s : Int) (t : Option Text) :
    ExtentsOk (beHalf.text_extents f s t) :=
  ⟨isF26Dot6_zero, isF26Dot6_zero, isF26Dot6_half⟩

theorem beHalf_paddingOk : beHalf.PaddingOk := by
  simp [Backend.PaddingOk, beHalf]

theorem measure_text_beHalf (f : cairo_font_face_t) (s : Int) (t : Option Text) (m : Measured)
    (h0 : 0 ≤ m.pixmap_height) (h1 : m.pixmap_height ≤ G_MAXINT)
    (hw0 : 0 ≤ m.pixmap_width) (hw1 : m.pixmap_width ≤ G_MAXINT) :
    measure_text beHalf f s t m =
      some { pixmap_width := m.pixmap_width, pixmap_height := m.pixmap_height,
             advances := m.advances ++ [m.pixmap_height] } := by
  have h := measure_text_eval beHalf beHalf_paddingOk f s t (beHalf_extentsOk f s t) m h0
    (by simp [beHalf, h1]) hw1
  rw [h]
  simp [beHalf, floor_half_inv, hw0]

theorem paint_text_beHalf (t : Option Text) (p : Painted)
    (h0 : 0 ≤ p.pos_y) (h1 : p.pos_y ≤ G_MAXINT) :
    paint_text beHalf t p =
      some { cr := { p.cr with shown := p.cr.shown ++
                [ShownText.mk 0 p.pos_y t p.cr.font_face p.cr.font_size] }
             pos_y := p.pos_y, advances := p.advances ++ [p.pos_y] } := by
  have h := paint_text_spec beHalf beHalf_paddingOk t p (beHalf_extentsOk _ _ _) h0 h1
    (by simp [beHalf, h1])
  rw [h]
  simp [beHalf]

theorem size_request_beHalf :
    sushi_font_widget_size_request beHalf privBitmap12 =
      some { pixmap_width := 0, pixmap_height := 40, advances := [0, 24] } := by
  have hp : beHalf.padding = { left := 0, right := 0, top := 0, bottom := 0 } := rfl
  simp only [sushi_font_widget_size_request, privBitmap12, privLoaded,
    build_sizes_table_faceBitmap12, hp, gdk_cairo_create, Bool.false_eq_true, if_false]
  rw [measure_text_beHalf _ _ _ _ (by norm_num) (by norm_num [G_MAXINT]) (by norm_num)
    (by norm_num [G_MAXINT])]
  simp only [Option.some_bind]
  rw [measure_space_eval _ _ (by norm_num [G_MININT, SECTION_SPACING])
    (by norm_num [G_MAXINT, SECTION_SPACING])]
  simp only [Option.some_bind, measure_optional]
  rw [measure_space_eval _ _ (by norm_num [G_MININT, SECTION_SPACING])
    (by norm_num [G_MAXINT, SECTION_SPACING])]
  simp only [Option.some_bind, measure_sizes]
  rw [measure_text_beHalf _ _ _ _ (by norm_num [SECTION_SPACING])
    (by norm_num [G_MAXINT, SECTION_SPACING]) (by norm_num) (by norm_num [G_MAXINT])]
  simp only [Option.some_bind]
  rw [measure_space_eval _ _ (by norm_num [G_MININT, SECTION_SPACING])
    (by norm_num [G_MAXINT, SECTION_SPACING])]
  norm_num [SECTION_SPACING]

theorem draw_beHalf :
    sushi_font_widget_draw beHalf privBitmap12 gdk_cairo_create =
      some { cr := { font_face := cairo_font_face_t.ft_face, font_size := 12, source := some 0,
                     shown := [{ x := 0, y := 0, text := some [97, 32, 98],
                                 font_face := cairo_font_face_t.context_default, font_size := 18 },
                               { x := 0, y := 24, text := some [97, 98],
                                 font_face := cairo_font_face_t.ft_face, font_size := 12 }] }
             pos_y := 24, advances := [0, 24] } := by
  have hc : beHalf.color = 0 := rfl
  have h18 : (12 : Int) + 6 = 18 := by norm_num
  simp only [sushi_font_widget_draw, privBitmap12, privLoaded, build_sizes_table_faceBitmap12,
    gdk_cairo_create, Bool.false_eq_true, if_false, paint_set_font_size, paint_set_font_face,
    hc, h18]
  rw [paint_text_beHalf _ _ (by norm_num) (by norm_num [G_MAXINT])]
  simp only [Option.some_bind]
  rw [paint_space_eval _ _ (by norm_num [G_MININT, SECTION_SPACING])
    (by norm_num [G_MAXINT, SECTION_SPACING])]
  simp only [Option.some_bind, paint_optional]
  rw [paint_space_eval _ _ (by norm_num [G_MININT, SECTION_SPACING])
    (by norm_num [G_MAXINT, SECTION_SPACING])]
  simp only [Option.some_bind, paint_sizes, paint_set_font_size]
  rw [paint_text_beHalf _ _ (by norm_num [SECTION_SPACING])
    (by norm_num [G_MAXINT, SECTION_SPACING])]
  norm_num [SECTION_SPACING]

/-! ## Extents that are whole numbers -/

theorem double_add_intCast (a b : ℤ) (h0 : -9007199254740992 < a + b)
    (h1 : a + b < 9007199254740992) :
    double_add (a : ℚ) (b : ℚ) = ((a + b : ℤ) : ℚ) := by
  unfold double_add
  have := round_double_dyadic (a + b) 0 (by
    rw [abs_lt]
    constructor <;> norm_num <;> omega)
  simpa using this

/-- What `measure_text` gives for extents that are whole numbers, when the new
height and width fit `gint`. -/
theorem measure_text_int (be : Backend) (f : cairo_font_face_t) (s : Int) (t : Option Text)
    (m : Measured) (h a w : ℤ)
    (hh : (be.text_extents f s t).height = (h : ℚ))
    (ha : (be.text_extents f s t).y_advance = (a : ℚ))
    (hw : (be.text_extents f s t).width = (w : ℚ))
    (bh : |h| ≤ 2147483648) (ba : |a| ≤ 2147483648) (bw : |w| ≤ 2147483648)
    (bb : |be.padding.bottom| ≤ 32768)
    (bl : |be.padding.left| ≤ 32768) (br : |be.padding.right| ≤ 32768)
    (hP0 : G_MININT ≤ m.pixmap_height) (hP1 : m.pixmap_height ≤ G_MAXINT)
    (hW0 : G_MININT ≤ m.pixmap_width) (hW1 : m.pixmap_width ≤ G_MAXINT)
    (h0 : G_MININT ≤ m.pixmap_height + (h + a + be.padding.top + be.padding.bottom))
    (h1 : m.pixmap_height + (h + a + be.padding.top + be.padding.bottom) ≤ G_MAXINT)
    (hw1 : w + be.padding.left + be.padding.right ≤ G_MAXINT) :
    measure_text be f s t m = some
      { pixmap_width := max m.pixmap_width (w + be.padding.left + be.padding.right)
        pixmap_height := m.pixmap_height + (h + a + be.padding.top + be.padding.bottom)
        advances := m.advances ++
          [m.pixmap_height + (h + a + be.padding.top + be.padding.bottom)] } := by
  rw [abs_le] at bh ba bw bb bl br
  simp only [G_MININT, G_MAXINT] at hP0 hP1 hW0 hW1 h0 h1 hw1
  unfold measure_text
  simp only [hh, ha, hw]
  rw [double_add_intCast h a (by omega) (by omega),
    double_add_intCast (h + a) _ (by omega) (by omega),
    double_add_intCast (h + a + be.padding.top) _ (by omega) (by omega),
    double_add_intCast m.pixmap_height _ (by omega) (by omega),
    double_add_intCast w _ (by omega) (by omega),
    double_add_intCast (w + be.padding.left) _ (by omega) (by omega),
    double_to_gint_intCast,
    gint_of_in_range (by simp only [G_MININT]; omega) (by simp only [G_MAXINT]; omega)]
  simp only []
  by_cases hc : (m.pixmap_width : ℚ) > ((w + be.padding.left + be.padding.right : ℤ) : ℚ)
  · have hc2 : w + be.padding.left + be.padding.right < m.pixmap_width := by exact_mod_cast hc
    rw [if_pos hc, double_to_gint_intCast,
      gint_of_in_range (by simp only [G_MININT]; omega) (by simp only [G_MAXINT]; omega),
      max_eq_left (by omega)]
  · have hc2 : m.pixmap_width ≤ w + be.padding.left + be.padding.right := by
      have := not_lt.mp hc
      exact_mod_cast this
    rw [if_neg hc, double_to_gint_intCast,
      gint_of_in_range (by simp only [G_MININT]; omega) (by simp only [G_MAXINT]; omega),
      max_eq_right hc2]

/-- What `paint_text` does for extents that are whole numbers, when the baseline
and the new position fit `gint`. -/
theorem paint_text_int (be : Backend) (t : Option Text) (p : Painted) (h a : ℤ)
    (hh : (be.text_extents p.cr.font_face p.cr.font_size t).height = (h : ℚ))
    (ha : (be.text_extents p.cr.font_face p.cr.font_size t).y_advance = (a : ℚ))
    (bh : |h| ≤ 2147483648) (ba : |a| ≤ 2147483648)
    (bt : |be.padding.top| ≤ 32768)
    (hP0 : G_MININT ≤ p.pos_y) (hP1 : p.pos_y ≤ G_MAXINT)
    (h0 : G_MININT ≤ p.pos_y + (h + a + be.padding.top))
    (h1 : p.pos_y + (h + a + be.padding.top) ≤ G_MAXINT)
    (h2 : G_MININT ≤ p.pos_y + (h + a + be.padding.top) + be.padding.bottom)
    (h3 : p.pos_y + (h + a + be.padding.top) + be.padding.bottom ≤ G_MAXINT) :
    paint_text be t p = some
      { cr := { p.cr with shown := p.cr.shown ++
          [ShownText.mk be.padding.left ((p.pos_y + (h + a + be.padding.top) : ℤ) : ℚ) t
            p.cr.font_face p.cr.font_size] }
        pos_y := p.pos_y + (h + a + be.padding.top) + be.padding.bottom
        advances := p.advances ++ [p.pos_y + (h + a + be.padding.top) + be.padding.bottom] } := by
  rw [abs_le] at bh ba bt
  apply paint_text_eq
  · simp only [G_MININT, G_MAXINT] at hP0 hP1
    rw [hh, ha, double_add_intCast h a (by omega) (by omega),
      double_add_intCast (h + a) _ (by omega) (by omega),
      double_add_intCast p.pos_y _ (by omega) (by omega), double_to_gint_intCast]
    exact gint_of_in_range h0 h1
  · exact gint_of_in_range h2 h3

/-! ## Runs with a negative height and with a negative padding -/

theorem measure_text_beNegHeight (f : cairo_font_face_t) (s : Int) (t : Option Text)
    (m : Measured) (h : ℤ) (hs : (beNegHeight.text_extents f s t).height = (h : ℚ))
    (bh : |h| ≤ 100) (h0 : -1000000 ≤ m.pixmap_height) (h1 : m.pixmap_height ≤ 1000000)
    (hw0 : 0 ≤ m.pixmap_width) (hw1 : m.pixmap_width ≤ 1000000) :
    measure_text beNegHeight f s t m =
      some { pixmap_width := m.pixmap_width, pixmap_height := m.pixmap_height + h,
             advances := m.advances ++ [m.pixmap_height + h] } := by
  rw [abs_le] at bh
  have ha : (beNegHeight.text_extents f s t).y_advance = ((0 : ℤ) : ℚ) := by
    simp only [beNegHeight]
    split <;> simp
  have hw : (beNegHeight.text_extents f s t).width = ((0 : ℤ) : ℚ) := by
    simp only [beNegHeight]
    split <;> simp
  have hp : beNegHeight.padding = { left := 0, right := 0, top := 0, bottom := 0 } := rfl
  rw [measure_text_int beNegHeight f s t m h 0 0 hs ha hw (by rw [abs_le]; omega)
    (by norm_num) (by norm_num) (by norm_num [hp]) (by norm_num [hp]) (by norm_num [hp])
    (by simp only [G_MININT]; omega) (by simp only [G_MAXINT]; omega)
    (by simp only [G_MININT]; omega) (by simp only [G_MAXINT]; omega)
    (by simp only [G_MININT, hp]; omega) (by simp only [G_MAXINT, hp]; omega)
    (by norm_num [hp, G_MAXINT])]
  simp [hp, hw0]

theorem paint_text_beNegHeight (t : Option Text) (p : Painted) (h : ℤ)
    (hs : (beNegHeight.text_extents p.cr.font_face p.cr.font_size t).height = (h : ℚ))
    (bh : |h| ≤ 100) (h0 : -1000000 ≤ p.pos_y) (h1 : p.pos_y ≤ 1000000) :
    paint_text beNegHeight t p =
      some { cr := { p.cr with shown := p.cr.shown ++
                [ShownText.mk 0 ((p.pos_y + h : ℤ) : ℚ) t p.cr.font_face p.cr.font_size] }
             pos_y := p.pos_y + h, advances := p.advances ++ [p.pos_y + h] } := by
  rw [abs_le] at bh
  have ha : (beNegHeight.text_extents p.cr.font_face p.cr.font_size t).y_advance =
      ((0 : ℤ) : ℚ) := by
    simp only [beNegHeight]
    split <;> simp
  have hp : beNegHeight.padding = { left := 0, right := 0, top := 0, bottom := 0 } := rfl
  rw [paint_text_int beNegHeight t p h 0 hs ha (by rw [abs_le]; omega) (by norm_num)
    (by norm_num [hp]) (by simp only [G_MININT]; omega) (by simp only [G_MAXINT]; omega)
    (by simp only [G_MININT, hp]; omega) (by simp only [G_MAXINT, hp]; omega)
    (by simp only [G_MININT, hp]; omega) (by simp only [G_MAXINT, hp]; omega)]
  simp [hp]

theorem measure_text_beNegPadding (f : cairo_font_face_t) (s : Int) (t : Option Text)
    (m : Measured) (h0 : -1000000 ≤ m.pixmap_height) (h1 : m.pixmap_height ≤ 1000000)
    (hw0 : 0 ≤ m.pixmap_width) (hw1 : m.pixmap_width ≤ 1000000) :
    measure_text beNegPadding f s t m =
      some { pixmap_width := m.pixmap_width, pixmap_height := m.pixmap_height + -100,
             advances := m.advances ++ [m.pixmap_height + -100] } := by
  have hp : beNegPadding.padding = { left := 0, right := 0, top := 0, bottom := -100 } := rfl
  rw [measure_text_int beNegPadding f s t m 0 0 0 (by simp [beNegPadding])
    (by simp [beNegPadding]) (by simp [beNegPadding]) (by norm_num)
    (by norm_num) (by norm_num) (by norm_num [hp]) (by norm_num [hp]) (by norm_num [hp])
    (by simp only [G_MININT]; omega) (by simp only [G_MAXINT]; omega)
    (by simp only [G_MININT]; omega) (by simp only [G_MAXINT]; omega)
    (by simp only [G_MININT, hp]; omega) (by simp only [G_MAXINT, hp]; omega)
    (by norm_num [hp, G_MAXINT])]
  simp [hp, hw0]

theorem paint_text_beNegPadding (t : Option Text) (p : Painted)
    (h0 : -1000000 ≤ p.pos_y) (h1 : p.pos_y ≤ 1000000) :
    paint_text beNegPadding t p =
      some { cr := { p.cr with shown := p.cr.shown ++
                [ShownText.mk 0 ((p.pos_y : ℤ) : ℚ) t p.cr.font_face p.cr.font_size] }
             pos_y := p.pos_y + -100, advances := p.advances ++ [p.pos_y + -100] } := by
  have hp : beNegPadding.padding = { left := 0, right := 0, top := 0, bottom := -100 } := rfl
  rw [paint_text_int beNegPadding t p 0 0 (by simp [beNegPadding]) (by simp [beNegPadding])
    (by norm_num) (by norm_num)
    (by norm_num [hp]) (by simp only [G_MININT]; omega) (by simp only [G_MAXINT]; omega)
    (by simp only [G_MININT, hp]; omega) (by simp only [G_MAXINT, hp]; omega)
    (by simp only [G_MININT, hp]; omega) (by simp only [G_MAXINT, hp]; omega)]
  simp [hp]

theorem beNegHeight_height_18 (f : cairo_font_face_t) (t : Option Text) :
    (beNegHeight.text_extents f 18 t).height = ((0 : ℤ) : ℚ) := by
  simp [beNegHeight]

theorem beNegHeight_height_12 (f : cairo_font_face_t) (t : Option Text) :
    (beNegHeight.text_extents f 12 t).height = ((-100 : ℤ) : ℚ) := by
  simp [beNegHeight]

theorem size_request_beNegHeight :
    sushi_font_widget_size_request beNegHeight privBitmap12 =
      some { pixmap_width := 0, pixmap_height := -60, advances := [0, -76] } := by
  have hp : beNegHeight.padding = { left := 0, right := 0, top := 0, bottom := 0 } := rfl
  have h18 : (12 : Int) + 6 = 18 := by norm_num
  simp only [sushi_font_widget_size_request, privBitmap12, privLoaded,
    build_sizes_table_faceBitmap12, hp, gdk_cairo_create, Bool.false_eq_true, if_false, h18]
  rw [measure_text_beNegHeight _ 18 _ _ 0 (beNegHeight_height_18 _ _) (by norm_num)
    (by norm_num) (by norm_num) (by norm_num) (by norm_num)]
  simp only [Option.some_bind]
  rw [measure_space_eval _ _ (by norm_num [G_MININT, SECTION_SPACING])
    (by norm_num [G_MAXINT, SECTION_SPACING])]
  simp only [Option.some_bind, measure_optional]
  rw [measure_space_eval _ _ (by norm_num [G_MININT, SECTION_SPACING])
    (by norm_num [G_MAXINT, SECTION_SPACING])]
  simp only [Option.some_bind, measure_sizes]
  rw [measure_text_beNegHeight _ 12 _ _ (-100) (beNegHeight_height_12 _ _) (by norm_num)
    (by norm_num [SECTION_SPACING]) (by norm_num [SECTION_SPACING]) (by norm_num)
    (by norm_num)]
  simp only [Option.some_bind]
  rw [measure_space_eval _ _ (by norm_num [G_MININT, SECTION_SPACING])
    (by norm_num [G_MAXINT, SECTION_SPACING])]
  norm_num [SECTION_SPACING]

theorem paint_title_beNegHeight :
    paint_text beNegHeight (some [97, 32, 98])
      { cr := { font_face := cairo_font_face_t.context_default, font_size := 18,
                source := some 0, shown := [] }, pos_y := 0, advances := [] } =
      some { cr := { font_face := cairo_font_face_t.context_default, font_size := 18,
                     source := some 0,
                     shown := [{ x := 0, y := 0, text := some [97, 32, 98],
                                 font_face := cairo_font_face_t.context_default,
                                 font_size := 18 }] },
             pos_y := 0, advances := [0] } := by
  rw [paint_text_beNegHeight _ _ 0 (beNegHeight_height_18 _ _) (by norm_num) (by norm_num)
    (by norm_num)]
  norm_num

theorem paint_sample_beNegHeight (prev : List ShownText) :
    paint_text beNegHeight (some [97, 98])
      { cr := { font_face := cairo_font_face_t.ft_face, font_size := 12,
                source := some 0, shown := prev },
        pos_y := 24, advances := [0] } =
      some { cr := { font_face := cairo_font_face_t.ft_face, font_size := 12,
                     source := some 0,
                     shown := prev ++ [ShownText.mk 0 (-76) (some [97, 98])
                                 cairo_font_face_t.ft_face 12] },
             pos_y := -76, advances := [0, -76] } := by
  rw [paint_text_beNegHeight _ _ (-100) (beNegHeight_height_12 _ _) (by norm_num) (by norm_num)
    (by norm_num)]
  norm_num

theorem paint_title_beNegPadding :
    paint_text beNegPadding (some [97, 32, 98])
      { cr := { font_face := cairo_font_face_t.context_default, font_size := 18,
                source := some 0, shown := [] }, pos_y := 0, advances := [] } =
      some { cr := { font_face := cairo_font_face_t.context_default, font_size := 18,
                     source := some 0,
                     shown := [{ x := 0, y := 0, text := some [97, 32, 98],
                                 font_face := cairo_font_face_t.context_default,
                                 font_size := 18 }] },
             pos_y := -100, advances := [-100] } := by
  rw [paint_text_beNegPadding _ _ (by norm_num) (by norm_num)]
  norm_num

theorem paint_sample_beNegPadding (prev : List ShownText) :
    paint_text beNegPadding (some [97, 98])
      { cr := { font_face := cairo_font_face_t.ft_face, font_size := 12,
                source := some 0, shown := prev },
        pos_y := -76, advances := [-100] } =
      some { cr := { font_face := cairo_font_face_t.ft_face, font_size := 12,
                     source := some 0,
                     shown := prev ++ [ShownText.mk 0 (-76) (some [97, 98])
                                 cairo_font_face_t.ft_face 12] },
             pos_y := -176, advances := [-100, -176] } := by
  rw [paint_text_beNegPadding _ _ (by norm_num) (by norm_num)]
  norm_num

theorem size_request_beNegPadding :
    sushi_font_widget_size_request beNegPadding privBitmap12 =
      some { pixmap_width := 0, pixmap_height := -260, advances := [-100, -176] } := by
  have hp : beNegPadding.padding = { left := 0, right := 0, top := 0, bottom := -100 } := rfl
  simp only [sushi_font_widget_size_request, privBitmap12, privLoaded,
    build_sizes_table_faceBitmap12, hp, gdk_cairo_create, Bool.false_eq_true, if_false]
  rw [measure_text_beNegPadding _ _ _ _ (by norm_num) (by norm_num) (by norm_num)
    (by norm_num)]
  simp only [Option.some_bind]
  rw [measure_space_eval _ _ (by norm_num [G_MININT, SECTION_SPACING])
    (by norm_num [G_MAXINT, SECTION_SPACING])]
  simp only [Option.some_bind, measure_optional]
  rw [measure_space_eval _ _ (by norm_num [G_MININT, SECTION_SPACING])
    (by norm_num [G_MAXINT, SECTION_SPACING])]
  simp only [Option.some_bind, measure_sizes]
  rw [measure_text_beNegPadding _ _ _ _ (by norm_num [SECTION_SPACING])
    (by norm_num [SECTION_SPACING]) (by norm_num) (by norm_num)]
  simp only [Option.some_bind]
  rw [measure_space_eval _ _ (by norm_num [G_MININT, SECTION_SPACING])
    (by norm_num [G_MAXINT, SECTION_SPACING])]
  norm_num [SECTION_SPACING]

/-- The drawing pass on `privBitmap12`, which shows two texts: the title at
size 18 under the face of the context, then, 24 pixels further down, the sample
at size 12 under the previewed face. -/
theorem draw_privBitmap12 (be : Backend) (p1 p2 : Painted)
    (h1 : paint_text be (some [97, 32, 98])
      { cr := { font_face := cairo_font_face_t.context_default, font_size := 18,
                source := some be.color, shown := [] }, pos_y := 0, advances := [] } = some p1)
    (hr0 : G_MININT ≤ p1.pos_y) (hr1 : p1.pos_y + 24 ≤ G_MAXINT)
    (h2 : paint_text be (some [97, 98])
      { cr := { font_face := cairo_font_face_t.ft_face, font_size := 12,
                source := p1.cr.source, shown := p1.cr.shown },
        pos_y := p1.pos_y + 24, advances := p1.advances } = some p2) :
    sushi_font_widget_draw be privBitmap12 gdk_cairo_create = some p2 := by
  have h18 : (12 : Int) + 6 = 18 := by norm_num
  simp only [G_MININT, G_MAXINT] at hr0 hr1
  simp only [sushi_font_widget_draw, privBitmap12, privLoaded, build_sizes_table_faceBitmap12,
    gdk_cairo_create, Bool.false_eq_true, if_false, paint_set_font_size, paint_set_font_face,
    h18]
  rw [h1]
  simp only [Option.some_bind]
  rw [paint_space_eval _ _ (by simp only [G_MININT, SECTION_SPACING]; omega)
    (by simp only [G_MAXINT, SECTION_SPACING]; omega)]
  simp only [Option.some_bind, paint_optional]
  rw [paint_space_eval _ _ (by simp only [G_MININT, SECTION_SPACING]; omega)
    (by simp only [G_MAXINT, SECTION_SPACING]; omega)]
  simp only [Option.some_bind, paint_sizes, paint_set_font_size]
  have e : p1.pos_y + SECTION_SPACING / 2 + SECTION_SPACING = p1.pos_y + 24 := by
    simp only [SECTION_SPACING]
    omega
  rw [e, h2]

theorem draw_beNegHeight :
    sushi_font_widget_draw beNegHeight privBitmap12 gdk_cairo_create =
      some { cr := { font_face := cairo_font_face_t.ft_face, font_size := 12, source := some 0,
                     shown := [{ x := 0, y := 0, text := some [97, 32, 98],
                                 font_face := cairo_font_face_t.context_default, font_size := 18 },
                               { x := 0, y := -76, text := some [97, 98],
                                 font_face := cairo_font_face_t.ft_face, font_size := 12 }] }
             pos_y := -76, advances := [0, -76] } :=
  draw_privBitmap12 beNegHeight _ _ paint_title_beNegHeight (by decide) (by decide)
    (paint_sample_beNegHeight _)

theorem draw_beNegPadding :
    sushi_font_widget_draw beNegPadding privBitmap12 gdk_cairo_create =
      some { cr := { font_face := cairo_font_face_t.ft_face, font_size := 12, source := some 0,
                     shown := [{ x := 0, y := 0, text := some [97, 32, 98],
                                 font_face := cairo_font_face_t.context_default, font_size := 18 },
                               { x := 0, y := -76, text := some [97, 98],
                                 font_face := cairo_font_face_t.ft_face, font_size := 12 }] }
             pos_y := -176, advances := [-100, -176] } :=
  draw_privBitmap12 beNegPadding _ _ paint_title_beNegPadding (by decide) (by decide)
    (paint_sample_beNegPadding _)

/-! ## The measuring pass completes -/

/-- Rounding does not pass a whole number below `2 ^ 53`. -/
theorem round_double_le_int (n : ℤ) (x : ℚ) (hx : 0 ≤ x) (h : x ≤ (n : ℚ))
    (hn : n < 9007199254740992) : round_double x ≤ (n : ℚ) := by
  have hlt : x < 2 ^ ((0 : ℤ) + 53) := by
    have : (n : ℚ) < 9007199254740992 := by exact_mod_cast hn
    norm_num
    linarith
  have := round_double_le n 0 x hx (by simpa using h) hlt
  simpa using this

/-- What `measure_text` gives when its two conversions have a result. -/
theorem measure_text_eq (be : Backend) (f : cairo_font_face_t) (s : Int) (t : Option Text)
    (m : Measured) (hgt w : Int)
    (h1 : double_to_gint (double_add m.pixmap_height
      (double_add (double_add (double_add (be.text_extents f s t).height
        (be.text_extents f s t).y_advance) be.padding.top) be.padding.bottom)) = some hgt)
    (h2 : double_to_gint
      (if (m.pixmap_width : ℚ) >
          double_add (double_add (be.text_extents f s t).width be.padding.left)
            be.padding.right
       then (m.pixmap_width : ℚ)
       else double_add (double_add (be.text_extents f s t).width be.padding.left)
            be.padding.right) = some w) :
    measure_text be f s t m =
      some { pixmap_width := w, pixmap_height := hgt, advances := m.advances ++ [hgt] } := by
  unfold measure_text
  simp only [h1, h2]

/-- One text raises the height by at most 67174398 and leaves the width within
`gint`, when the height and the vertical advance add up to between 0 and
`2 ^ 26` and the width is between 0 and `2 ^ 25`. -/
theorem measure_text_total (be : Backend) (hrise : be.RiseNonneg) (hpad : be.PaddingOk)
    (hsmall : ∀ f s t, (be.text_extents f s t).height + (be.text_extents f s t).y_advance ≤
        67108864 ∧ 0 ≤ (be.text_extents f s t).width ∧
        (be.text_extents f s t).width ≤ 33554432)
    (f : cairo_font_face_t) (s : Int) (t : Option Text) (m : Measured)
    (h0 : 0 ≤ m.pixmap_height) (hK : m.pixmap_height + 67174398 ≤ G_MAXINT)
    (hw0 : 0 ≤ m.pixmap_width) (hw1 : m.pixmap_width ≤ G_MAXINT) :
    ∃ m1, measure_text be f s t m = some m1 ∧ 0 ≤ m1.pixmap_height ∧
      m1.pixmap_height ≤ m.pixmap_height + 67174398 ∧ 0 ≤ m1.pixmap_width ∧
      m1.pixmap_width ≤ G_MAXINT := by
  obtain ⟨⟨hl0, hl1⟩, ⟨hr0, hr1⟩, ⟨ht0, ht1⟩, ⟨hb0, hb1⟩⟩ := hpad
  obtain ⟨hs1, hwn, hws⟩ := hsmall f s t
  have hr := hrise f s t
  simp only [G_MAXINT] at hK hw1
  have hlq : (0 : ℚ) ≤ (be.padding.left : ℚ) := by exact_mod_cast hl0
  have hlq1 : (be.padding.left : ℚ) ≤ 32767 := by exact_mod_cast hl1
  have hrq : (0 : ℚ) ≤ (be.padding.right : ℚ) := by exact_mod_cast hr0
  have hrq1 : (be.padding.right : ℚ) ≤ 32767 := by exact_mod_cast hr1
  have htq : (0 : ℚ) ≤ (be.padding.top : ℚ) := by exact_mod_cast ht0
  have htq1 : (be.padding.top : ℚ) ≤ 32767 := by exact_mod_cast ht1
  have hbq : (0 : ℚ) ≤ (be.padding.bottom : ℚ) := by exact_mod_cast hb0
  have hbq1 : (be.padding.bottom : ℚ) ≤ 32767 := by exact_mod_cast hb1
  have hPq : (0 : ℚ) ≤ (m.pixmap_height : ℚ) := by exact_mod_cast h0
  have hWq : (0 : ℚ) ≤ (m.pixmap_width : ℚ) := by exact_mod_cast hw0
  -- the height
  have a0 := round_double_nonneg _ hr
  have a1 := round_double_le_int 67108864 _ hr (by push_cast; exact hs1) (by norm_num)
  push_cast at a1
  have b0 := round_double_nonneg (round_double ((be.text_extents f s t).height +
    (be.text_extents f s t).y_advance) + be.padding.top) (by linarith)
  have b1 := round_double_le_int 67141631 (round_double ((be.text_extents f s t).height +
    (be.text_extents f s t).y_advance) + be.padding.top) (by linarith)
    (by push_cast; linarith) (by norm_num)
  push_cast at b1
  generalize hS : round_double (round_double ((be.text_extents f s t).height +
    (be.text_extents f s t).y_advance) + be.padding.top) = S at b0 b1
  have c0 := round_double_nonneg (S + be.padding.bottom) (by linarith)
  have c1 := round_double_le_int 67174398 (S + be.padding.bottom) (by linarith)
    (by push_cast; linarith) (by norm_num)
  push_cast at c1
  have d0 := round_double_nonneg ((m.pixmap_height : ℚ) + round_double (S + be.padding.bottom))
    (by linarith)
  have d1 := round_double_le_int (m.pixmap_height + 67174398)
    ((m.pixmap_height : ℚ) + round_double (S + be.padding.bottom)) (by linarith)
    (by push_cast; linarith) (by omega)
  have hfl1 : ⌊round_double ((m.pixmap_height : ℚ) + round_double (S + be.padding.bottom))⌋ ≤
      m.pixmap_height + 67174398 := by
    have := Int.floor_le (round_double ((m.pixmap_height : ℚ) +
      round_double (S + be.padding.bottom)))
    have h2 := le_trans this d1
    exact_mod_cast h2
  have hfl0 := Int.floor_nonneg.mpr d0
  -- the width
  have e0 := round_double_nonneg ((be.text_extents f s t).width + be.padding.left) (by linarith)
  have e1 := round_double_le_int 33587199 ((be.text_extents f s t).width + be.padding.left)
    (by linarith) (by push_cast; linarith) (by norm_num)
  push_cast at e1
  generalize hW : round_double ((be.text_extents f s t).width + be.padding.left) = W at e0 e1
  have g0 := round_double_nonneg (W + be.padding.right) (by linarith)
  have g1 := round_double_le_int 33619966 (W + be.padding.right) (by linarith)
    (by push_cast; linarith) (by norm_num)
  push_cast at g1
  generalize hB : round_double (W + be.padding.right) = B at g0 g1
  have hv0 : 0 ≤ (if (m.pixmap_width : ℚ) > B then (m.pixmap_width : ℚ) else B) := by
    split <;> assumption
  have hv1 : (if (m.pixmap_width : ℚ) > B then (m.pixmap_width : ℚ) else B) ≤
      ((2147483647 : ℤ) : ℚ) := by
    have : (m.pixmap_width : ℚ) ≤ ((2147483647 : ℤ) : ℚ) := by exact_mod_cast hw1
    push_cast at this ⊢
    split
    · exact this
    · linarith
  have hflw1 : ⌊(if (m.pixmap_width : ℚ) > B then (m.pixmap_width : ℚ) else B)⌋ ≤
      2147483647 := by
    have := le_trans (Int.floor_le _) hv1
    exact_mod_cast this
  have hflw0 := Int.floor_nonneg.mpr hv0
  refine ⟨_, measure_text_eq be f s t m _ _ ?_ ?_, hfl0, hfl1, hflw0, ?_⟩
  · simp only [double_add_eq]
    rw [hS]
    exact double_to_gint_of_nonneg d0 (by simp only [G_MAXINT]; omega)
  · simp only [double_add_eq]
    rw [hW, hB]
    exact double_to_gint_of_nonneg hv0 (by simp only [G_MAXINT]; omega)
  · simp only [G_MAXINT]
    exact hflw1

theorem measure_optional_total (be : Backend) (hrise : be.RiseNonneg) (hpad : be.PaddingOk)
    (hsmall : ∀ f s t, (be.text_extents f s t).height + (be.text_extents f s t).y_advance ≤
        67108864 ∧ 0 ≤ (be.text_extents f s t).width ∧
        (be.text_extents f s t).width ≤ 33554432)
    (s : Int) (t : Option Text) (m : Measured) (h0 : 0 ≤ m.pixmap_height)
    (hK : m.pixmap_height + 67174398 ≤ G_MAXINT)
    (hw0 : 0 ≤ m.pixmap_width) (hw1 : m.pixmap_width ≤ G_MAXINT) :
    ∃ m1, measure_optional be s t m = some m1 ∧ 0 ≤ m1.pixmap_height ∧
      m1.pixmap_height ≤ m.pixmap_height + 67174398 ∧ 0 ≤ m1.pixmap_width ∧
      m1.pixmap_width ≤ G_MAXINT := by
  cases t with
  | none => exact ⟨m, rfl, h0, by omega, hw0, hw1⟩
  | some t => exact measure_text_total be hrise hpad hsmall _ s (some t) m h0 hK hw0 hw1

theorem measure_sizes_total (be : Backend) (hrise : be.RiseNonneg) (hpad : be.PaddingOk)
    (hsmall : ∀ f s t, (be.text_extents f s t).height + (be.text_extents f s t).y_advance ≤
        67108864 ∧ 0 ≤ (be.text_extents f s t).width ∧
        (be.text_extents f s t).width ≤ 33554432)
    (sample : Option Text) :
    ∀ (sizes : List Int) (m : Measured), 0 ≤ m.pixmap_height →
      m.pixmap_height + 67174398 * sizes.length ≤ G_MAXINT →
      0 ≤ m.pixmap_width → m.pixmap_width ≤ G_MAXINT →
      ∃ m1, measure_sizes be sample sizes m = some m1 ∧ 0 ≤ m1.pixmap_height ∧
        m1.pixmap_height ≤ m.pixmap_height + 67174398 * sizes.length := by
  intro sizes
  induction sizes with
  | nil =>
    intro m h0 _ _ _
    exact ⟨m, rfl, h0, by simp⟩
  | cons size rest ih =>
    intro m h0 hK hw0 hw1
    simp only [List.length_cons, Nat.cast_add, Nat.cast_one] at hK ⊢
    obtain ⟨m1, hm1, h10, h11, h1w0, h1w⟩ := measure_text_total be hrise hpad hsmall
      cairo_font_face_t.ft_face size sample m h0
      (by have : (0 : Int) ≤ rest.length := by positivity
          omega) hw0 hw1
    obtain ⟨m2, hm2, h20, h21⟩ := ih m1 h10 (by omega) h1w0 h1w
    refine ⟨m2, ?_, h20, by omega⟩
    simp only [measure_sizes, hm1, hm2]

theorem measure_space_total (d : Int) (m : Measured) (h0 : 0 ≤ m.pixmap_height) (hd : 0 ≤ d)
    (hfit : m.pixmap_height + d ≤ G_MAXINT) :
    ∃ m1, measure_space d m = some m1 ∧ m1.pixmap_height = m.pixmap_height + d ∧
      m1.pixmap_width = m.pixmap_width :=
  ⟨_, measure_space_eval d m (by simp only [G_MININT]; omega) hfit, rfl, rfl⟩

/-- The measuring pass has a result, no `int` computation in it overflows, for
a face whose size ladder has at most 27 entries (so for every scalable face)
and a backend with non-negative padding whose texts have a height and a
vertical advance that add up to between 0 and `2 ^ 26` and a width between 0
and `2 ^ 25`. -/
theorem size_request_total (be : Backend) (hrise : be.RiseNonneg) (hpad : be.PaddingOk)
    (hsmall : ∀ f s t, (be.text_extents f s t).height + (be.text_extents f s t).y_advance ≤
        67108864 ∧ 0 ≤ (be.text_extents f s t).width ∧
        (be.text_extents f s t).width ≤ 33554432)
    (priv : SushiFontWidgetPrivate)
    (face : FT_FaceRec) (hface : priv.face = some face)
    (hn : (build_sizes_table face).sizes.length ≤ 27) :
    ∃ m, sushi_font_widget_size_request be priv = some m := by
  have hpad2 := hpad
  obtain ⟨⟨hl0, hl1⟩, ⟨hr0, hr1⟩, _, ⟨hb0, hb1⟩⟩ := hpad2
  obtain ⟨m1, hm1, h10, h11, h1w0, h1w⟩ := measure_text_total be hrise hpad hsmall
    (if priv.font_supports_title then cairo_font_face_t.ft_face
     else gdk_cairo_create.font_face)
    ((build_sizes_table face).alpha_size + 6) priv.font_name
    { pixmap_width := be.padding.left + be.padding.right, pixmap_height := 0, advances := [] }
    (le_refl _) (by simp [G_MAXINT]) (by simp only []; omega)
    (by simp only [G_MAXINT]; omega)
  simp only [] at h11
  obtain ⟨m2, hm2, h2h, h2w⟩ := measure_space_total (SECTION_SPACING / 2) m1 h10 (by decide)
    (by simp only [G_MAXINT, SECTION_SPACING]; omega)
  simp only [SECTION_SPACING] at h2h
  obtain ⟨m3, hm3, h30, h31, h3w0, h3w⟩ := measure_optional_total be hrise hpad hsmall
    (build_sizes_table face).alpha_size priv.lowercase_text m2 (by omega)
    (by simp only [G_MAXINT]; omega) (by rw [h2w]; exact h1w0) (by rw [h2w]; exact h1w)
  obtain ⟨m4, hm4, h40, h41, h4w0, h4w⟩ := measure_optional_total be hrise hpad hsmall
    (build_sizes_table face).alpha_size priv.uppercase_text m3 h30
    (by simp only [G_MAXINT]; omega) h3w0 h3w
  obtain ⟨m5, hm5, h50, h51, h5w0, h5w⟩ := measure_optional_total be hrise hpad hsmall
    (build_sizes_table face).alpha_size priv.punctuation_text m4 h40
    (by simp only [G_MAXINT]; omega) h4w0 h4w
  obtain ⟨m6, hm6, h6h, h6w⟩ := measure_space_total SECTION_SPACING m5 h50 (by decide)
    (by simp only [G_MAXINT, SECTION_SPACING]; omega)
  simp only [SECTION_SPACING] at h6h
  have hlen : ((build_sizes_table face).sizes.length : Int) ≤ 27 := by exact_mod_cast hn
  obtain ⟨m7, hm7, h70, h71⟩ := measure_sizes_total be hrise hpad hsmall priv.sample_string
    (build_sizes_table face).sizes m6 (by omega) (by simp only [G_MAXINT]; omega)
    (by rw [h6w]; exact h5w0) (by rw [h6w]; exact h5w)
  obtain ⟨m8, hm8, _, _⟩ := measure_space_total (be.padding.bottom + SECTION_SPACING) m7 h70
    (by simp only [SECTION_SPACING]; omega)
    (by simp only [G_MAXINT, SECTION_SPACING]; omega)
  refine ⟨m8, ?_⟩
  simp only [sushi_font_widget_size_request, hface, hm1, hm2, hm3, hm4, hm5, hm6, hm7, hm8,
    Option.some_bind]

/-! ## Measure and draw -/

theorem beTie_riseNonneg : beTie.RiseNonneg := by
  intro f s t
  have h1 : (0 : ℚ) ≤ almost_one := by norm_num [almost_one]
  simp only [beTie]
  split <;> simp [h1]

theorem beHalf_riseNonneg : beHalf.RiseNonneg := by
  intro f s t
  simp [beHalf]

theorem beNegHeight_paddingOk : beNegHeight.PaddingOk := by
  have hp : beNegHeight.padding = { left := 0, right := 0, top := 0, bottom := 0 } := rfl
  simp [Backend.PaddingOk, hp]

theorem beNegPadding_riseNonneg : beNegPadding.RiseNonneg := by
  intro f s t
  simp [beNegPadding]

/-- C5: the two passes do not advance alike on this input. The backend `beTie`
returns non-negative extents, the same in both passes, and its padding is
non-negative, yet for the title the measuring pass adds 2 to its height while
the drawing pass advances by 1: the measuring pass adds `padding.bottom = 1` to
the height `almost_one` as a `double`, and that sum is rounded up to 2.0 before
the conversion to `int`, whereas `draw_string` converts `almost_one` to 0 and
then adds 1 as an `int`. The measured height 44 is not the final position 26
plus `padding.bottom` plus 16. -/
theorem C5_measure_ahead_of_draw :
    (∀ f s t, 0 ≤ (beTie.text_extents f s t).height ∧
      0 ≤ (beTie.text_extents f s t).y_advance ∧ 0 ≤ (beTie.text_extents f s t).width) ∧
    (0 ≤ beTie.padding.left ∧ 0 ≤ beTie.padding.right ∧ 0 ≤ beTie.padding.top ∧
      0 ≤ beTie.padding.bottom) ∧
    (sushi_font_widget_size_request beTie privBitmap12).map
        (fun m => (m.pixmap_height, m.advances)) = some (44, [2, 27]) ∧
    (sushi_font_widget_draw beTie privBitmap12 gdk_cairo_create).map
        (fun p => (p.pos_y, p.advances)) = some (26, [1, 26]) ∧
    (44 : Int) ≠ 26 + beTie.padding.bottom + SECTION_SPACING := by
  refine ⟨?_, by simp [beTie], by rw [size_request_beTie]; rfl, by rw [draw_beTie]; rfl,
    by simp [beTie, SECTION_SPACING]⟩
  intro f s t
  have h1 : (0 : ℚ) ≤ almost_one := by norm_num [almost_one]
  simp only [beTie]
  split <;> simp [h1]

/-- C6 (as stated) fails in three ways, each on the widget `privBitmap12`, which
shows a title and one sample line. With `beHalf` (no padding, every text half a
pixel wide and without height) the measured width is 0, and the title, drawn at
x = 0, has its right edge at 1/2, beyond the measured width. With `beNegHeight`
(no padding, height -100 at font size 12) the measured height is -60, and the
baseline of the title, 0, is greater. With `beNegPadding` (all extents zero,
`padding.bottom = -100`) the measured height is -260, and the baseline of the
title, 0, is greater. -/
theorem C6_counterexample :
    (beHalf.RiseNonneg ∧ beHalf.PaddingOk ∧
      sushi_font_widget_size_request beHalf privBitmap12 =
        some { pixmap_width := 0, pixmap_height := 40, advances := [0, 24] } ∧
      (sushi_font_widget_draw beHalf privBitmap12 gdk_cairo_create).map
          (fun p => p.cr.shown) =
        some [{ x := 0, y := 0, text := some [97, 32, 98],
                font_face := cairo_font_face_t.context_default, font_size := 18 },
              { x := 0, y := 24, text := some [97, 98],
                font_face := cairo_font_face_t.ft_face, font_size := 12 }] ∧
      ¬ ((0 : ℚ) + ShownText.width beHalf
            { x := 0, y := 0, text := some [97, 32, 98],
              font_face := cairo_font_face_t.context_default, font_size := 18 } ≤
          (((0 : Int)) : ℚ))) ∧
    (beNegHeight.PaddingOk ∧
      sushi_font_widget_size_request beNegHeight privBitmap12 =
        some { pixmap_width := 0, pixmap_height := -60, advances := [0, -76] } ∧
      (sushi_font_widget_draw beNegHeight privBitmap12 gdk_cairo_create).map
          (fun p => p.cr.shown) =
        some [{ x := 0, y := 0, text := some [97, 32, 98],
                font_face := cairo_font_face_t.context_default, font_size := 18 },
              { x := 0, y := -76, text := some [97, 98],
                font_face := cairo_font_face_t.ft_face, font_size := 12 }] ∧
      ¬ ((0 : ℚ) ≤ (((-60 : Int)) : ℚ))) ∧
    (beNegPadding.RiseNonneg ∧
      sushi_font_widget_size_request beNegPadding privBitmap12 =
        some { pixmap_width := 0, pixmap_height := -260, advances := [-100, -176] } ∧
      (sushi_font_widget_draw beNegPadding privBitmap12 gdk_cairo_create).map
          (fun p => p.cr.shown) =
        some [{ x := 0, y := 0, text := some [97, 32, 98],
                font_face := cairo_font_face_t.context_default, font_size := 18 },
              { x := 0, y := -76, text := some [97, 98],
                font_face := cairo_font_face_t.ft_face, font_size := 12 }] ∧
      ¬ ((0 : ℚ) ≤ (((-260 : Int)) : ℚ))) := by
  refine ⟨⟨beHalf_riseNonneg, beHalf_paddingOk, size_request_beHalf,
      by rw [draw_beHalf]; rfl, ?_⟩,
    ⟨beNegHeight_paddingOk, size_request_beNegHeight, by rw [draw_beNegHeight]; rfl, ?_⟩,
    ⟨beNegPadding_riseNonneg, size_request_beNegPadding, by rw [draw_beNegPadding]; rfl, ?_⟩⟩
  · norm_num [ShownText.width, beHalf]
  · norm_num
  · norm_num

/-- C6 (amended): for every model with a loaded face and every backend that
reports, for each text, a height and a vertical advance whose sum is not
negative, and whose padding is a non-negative `gint16` on each side: whenever
the measuring pass completes without integer overflow the drawing pass, on a
context that comes with the default font face, completes too, and each text it
shows starts at x = `padding.left`, has its baseline at a y no greater than the
measured height, and has its right edge `padding.left` + (text width) less than
one pixel beyond the measured width. -/
theorem C6_draw_within_measured (be : Backend) (hext : be.RiseNonneg) (hpad : be.PaddingOk)
    (priv : SushiFontWidgetPrivate) (face : FT_FaceRec) (hface : priv.face = some face)
    (cr : cairo_t) (hcr : cr.font_face = cairo_font_face_t.context_default) (m : Measured)
    (hm : sushi_font_widget_size_request be priv = some m) :
    ∃ p new, sushi_font_widget_draw be priv cr = some p ∧
      p.cr.shown = cr.shown ++ new ∧
      ∀ op ∈ new, op.x = (be.padding.left : ℚ) ∧ op.y ≤ (m.pixmap_height : ℚ) ∧
        op.x + op.width be < (m.pixmap_width : ℚ) + 1 := by
  obtain ⟨p, hp, _, new, hshown, hnew⟩ :=
    measure_then_draw be hext hpad priv face hface cr hcr m hm
  exact ⟨p, new, hp, hshown, hnew⟩

theorem C6_draw_within_measured_witness :
    beTie.RiseNonneg ∧ beTie.PaddingOk ∧ privBitmap12.face = some faceBitmap12 ∧
    gdk_cairo_create.font_face = cairo_font_face_t.context_default ∧
    sushi_font_widget_size_request beTie privBitmap12 =
      some { pixmap_width := 0, pixmap_height := 44, advances := [2, 27] } ∧
    ∃ p new, sushi_font_widget_draw beTie privBitmap12 gdk_cairo_create = some p ∧
      p.cr.shown = gdk_cairo_create.shown ++ new ∧
      ∀ op ∈ new, op.x = (beTie.padding.left : ℚ) ∧ op.y ≤ ((44 : Int) : ℚ) ∧
        op.x + op.width beTie < ((0 : Int) : ℚ) + 1 :=
  ⟨beTie_riseNonneg, beTie_paddingOk, rfl, rfl, size_request_beTie,
   C6_draw_within_measured beTie beTie_riseNonneg beTie_paddingOk privBitmap12 faceBitmap12 rfl
     gdk_cairo_create rfl _ size_request_beTie⟩

/-- C10: for every model whose face is absent, `sushi_font_widget_size_request`
reports width 1 and height 1, through both `get_preferred_width` and
`get_preferred_height` (minimum and natural size), and `sushi_font_widget_draw`
returns with the context exactly as it received it: nothing is shown, no font
or colour is set. -/
theorem C10_no_face_placeholder (be : Backend) (priv : SushiFontWidgetPrivate) (cr : cairo_t)
    (hface : priv.face = none) :
    sushi_font_widget_get_preferred_width be priv = some (1, 1) ∧
    sushi_font_widget_get_preferred_height be priv = some (1, 1) ∧
    sushi_font_widget_draw be priv cr = some { cr := cr, pos_y := 0, advances := [] } := by
  simp [sushi_font_widget_get_preferred_width, sushi_font_widget_get_preferred_height,
    sushi_font_widget_size_request, sushi_font_widget_draw, hface]

theorem C10_no_face_placeholder_witness :
    sushi_font_widget_init.face = none ∧
    sushi_font_widget_get_preferred_width beSample sushi_font_widget_init = some (1, 1) ∧
    sushi_font_widget_get_preferred_height beSample sushi_font_widget_init = some (1, 1) ∧
    sushi_font_widget_draw beSample sushi_font_widget_init gdk_cairo_create =
      some { cr := gdk_cairo_create, pos_y := 0, advances := [] } :=
  ⟨rfl, C10_no_face_placeholder beSample sushi_font_widget_init gdk_cairo_create rfl⟩

end Sushi
